import Mathlib

/-!
Fuzzy matcher of `wt` (`internal/fuzzy/fuzzy.go`).

A shallow embedding of the Go package `fuzzy` and of the three standard-library
routines it calls (`strings.ToLower`, `strings.Contains`, `sort.Slice`), followed by
theorems about `calculateScore` and `FuzzyMatch`.

Conventions.
* A Go `string` is its sequence of bytes: `len` is `List.length`, `s[i]` is the
  `i`-th byte.
* Go `int` is 64 bit.  Every integer computed here is bounded in absolute value by
  `600 + len(text) + 5 * len(text)^2 + 35 * len(text)` (see `scanLoop_score_le`), so for
  strings shorter than `2^30` bytes no operation wraps and `Int` is exact.
* `for` loops become structurally recursive functions with an argument that counts the
  iterations that are still possible.  Where a loop ends on a condition on the data, the
  count given by the caller is shown never to be the reason for the loop to stop
  (`scanLoop_fuel`, `siftDown_func_fuel`, `partitionLoop_fuel`, `partitionEqualLoop_fuel`,
  `pdqsort_func_fuel`).
-/

namespace Fuzzy

/-- A Go string, as its bytes. -/
abbrev Str := List UInt8

/-- The bytes (UTF-8) of a string literal. -/
def bytes (s : String) : Str := s.toUTF8.data.toList

/-! ## `strings` -/

/-- The ASCII branch of `strings.ToLower`: `'A'..'Z'` are moved by `'a' - 'A'`. -/
def lowerByte (c : UInt8) : UInt8 :=
  if 65 ≤ c ∧ c ≤ 90 then c + 32 else c

/-- Go `strings.ToLower`.  A string made of ASCII bytes only (all below `utf8.RuneSelf = 0x80`)
is lowered byte by byte; any other string goes through `Map(unicode.ToLower, s)`, whose
Unicode tables are not part of this development and which is taken as the parameter
`mapLower`. -/
def ToLower (mapLower : Str → Str) (s : Str) : Str :=
  if s.all (fun c => c < 128) then s.map lowerByte else mapLower s

/-- Go `strings.Contains(s, substr)`: whether `substr` occurs in `s` as a contiguous block. -/
def Contains : Str → Str → Bool
  | [], substr => substr.isPrefixOf []
  | c :: s, substr => substr.isPrefixOf (c :: s) || Contains s substr

/-! ## `calculateScore` -/

/-- The four local variables of the scan loop of `calculateScore`. -/
structure ScanState where
  patternIdx : Nat
  score : Int
  lastMatchIdx : Int
  consecutiveBonus : Int
  deriving DecidableEq, Repr

/-- The test `i == 0 || text[i-1] == '-' || text[i-1] == '_' || text[i-1] == '/'`. -/
def atWordBoundary (text : Str) (i : Nat) : Bool :=
  i == 0 || text[i - 1]? == some 45 || text[i - 1]? == some 95 || text[i - 1]? == some 47

/-- The body of the `if text[i] == pattern[patternIdx]` branch. -/
def scanMatch (text : Str) (i : Nat) (st : ScanState) : ScanState :=
  let consecutiveBonus :=
    if st.lastMatchIdx = (i : Int) - 1 then st.consecutiveBonus + 10 else st.consecutiveBonus
  let score := if atWordBoundary text i then st.score + 20 else st.score
  { patternIdx := st.patternIdx + 1
    score := score + (10 + consecutiveBonus)
    lastMatchIdx := i
    consecutiveBonus := consecutiveBonus }

/-- The loop `for i := 0; i < len(text) && patternIdx < len(pattern); i++`, entered at index
`i` with at most `n` iterations left. -/
def scanLoop (pattern text : Str) : Nat → Nat → ScanState → ScanState
  | 0, _, st => st
  | n + 1, i, st =>
    if i < text.length ∧ st.patternIdx < pattern.length then
      if text[i]? = pattern[st.patternIdx]? then
        scanLoop pattern text n (i + 1) (scanMatch text i st)
      else
        scanLoop pattern text n (i + 1) st
    else st

/-- The state before the first iteration. -/
def scanInit : ScanState :=
  { patternIdx := 0, score := 0, lastMatchIdx := -1, consecutiveBonus := 0 }

/-- The fuzzy branch of `calculateScore` (lines 55-82). -/
def fuzzyScore (pattern text : Str) : Int :=
  let st := scanLoop pattern text text.length 0 scanInit
  if st.patternIdx = pattern.length then st.score else 0

/-- Go `calculateScore(pattern, text)`; both arguments are already lowered by the caller. -/
def calculateScore (pattern text : Str) : Int :=
  if pattern = [] then 1
  else if text = pattern then 1000
  else if Contains text pattern then 500 + (100 - (text.length : Int))
  else fuzzyScore pattern text


/-! ## `sort.Slice`

`sort.Slice(x, less)` is `pdqsort_func(lessSwap{less, swap}, 0, len(x), bits.Len(uint(len(x))))`
(Go 1.19 and later, file `sort/zsortfunc.go`).  The slice is a list, `data.Less(i, j)` is
`lessAt lt data i j` for the order `lt` on elements that the closure `less` computes, and
`data.Swap(i, j)` is `swapAt data i j`.  The Go routines only ever use indices inside the
slice; outside of it `lessAt` is `false` and `swapAt` changes nothing. -/

section SortSlice

variable {α : Type}

/-- The call `data.Less(i, j)`. -/
def lessAt (lt : α → α → Bool) (data : List α) (i j : Nat) : Bool :=
  match data[i]?, data[j]? with
  | some x, some y => lt x y
  | _, _ => false

/-- The call `data.Swap(i, j)`. -/
def swapAt (data : List α) (i j : Nat) : List α :=
  match data[i]?, data[j]? with
  | some x, some y => (data.set i y).set j x
  | _, _ => data

/-- Inner loop of `insertionSort_func`: `for j := i; j > a && data.Less(j, j-1); j--`. -/
def insertionSortInner (lt : α → α → Bool) (a : Nat) : Nat → List α → List α
  | 0, data => data
  | j + 1, data =>
    if a < j + 1 ∧ lessAt lt data (j + 1) j then
      insertionSortInner lt a j (swapAt data (j + 1) j)
    else data

/-- Outer loop of `insertionSort_func`: `for i := a + 1; i < b; i++`, at `i` with `n`
iterations to go. -/
def insertionSortOuter (lt : α → α → Bool) (a : Nat) : Nat → Nat → List α → List α
  | 0, _, data => data
  | n + 1, i, data => insertionSortOuter lt a n (i + 1) (insertionSortInner lt a i data)

/-- Go `insertionSort_func(data, a, b)` sorts `data[a:b]` by insertion. -/
def insertionSort_func (lt : α → α → Bool) (data : List α) (a b : Nat) : List α :=
  insertionSortOuter lt a (b - (a + 1)) (a + 1) data

/-- Go `siftDown_func(data, lo, hi, first)`; the loop variable `root` starts at `lo` and at
least doubles in every iteration, `n` bounds the number of iterations. -/
def siftDown_func (lt : α → α → Bool) (hi first : Nat) : Nat → Nat → List α → List α
  | 0, _, data => data
  | n + 1, root, data =>
    let child := 2 * root + 1
    if hi ≤ child then data
    else
      let child :=
        if child + 1 < hi ∧ lessAt lt data (first + child) (first + child + 1) then child + 1
        else child
      if ¬ lessAt lt data (first + root) (first + child) then data
      else siftDown_func lt hi first n child (swapAt data (first + root) (first + child))

/-- First loop of `heapSort_func`: `for i := (hi - 1) / 2; i >= 0; i--`; the argument is
`i + 1`. -/
def heapBuild (lt : α → α → Bool) (hi first : Nat) : Nat → List α → List α
  | 0, data => data
  | i + 1, data => heapBuild lt hi first i (siftDown_func lt hi first hi i data)

/-- Second loop of `heapSort_func`: `for i := hi - 1; i >= 0; i--`; the argument is
`i + 1`. -/
def heapPop (lt : α → α → Bool) (first : Nat) : Nat → List α → List α
  | 0, data => data
  | i + 1, data => heapPop lt first i (siftDown_func lt i first i 0 (swapAt data first (first + i)))

/-- Go `heapSort_func(data, a, b)`. -/
def heapSort_func (lt : α → α → Bool) (data : List α) (a b : Nat) : List α :=
  let first := a
  let hi := b - a
  heapPop lt first hi (heapBuild lt hi first ((hi - 1) / 2 + 1) data)

/-- The loop `for i <= j && data.Less(i, a) { i++ }` of `partition_func`. -/
def partitionUp (lt : α → α → Bool) (data : List α) (a j : Nat) : Nat → Nat → Nat
  | 0, i => i
  | n + 1, i => if i ≤ j ∧ lessAt lt data i a then partitionUp lt data a j n (i + 1) else i

/-- The loop `for i <= j && !data.Less(j, a) { j-- }` of `partition_func`. -/
def partitionDown (lt : α → α → Bool) (data : List α) (a i : Nat) : Nat → Nat
  | 0 => 0
  | j + 1 => if i ≤ j + 1 ∧ ¬ lessAt lt data (j + 1) a then partitionDown lt data a i j else j + 1

/-- The `for { ... }` loop of `partition_func`; returns the slice and the final `j`. -/
def partitionLoop (lt : α → α → Bool) (a : Nat) : Nat → List α → Nat → Nat → List α × Nat
  | 0, data, _, j => (data, j)
  | n + 1, data, i, j =>
    let i := partitionUp lt data a j (j + 1 - i) i
    let j := partitionDown lt data a i j
    if j < i then (data, j)
    else partitionLoop lt a n (swapAt data i j) (i + 1) (j - 1)

/-- Go `partition_func(data, a, b, pivot)`: the slice, `newpivot` and `alreadyPartitioned`. -/
def partition_func (lt : α → α → Bool) (data : List α) (a b pivot : Nat) :
    List α × Nat × Bool :=
  let data := swapAt data a pivot
  let i := a + 1
  let j := b - 1
  let i := partitionUp lt data a j (j + 1 - i) i
  let j := partitionDown lt data a i j
  if j < i then (swapAt data j a, j, true)
  else
    let data := swapAt data i j
    let r := partitionLoop lt a (j - i + 1) data (i + 1) (j - 1)
    (swapAt r.1 r.2 a, r.2, false)

/-- The loop `for i <= j && !data.Less(a, i) { i++ }` of `partitionEqual_func`. -/
def partitionEqualUp (lt : α → α → Bool) (data : List α) (a j : Nat) : Nat → Nat → Nat
  | 0, i => i
  | n + 1, i =>
    if i ≤ j ∧ ¬ lessAt lt data a i then partitionEqualUp lt data a j n (i + 1) else i

/-- The loop `for i <= j && data.Less(a, j) { j-- }` of `partitionEqual_func`. -/
def partitionEqualDown (lt : α → α → Bool) (data : List α) (a i : Nat) : Nat → Nat
  | 0 => 0
  | j + 1 =>
    if i ≤ j + 1 ∧ lessAt lt data a (j + 1) then partitionEqualDown lt data a i j else j + 1

/-- The `for { ... }` loop of `partitionEqual_func`; returns the slice and the final `i`. -/
def partitionEqualLoop (lt : α → α → Bool) (a : Nat) : Nat → List α → Nat → Nat → List α × Nat
  | 0, data, i, _ => (data, i)
  | n + 1, data, i, j =>
    let i := partitionEqualUp lt data a j (j + 1 - i) i
    let j := partitionEqualDown lt data a i j
    if j < i then (data, i)
    else partitionEqualLoop lt a n (swapAt data i j) (i + 1) (j - 1)

/-- Go `partitionEqual_func(data, a, b, pivot)`: the slice and `newpivot`. -/
def partitionEqual_func (lt : α → α → Bool) (data : List α) (a b pivot : Nat) : List α × Nat :=
  partitionEqualLoop lt a (b - a + 1) (swapAt data a pivot) (a + 1) (b - 1)

/-- The loop `for i < b && !data.Less(i, i-1) { i++ }` of `partialInsertionSort_func`. -/
def partialScan (lt : α → α → Bool) (data : List α) (b : Nat) : Nat → Nat → Nat
  | 0, i => i
  | n + 1, i => if i < b ∧ ¬ lessAt lt data i (i - 1) then partialScan lt data b n (i + 1) else i

/-- The loop `for j := i - 1; j >= 1; j--` of `partialInsertionSort_func` (shift the smaller
one to the left). -/
def partialShiftLeft (lt : α → α → Bool) : Nat → List α → List α
  | 0, data => data
  | j + 1, data =>
    if ¬ lessAt lt data (j + 1) j then data else partialShiftLeft lt j (swapAt data (j + 1) j)

/-- The loop `for j := i + 1; j < b; j++` of `partialInsertionSort_func` (shift the greater
one to the right). -/
def partialShiftRight (lt : α → α → Bool) (b : Nat) : Nat → Nat → List α → List α
  | 0, _, data => data
  | n + 1, j, data =>
    if j < b then
      if ¬ lessAt lt data j (j - 1) then data
      else partialShiftRight lt b n (j + 1) (swapAt data j (j - 1))
    else data

/-- The loop `for j := 0; j < maxSteps; j++` of `partialInsertionSort_func`, with `steps`
iterations to go. -/
def partialInsertionLoop (lt : α → α → Bool) (a b : Nat) : Nat → Nat → List α → List α × Bool
  | 0, _, data => (data, false)
  | steps + 1, i, data =>
    let i := partialScan lt data b (b - i) i
    if i = b then (data, true)
    else if b - a < 50 then (data, false)
    else
      let data := swapAt data i (i - 1)
      let data := if 2 ≤ i - a then partialShiftLeft lt (i - 1) data else data
      let data := if 2 ≤ b - i then partialShiftRight lt b (b - (i + 1)) (i + 1) data else data
      partialInsertionLoop lt a b steps i data

/-- Go `partialInsertionSort_func(data, a, b)`, with `maxSteps = 5` and
`shortestShifting = 50`. -/
def partialInsertionSort_func (lt : α → α → Bool) (data : List α) (a b : Nat) : List α × Bool :=
  partialInsertionLoop lt a b 5 (a + 1) data

/-- Go `xorshift.Next` on a 64-bit state. -/
def xorshiftNext (r : Nat) : Nat :=
  let r := r ^^^ ((r <<< 13) % 2 ^ 64)
  let r := r ^^^ (r >>> 7)
  r ^^^ ((r <<< 17) % 2 ^ 64)

/-- Go `bits.Len(x)`: the number of bits needed to write `x`. -/
def bitsLen (x : Nat) : Nat := if x = 0 then 0 else Nat.log2 x + 1

/-- Go `nextPowerOfTwo(length)`. -/
def nextPowerOfTwo (length : Nat) : Nat := 1 <<< bitsLen length

/-- The loop `for i := 0; i < 3; i++` of `breakPatterns_func`, with `n` iterations to go. -/
def breakPatternsLoop (a length modulus idx : Nat) : Nat → Nat → Nat → List α → List α
  | 0, _, _, data => data
  | n + 1, i, random, data =>
    let random := xorshiftNext random
    let other := random &&& (modulus - 1)
    let other := if length ≤ other then other - length else other
    breakPatternsLoop a length modulus idx n (i + 1) random (swapAt data (idx - 1 + i) (a + other))

/-- Go `breakPatterns_func(data, a, b)`. -/
def breakPatterns_func (data : List α) (a b : Nat) : List α :=
  let length := b - a
  if 8 ≤ length then
    breakPatternsLoop a length (nextPowerOfTwo length) (a + (length / 4) * 2 - 1) 3 0
      (length % 2 ^ 64) data
  else data

/-- The hints returned by `choosePivot_func`. -/
inductive sortedHint where
  | unknownHint
  | increasingHint
  | decreasingHint
  deriving DecidableEq, Repr

/-- Go `order2_func(data, a, b, swaps)`: the ordered pair of indices and the new `*swaps`. -/
def order2_func (lt : α → α → Bool) (data : List α) (a b swaps : Nat) : Nat × Nat × Nat :=
  if lessAt lt data b a then (b, a, swaps + 1) else (a, b, swaps)

/-- Go `median_func(data, a, b, c, swaps)`: the index of the median and the new `*swaps`. -/
def median_func (lt : α → α → Bool) (data : List α) (a b c swaps : Nat) : Nat × Nat :=
  let ab := order2_func lt data a b swaps
  let bc := order2_func lt data ab.2.1 c ab.2.2
  let ab := order2_func lt data ab.1 bc.1 bc.2.2
  (ab.2.1, ab.2.2)

/-- Go `medianAdjacent_func(data, a, swaps)`. -/
def medianAdjacent_func (lt : α → α → Bool) (data : List α) (a swaps : Nat) : Nat × Nat :=
  median_func lt data (a - 1) a (a + 1) swaps

/-- The `switch swaps` at the end of `choosePivot_func`, with `maxSwaps = 4 * 3`. -/
def pivotHint (js : Nat × Nat) : Nat × sortedHint :=
  if js.2 = 0 then (js.1, sortedHint.increasingHint)
  else if js.2 = 12 then (js.1, sortedHint.decreasingHint)
  else (js.1, sortedHint.unknownHint)

/-- Go `choosePivot_func(data, a, b)`, with `shortestNinther = 50`. -/
def choosePivot_func (lt : α → α → Bool) (data : List α) (a b : Nat) : Nat × sortedHint :=
  let l := b - a
  let i := a + l / 4 * 1
  let j := a + l / 4 * 2
  let k := a + l / 4 * 3
  if 8 ≤ l then
    if 50 ≤ l then
      let i := medianAdjacent_func lt data i 0
      let j := medianAdjacent_func lt data j i.2
      let k := medianAdjacent_func lt data k j.2
      pivotHint (median_func lt data i.1 j.1 k.1 k.2)
    else pivotHint (median_func lt data i j k 0)
  else pivotHint (j, 0)

/-- The loop `for i < j { data.Swap(i, j); i++; j-- }` of `reverseRange_func`. -/
def reverseRangeLoop : Nat → Nat → Nat → List α → List α
  | 0, _, _, data => data
  | n + 1, i, j, data =>
    if i < j then reverseRangeLoop n (i + 1) (j - 1) (swapAt data i j) else data

/-- Go `reverseRange_func(data, a, b)`. -/
def reverseRange_func (data : List α) (a b : Nat) : List α :=
  reverseRangeLoop (b - a) a (b - 1) data

/-- The part of one iteration of `pdqsort_func` between the heapsort test and the
partitioning: `breakPatterns_func` (with `limit--`) after an unbalanced partition,
`choosePivot_func`, the reversal on `decreasingHint`, and `partialInsertionSort_func` when
the slice is likely sorted.  Returns the slice, `limit`, `pivot` and whether
`partialInsertionSort_func` reported a sorted slice. -/
def pdqsortPivot (lt : α → α → Bool) (data : List α) (a b limit : Nat)
    (wasBalanced wasPartitioned : Bool) : List α × Nat × Nat × Bool :=
  let data := if wasBalanced then data else breakPatterns_func data a b
  let limit := if wasBalanced then limit else limit - 1
  let ph := choosePivot_func lt data a b
  let data :=
    if ph.2 = sortedHint.decreasingHint then reverseRange_func data a b else data
  let pivot :=
    if ph.2 = sortedHint.decreasingHint then (b - 1) - (ph.1 - a) else ph.1
  let hint :=
    if ph.2 = sortedHint.decreasingHint then sortedHint.increasingHint else ph.2
  let ps :=
    if wasBalanced ∧ wasPartitioned ∧ hint = sortedHint.increasingHint then
      partialInsertionSort_func lt data a b
    else (data, false)
  (ps.1, limit, pivot, ps.2)

/-- Go `pdqsort_func(data, a, b, limit)`, with `maxInsertion = 12`.  One unfolding is one
iteration of the `for` loop; `wasBalanced` and `wasPartitioned` are the loop's two local
flags (both `true` on entry) and the first argument bounds the iterations and the depth of
the recursion: every iteration that does not return shrinks `b - a`, so any bound above
`b - a` gives the same result (`pdqsort_func_fuel`). -/
def pdqsort_func (lt : α → α → Bool) :
    Nat → List α → Nat → Nat → Nat → Bool → Bool → List α
  | 0, data, _, _, _, _, _ => data
  | fuel + 1, data, a, b, limit, wasBalanced, wasPartitioned =>
    if b - a ≤ 12 then insertionSort_func lt data a b
    else if limit = 0 then heapSort_func lt data a b
    else
      let st := pdqsortPivot lt data a b limit wasBalanced wasPartitioned
      if st.2.2.2 then st.1
      else if 0 < a ∧ ¬ lessAt lt st.1 (a - 1) st.2.2.1 then
        let pe := partitionEqual_func lt st.1 a b st.2.2.1
        pdqsort_func lt fuel pe.1 pe.2 b st.2.1 wasBalanced wasPartitioned
      else
        let pt := partition_func lt st.1 a b st.2.2.1
        if pt.2.1 - a < b - pt.2.1 then
          pdqsort_func lt fuel (pdqsort_func lt fuel pt.1 a pt.2.1 st.2.1 true true)
            (pt.2.1 + 1) b st.2.1 (decide ((b - a) / 8 ≤ pt.2.1 - a)) pt.2.2
        else
          pdqsort_func lt fuel (pdqsort_func lt fuel pt.1 (pt.2.1 + 1) b st.2.1 true true)
            a pt.2.1 st.2.1 (decide ((b - a) / 8 ≤ b - pt.2.1)) pt.2.2

/-- Go `sort.Slice(x, less)`. -/
def Slice (lt : α → α → Bool) (x : List α) : List α :=
  let length := x.length
  let limit := bitsLen length
  pdqsort_func lt (length + 1) x 0 length limit true true

end SortSlice

/-! ## `FuzzyMatch` -/

/-- A fuzzy match result. -/
structure Match where
  Text : Str
  Score : Int
  deriving DecidableEq, Repr

/-- The body of the loop over `candidates` in `FuzzyMatch`. -/
def matchStep (mapLower : Str → Str) (pattern : Str) (acc : List Match) (candidate : Str) :
    List Match :=
  let score := calculateScore pattern (ToLower mapLower candidate)
  if score > 0 then acc ++ [{ Text := candidate, Score := score }] else acc

/-- The closure passed to `sort.Slice`: `matches[i].Score > matches[j].Score`. -/
def scoreDesc (x y : Match) : Bool := decide (x.Score > y.Score)

/-- Go `FuzzyMatch(pattern, candidates)`. -/
def FuzzyMatch (mapLower : Str → Str) (pattern : Str) (candidates : List Str) : List Match :=
  let pattern := ToLower mapLower pattern
  let found := candidates.foldl (matchStep mapLower pattern) []
  Slice scoreDesc found

/-- Go `BestMatch(pattern, candidates)`: the text of `matches[0]`, or `""` when there is no
match. -/
def BestMatch (mapLower : Str → Str) (pattern : Str) (candidates : List Str) : Str :=
  match FuzzyMatch mapLower pattern candidates with
  | [] => []
  | m :: _ => m.Text

/-- The constant `maxAlloc` of package `runtime` on a 64-bit platform, where `heapAddrBits`
is 48: the largest size in bytes that an allocation may have. -/
def maxAlloc : Nat := 2 ^ 48

/-- Go `make([]string, 0, n)`, that is `runtime.makeslice(et, 0, n)` for an element size of
16 bytes on a 64-bit platform: `mem, overflow := math.MulUintptr(et.Size_, uintptr(cap))`,
then `if overflow || mem > maxAlloc || len < 0 || len > cap` the panic `makeslice: cap out of
range`, for which `none` stands.  `uintptr(cap)` is `n` modulo `2^64`, so a negative capacity
and a capacity of more than `2^44` elements both panic.  Within the limit the result is the
empty slice; `mallocgc` is taken to return the memory. -/
def makeStrings (n : Int) : Option (List Str) :=
  let len : Int := 0
  let cap : Nat := (n % ((2 ^ 64 : Nat) : Int)).toNat
  let mem : Nat := 16 * cap
  if mem ≥ 2 ^ 64 ∨ mem > maxAlloc ∨ len < 0 ∨ len > n then none else some []

/-- The loop `for i := 0; i < len(matches) && i < n; i++ { result = append(result,
matches[i].Text) }` of `TopMatches`, at index `i` with at most `fuel` iterations left; `none`
stands for an index out of range. -/
def topLoop (found : List Match) (n : Int) : Nat → Nat → List Str → Option (List Str)
  | 0, _, result => some result
  | fuel + 1, i, result =>
    if i < found.length ∧ (i : Int) < n then
      match found[i]? with
      | some m => topLoop found n fuel (i + 1) (result ++ [m.Text])
      | none => none
    else some result

/-- Go `TopMatches(pattern, candidates, n)`; `none` stands for a run-time panic. -/
def TopMatches (mapLower : Str → Str) (pattern : Str) (candidates : List Str) (n : Int) :
    Option (List Str) :=
  let found := FuzzyMatch mapLower pattern candidates
  match makeStrings n with
  | none => none
  | some result => topLoop found n found.length 0 result

/-! ## `strings.TrimSpace`, `strconv.Atoi` and the selection prompts -/

/-- The table `asciiSpace` of package `strings`: tab, line feed, vertical tab, form feed,
carriage return and space. -/
def asciiSpace (c : UInt8) : Bool :=
  c == 9 || c == 10 || c == 11 || c == 12 || c == 13 || c == 32

/-- Second loop of `strings.TrimSpace`: `for ; stop > start; stop--` on `s = s[start:]`, the
argument is `stop`.  A byte from `utf8.RuneSelf` on hands over to
`TrimRightFunc(s[start:stop], unicode.IsSpace)`, taken as the parameter `trimRightU`. -/
def trimStop (trimRightU : Str → Str) (s : Str) : Nat → Str
  | 0 => []
  | stop + 1 =>
    match s[stop]? with
    | some c =>
      if c ≥ 128 then trimRightU (s.take (stop + 1))
      else if asciiSpace c then trimStop trimRightU s stop
      else s.take (stop + 1)
    | none => s.take (stop + 1)

/-- Go `strings.TrimSpace(s)`.  The first loop walks over the leading ASCII white space; a
byte from `utf8.RuneSelf` on hands over to `TrimFunc(s[start:], unicode.IsSpace)`, taken as
the parameter `trimU`. -/
def TrimSpace (trimU trimRightU : Str → Str) : Str → Str
  | [] => []
  | c :: s =>
    if c ≥ 128 then trimU (c :: s)
    else if asciiSpace c then TrimSpace trimU trimRightU s
    else trimStop trimRightU (c :: s) (c :: s).length

/-- The digit loop of `strconv.ParseUint(s, 10, 64)`: `none` for a byte that is not a decimal
digit (syntax error) and for a value above `maxUint64` (range error). -/
def parseUintLoop : Nat → Str → Option Nat
  | n, [] => some n
  | n, c :: s =>
    if 48 ≤ c ∧ c ≤ 57 then
      let n1 := n * 10 + (c.toNat - 48)
      if n1 > 2 ^ 64 - 1 then none else parseUintLoop n1 s
    else none

/-- Go `strconv.ParseUint(s, 10, 0)`, with `none` for any error. -/
def ParseUint (s : Str) : Option Nat :=
  if s = [] then none else parseUintLoop 0 s

/-- Go `strconv.ParseInt(s, 10, 0)` on a 64-bit platform, with `none` for any error: an
optional sign, then `ParseUint`, then the range check against `1 << 63`. -/
def ParseInt (s : Str) : Option Int :=
  match s with
  | [] => none
  | c :: rest =>
    let neg := c == 45
    let digits := if c == 43 ∨ c == 45 then rest else c :: rest
    match ParseUint digits with
    | none => none
    | some un =>
      if ¬ neg ∧ un ≥ 2 ^ 63 then none
      else if neg ∧ un > 2 ^ 63 then none
      else some (if neg then - (un : Int) else (un : Int))

/-- The digit loop of the fast path of `strconv.Atoi`: `ch -= '0'; if ch > 9 { syntax
error }; n = n*10 + int(ch)`. -/
def atoiLoop : Int → Str → Option Int
  | n, [] => some n
  | n, ch :: s =>
    let ch := ch - 48
    if ch > 9 then none else atoiLoop (n * 10 + (ch.toNat : Int)) s

/-- The fast path of `strconv.Atoi` (strings of 1 to 18 bytes on a 64-bit platform). -/
def atoiFast (s0 : Str) : Option Int :=
  match s0 with
  | [] => none
  | c :: rest =>
    let s := if c == 45 ∨ c == 43 then rest else c :: rest
    if (c == 45 ∨ c == 43) ∧ s.length < 1 then none
    else
      match atoiLoop 0 s with
      | none => none
      | some n => some (if c == 45 then - n else n)

/-- Go `strconv.Atoi(s)` on a 64-bit platform, with `none` for any error. -/
def Atoi (s : Str) : Option Int :=
  if 0 < s.length ∧ s.length < 19 then atoiFast s else ParseInt s

/-- The errors returned by the selection prompts; `indexOutOfRange` stands for the run-time
panic of `matches[selection-1]`. -/
inductive PromptError where
  | failedToRead
  | invalidSelection (input : Str)
  | indexOutOfRange
  deriving DecidableEq, Repr

/-- Go `promptSelection(matches)` of `navigate.go`, after the prompt is written: `read` is
`none` when `reader.ReadString` returned an error and the line read otherwise.  The texts
written to standard error are not modelled. -/
def promptSelection (trimU trimRightU : Str → Str) (found : List Match) (read : Option Str) :
    Except PromptError Str :=
  match read with
  | none => Except.error PromptError.failedToRead
  | some input =>
    let input := TrimSpace trimU trimRightU input
    match Atoi input with
    | none => Except.error (PromptError.invalidSelection input)
    | some selection =>
      if selection < 1 ∨ selection > (found.length : Int) then
        Except.error (PromptError.invalidSelection input)
      else
        match found[(selection - 1).toNat]? with
        | some m => Except.ok m.Text
        | none => Except.error PromptError.indexOutOfRange

/-- Go `promptDeleteSelection(matches)` of `delete.go`, after the prompt is written; `read` as
in `promptSelection`. -/
def promptDeleteSelection (trimU trimRightU : Str → Str) (found : List Match)
    (read : Option Str) : Except PromptError Str :=
  match read with
  | none => Except.error PromptError.failedToRead
  | some input =>
    let input := TrimSpace trimU trimRightU input
    match Atoi input with
    | none => Except.error (PromptError.invalidSelection input)
    | some selection =>
      if selection < 1 ∨ selection > (found.length : Int) then
        Except.error (PromptError.invalidSelection input)
      else
        match found[(selection - 1).toNat]? with
        | some m => Except.ok m.Text
        | none => Except.error PromptError.indexOutOfRange

/-! ## Specification-side definitions -/

/-- Invariant of the scan loop: the score and the bonus are never negative, and both are
bounded in terms of the number of matched pattern bytes. -/
def ScoreBound (st : ScanState) : Prop :=
  0 ≤ st.consecutiveBonus ∧ st.consecutiveBonus ≤ 10 * (st.patternIdx : Int) ∧
  0 ≤ st.score ∧
  st.score ≤ 5 * (st.patternIdx : Int) * (st.patternIdx : Int) + 35 * (st.patternIdx : Int)

/-- The score that `FuzzyMatch(pattern, _)` computes for one candidate. -/
def scoreOf (mapLower : Str → Str) (pattern candidate : Str) : Int :=
  calculateScore (ToLower mapLower pattern) (ToLower mapLower candidate)

/-- The specification of the unsorted result: walk the candidates in order and keep, for each
candidate with a positive score, the match made of the candidate and its score. -/
def keptMatches (mapLower : Str → Str) (pattern : Str) (candidates : List Str) : List Match :=
  (candidates.filter (fun c => decide (0 < scoreOf mapLower pattern c))).map
    (fun c => { Text := c, Score := scoreOf mapLower pattern c })

/-- The sort key of the element at index `i` of the slice (`0` outside the slice). -/
def kAt {α : Type} (key : α → Int) (data : List α) (i : Nat) : Int :=
  match data[i]? with
  | some x => key x
  | none => 0

/-- The slice `d2` comes from `d1` by moving elements around inside `[a, b)`: the lengths
agree, the keys outside `[a, b)` are untouched and every key found in `[a, b)` afterwards was
in `[a, b)` before. -/
def SegRel {α : Type} (key : α → Int) (a b : Nat) (d1 d2 : List α) : Prop :=
  d2.length = d1.length ∧
    (∀ m, m < a ∨ b ≤ m → kAt key d2 m = kAt key d1 m) ∧
    (∀ m, a ≤ m → m < b → ∃ m', a ≤ m' ∧ m' < b ∧ kAt key d2 m = kAt key d1 m')

/-- The keys of `data[a:b]` are in non-decreasing order. -/
def SortedSeg {α : Type} (key : α → Int) (a b : Nat) (data : List α) : Prop :=
  ∀ i j, a ≤ i → i ≤ j → j < b → kAt key data i ≤ kAt key data j

/-- No element of `data[a:b]` is smaller than the element just before the segment. -/
def LowBound {α : Type} (key : α → Int) (a b : Nat) (data : List α) : Prop :=
  a = 0 ∨ ∀ m, a ≤ m → m < b → kAt key data (a - 1) ≤ kAt key data m

/-- Heap order on the nodes `lo, lo + 1, ...` of the heap stored in `data[first : first + hi]`:
no child (inside the heap) has a greater key than its parent. -/
def HeapFrom {α : Type} (key : α → Int) (first hi lo : Nat) (data : List α) : Prop :=
  ∀ x c, lo ≤ x → (c = 2 * x + 1 ∨ c = 2 * x + 2) → c < hi →
    kAt key data (first + c) ≤ kAt key data (first + x)

/-- The match that `FuzzyMatch(pattern, candidates)` builds from input position `i`: the
candidate at that position, unmodified, with its score. -/
def matchAt (mapLower : Str → Str) (pattern : Str) (candidates : List Str) (i : Nat) : Match :=
  { Text := candidates.getD i [], Score := scoreOf mapLower pattern (candidates.getD i []) }

/-- The input positions whose candidate has a positive score, in input order. -/
def keptPositions (mapLower : Str → Str) (pattern : Str) (candidates : List Str) : List Nat :=
  (List.range candidates.length).filter
    (fun i => decide (0 < scoreOf mapLower pattern (candidates.getD i [])))

/-- Thirteen candidates for the pattern `a`: twelve that contain it (score 598 each) and,
last, the exact match. -/
def tieCandidates : List Str :=
  ["a1", "a2", "a3", "a4", "a5", "a6", "a7", "a8", "a9", "aA", "aB", "aC", "a"].map bytes

/-- The positions found by the left-to-right greedy scan: walk the text from index `i` with
the pattern cursor at `k` and record every index at which the current pattern byte is found. -/
def greedyFrom (pattern text : Str) : Nat → Nat → Nat → List Nat
  | 0, _, _ => []
  | n + 1, i, k =>
    if i < text.length ∧ k < pattern.length then
      if text[i]? = pattern[k]? then i :: greedyFrom pattern text n (i + 1) (k + 1)
      else greedyFrom pattern text n (i + 1) k
    else []

/-- The matched positions `p_1 < p_2 < ...` of the greedy scan of `text` for `pattern`. -/
def greedyPositions (pattern text : Str) : List Nat :=
  greedyFrom pattern text text.length 0 0

/-- The fold described by the specification over matched positions: every match adds `10`,
the running consecutive bonus, and `20` at a word boundary; the bonus grows by `10` exactly
at a match whose position is one past the previous match's position (`prev`). -/
def claimedFold (text : Str) : Option Nat → Int → List Nat → Int
  | _, _, [] => 0
  | prev, bonus, p :: ps =>
    let bonus := if prev.map (fun q => q + 1) = some p then bonus + 10 else bonus
    (10 + bonus + (if atWordBoundary text p then 20 else 0)) + claimedFold text (some p) bonus ps

/-- The subsequence-tier score as the specification describes it: the fold over the greedy
positions when they cover the whole pattern, `0` otherwise. -/
def claimedScore (pattern text : Str) : Int :=
  if (greedyPositions pattern text).length = pattern.length then
    claimedFold text none 0 (greedyPositions pattern text)
  else 0

/-- The fold that the code performs: as `claimedFold`, except that a first match at index `0`
also raises the bonus (`lastMatchIdx` starts at `-1`, which equals `i - 1` for `i = 0`). -/
def codeFold (text : Str) : Option Nat → Int → List Nat → Int
  | _, _, [] => 0
  | prev, bonus, p :: ps =>
    let bonus :=
      if prev.map (fun q => q + 1) = some p ∨ (prev = none ∧ p = 0) then bonus + 10 else bonus
    (10 + bonus + (if atWordBoundary text p then 20 else 0)) + codeFold text (some p) bonus ps

/-- An integer written in base ten: an optional sign followed by one or more decimal digits. -/
def decimalValue (s : Str) : Option Int :=
  match s with
  | [] => none
  | c :: rest =>
    let digits := if c == 43 ∨ c == 45 then rest else c :: rest
    if digits ≠ [] ∧ digits.all (fun d => decide (48 ≤ d ∧ d ≤ 57)) then
      let v : Nat := digits.foldl (fun n d => n * 10 + (d.toNat - 48)) 0
      some (if c == 45 then - (v : Int) else (v : Int))
    else none

/-! ## Facts about `strings.Contains` and the scan loop -/

theorem Contains_iff (s substr : Str) : Contains s substr = true ↔ substr <:+: s := by
  induction s with
  | nil =>
    simp only [Contains, List.isPrefixOf_iff_prefix, List.prefix_nil, List.infix_nil]
  | cons c s ih =>
    simp only [Contains, Bool.or_eq_true, List.isPrefixOf_iff_prefix, ih, List.infix_cons_iff]

/-- An invariant that survives a matching and a non-matching iteration survives the loop. -/
theorem scanLoop_inv (pattern text : Str) (P : Nat → ScanState → Prop)
    (hmatch : ∀ i st, P i st → i < text.length → st.patternIdx < pattern.length →
      text[i]? = pattern[st.patternIdx]? → P (i + 1) (scanMatch text i st))
    (hskip : ∀ i st, P i st → i < text.length → P (i + 1) st) :
    ∀ n i st, P i st → ∃ j, P j (scanLoop pattern text n i st) := by
  intro n
  induction n with
  | zero => intro i st h; exact ⟨i, h⟩
  | succ n ih =>
    intro i st h
    unfold scanLoop
    split_ifs with h1 h2
    · exact ih _ _ (hmatch i st h h1.1 h1.2 h2)
    · exact ih _ _ (hskip i st h h1.1)
    · exact ⟨i, h⟩

theorem scanMatch_scoreBound (text : Str) (i : Nat) (st : ScanState) (h : ScoreBound st) :
    ScoreBound (scanMatch text i st) := by
  obtain ⟨h1, h2, h3, h4⟩ := h
  unfold ScoreBound scanMatch
  simp only []
  push_cast
  refine ⟨?_, ?_, ?_, ?_⟩ <;> split_ifs <;> nlinarith

theorem scanLoop_scoreBound (pattern text : Str) (n i : Nat) (st : ScanState)
    (h : ScoreBound st) : ScoreBound (scanLoop pattern text n i st) := by
  obtain ⟨_, hj⟩ := scanLoop_inv pattern text (fun _ st => ScoreBound st)
    (fun i st h _ _ _ => scanMatch_scoreBound text i st h) (fun _ _ h _ => h) n i st h
  exact hj

theorem scanInit_scoreBound : ScoreBound scanInit := by
  unfold ScoreBound scanInit
  simp

theorem scanLoop_patternIdx_le (pattern text : Str) (n i : Nat) (st : ScanState)
    (h : st.patternIdx ≤ pattern.length) :
    (scanLoop pattern text n i st).patternIdx ≤ pattern.length := by
  obtain ⟨_, hj⟩ := scanLoop_inv pattern text
    (fun _ st => st.patternIdx ≤ pattern.length)
    (fun i st _ _ h2 _ => by simpa [scanMatch] using h2) (fun _ _ h _ => h) n i st h
  exact hj

/-- The matched prefix of the pattern is a subsequence of the scanned prefix of the text. -/
theorem scanLoop_sublist (pattern text : Str) (n i : Nat) (st : ScanState)
    (h : (pattern.take st.patternIdx).Sublist (text.take i)) :
    (pattern.take (scanLoop pattern text n i st).patternIdx).Sublist text := by
  obtain ⟨j, hj⟩ := scanLoop_inv pattern text
    (fun i st => (pattern.take st.patternIdx).Sublist (text.take i))
    (fun i st h _ _ h3 => by
      simp only [scanMatch, List.take_succ, h3]
      exact h.append (List.Sublist.refl _))
    (fun i st h _ => by
      simp only [List.take_succ]
      exact h.trans (List.sublist_append_left _ _)) n i st h
  exact hj.trans (List.take_sublist _ _)

theorem fuzzyScore_nonneg (pattern text : Str) : 0 ≤ fuzzyScore pattern text := by
  unfold fuzzyScore
  simp only []
  split_ifs
  · exact (scanLoop_scoreBound pattern text _ _ _ scanInit_scoreBound).2.2.1
  · exact le_refl _

/-- The fuzzy score of a pattern of `m` bytes is at most `5 m^2 + 35 m`. -/
theorem fuzzyScore_le (pattern text : Str) :
    fuzzyScore pattern text ≤
      5 * (pattern.length : Int) * (pattern.length : Int) + 35 * (pattern.length : Int) := by
  unfold fuzzyScore
  simp only []
  split_ifs with h
  · have := (scanLoop_scoreBound pattern text text.length 0 _ scanInit_scoreBound).2.2.2
    rw [h] at this
    exact this
  · positivity

/-- A positive fuzzy score means that the whole pattern was found in order. -/
theorem fuzzyScore_pos_sublist (pattern text : Str) (h : fuzzyScore pattern text ≠ 0) :
    pattern.Sublist text := by
  unfold fuzzyScore at h
  simp only [] at h
  split_ifs at h with h1
  · have := scanLoop_sublist pattern text text.length 0 scanInit (by simp [scanInit])
    rw [h1, List.take_length] at this
    exact this
  · exact absurd rfl h

/-- The integers handled by the scan stay far inside the range of a 64-bit `int`: the
number of matched bytes is at most `len(text)`. -/
theorem scanLoop_score_le (pattern text : Str) :
    let st := scanLoop pattern text text.length 0 scanInit
    0 ≤ st.score ∧ 0 ≤ st.consecutiveBonus ∧
    st.consecutiveBonus ≤ 10 * (text.length : Int) ∧
    st.score ≤ 5 * (text.length : Int) * (text.length : Int) + 35 * (text.length : Int) := by
  intro st
  have hb := scanLoop_scoreBound pattern text text.length 0 _ scanInit_scoreBound
  have hs := (scanLoop_sublist pattern text text.length 0 scanInit (by simp [scanInit])).length_le
  have hp := scanLoop_patternIdx_le pattern text text.length 0 scanInit (by simp [scanInit])
  rw [List.length_take, Nat.min_eq_left hp] at hs
  have hs' : (st.patternIdx : Int) ≤ (text.length : Int) := by exact_mod_cast hs
  obtain ⟨h1, h2, h3, h4⟩ := hb
  have h0 : (0 : Int) ≤ (st.patternIdx : Int) := Int.natCast_nonneg _
  refine ⟨h3, h1, by linarith, ?_⟩
  have : 5 * (st.patternIdx : Int) * (st.patternIdx : Int) ≤
      5 * (text.length : Int) * (text.length : Int) := by nlinarith
  linarith

/-- The scan loop runs at most `len(text) - i` times: a larger bound changes nothing. -/
theorem scanLoop_fuel (pattern text : Str) (n n' i : Nat) (st : ScanState)
    (hn : text.length - i ≤ n) (hn' : text.length - i ≤ n') :
    scanLoop pattern text n i st = scanLoop pattern text n' i st := by
  induction n generalizing n' i st with
  | zero =>
    cases n' with
    | zero => rfl
    | succ n' =>
      unfold scanLoop
      rw [if_neg (by omega)]
  | succ n ih =>
    cases n' with
    | zero =>
      unfold scanLoop
      rw [if_neg (by omega)]
    | succ n' =>
      unfold scanLoop
      split_ifs <;> first | rfl | exact ih _ _ _ (by omega) (by omega)

/-- What `calculateScore` returns, branch by branch. -/
theorem calculateScore_cases (pattern text : Str) :
    (pattern = [] ∧ calculateScore pattern text = 1) ∨
    (pattern ≠ [] ∧ text = pattern ∧ calculateScore pattern text = 1000) ∨
    (pattern ≠ [] ∧ text ≠ pattern ∧ pattern <:+: text ∧
      calculateScore pattern text = 600 - (text.length : Int)) ∨
    (pattern ≠ [] ∧ text ≠ pattern ∧ ¬ pattern <:+: text ∧
      calculateScore pattern text = fuzzyScore pattern text) := by
  unfold calculateScore
  by_cases h1 : pattern = []
  · exact Or.inl ⟨h1, by simp [h1]⟩
  · by_cases h2 : text = pattern
    · exact Or.inr (Or.inl ⟨h1, h2, by simp [h1, h2]⟩)
    · by_cases h3 : pattern <:+: text
      · refine Or.inr (Or.inr (Or.inl ⟨h1, h2, h3, ?_⟩))
        rw [if_neg h1, if_neg h2, if_pos ((Contains_iff _ _).2 h3)]
        ring
      · refine Or.inr (Or.inr (Or.inr ⟨h1, h2, h3, ?_⟩))
        rw [if_neg h1, if_neg h2, if_neg (by rw [Contains_iff]; exact h3)]

/-- A text that does not contain the pattern in order scores `0`. -/
theorem calculateScore_eq_zero_of_not_sublist (pattern text : Str)
    (h : ¬ pattern.Sublist text) : calculateScore pattern text = 0 := by
  rcases calculateScore_cases pattern text with ⟨h1, _⟩ | ⟨_, h2, _⟩ | ⟨_, _, h3, _⟩ | ⟨_, _, _, h4⟩
  · exact absurd (h1 ▸ List.nil_sublist _) h
  · exact absurd (h2 ▸ List.Sublist.refl _) h
  · exact absurd h3.sublist h
  · rw [h4]
    by_contra hne
    exact h (fuzzyScore_pos_sublist pattern text hne)

/-! ## `sort.Slice` permutes the slice -/

section SortPerm

variable {α : Type}

theorem cons_set_perm {l : List α} {j : Nat} {y : α} (a : α) (h : l[j]? = some y) :
    (y :: l.set j a).Perm (a :: l) := by
  induction l generalizing j with
  | nil => simp at h
  | cons b l ih =>
    cases j with
    | zero =>
      simp only [List.getElem?_cons_zero, Option.some.injEq] at h
      subst h
      exact List.Perm.swap _ _ _
    | succ j =>
      simp only [List.getElem?_cons_succ] at h
      simp only [List.set_cons_succ]
      exact (List.Perm.swap _ _ _).trans (((ih h).cons b).trans (List.Perm.swap _ _ _))

theorem swapAt_perm (data : List α) (i j : Nat) : (swapAt data i j).Perm data := by
  induction data generalizing i j with
  | nil => simp [swapAt]
  | cons a l ih =>
    unfold swapAt
    cases i with
    | zero =>
      cases j with
      | zero => simp
      | succ j =>
        simp only [List.getElem?_cons_zero, List.getElem?_cons_succ]
        cases hj : l[j]? with
        | none => simp
        | some y => simpa using cons_set_perm a hj
    | succ i =>
      cases j with
      | zero =>
        simp only [List.getElem?_cons_zero, List.getElem?_cons_succ]
        cases hi : l[i]? with
        | none => simp
        | some x => simpa using cons_set_perm a hi
      | succ j =>
        simp only [List.getElem?_cons_succ]
        have := ih i j
        unfold swapAt at this
        cases hi : l[i]? with
        | none => simp
        | some x =>
          cases hj : l[j]? with
          | none => simp
          | some y =>
            simp only [hi, hj] at this
            simpa using this

theorem insertionSortInner_perm (lt : α → α → Bool) (a : Nat) (j : Nat) (data : List α) :
    (insertionSortInner lt a j data).Perm data := by
  induction j generalizing data with
  | zero => exact List.Perm.refl _
  | succ j ih =>
    unfold insertionSortInner
    split_ifs
    · exact (ih _).trans (swapAt_perm _ _ _)
    · exact List.Perm.refl _

theorem insertionSortOuter_perm (lt : α → α → Bool) (a n i : Nat) (data : List α) :
    (insertionSortOuter lt a n i data).Perm data := by
  induction n generalizing i data with
  | zero => exact List.Perm.refl _
  | succ n ih =>
    unfold insertionSortOuter
    exact (ih _ _).trans (insertionSortInner_perm lt a i data)

theorem insertionSort_func_perm (lt : α → α → Bool) (data : List α) (a b : Nat) :
    (insertionSort_func lt data a b).Perm data :=
  insertionSortOuter_perm lt a _ _ data

theorem siftDown_func_perm (lt : α → α → Bool) (hi first n root : Nat) (data : List α) :
    (siftDown_func lt hi first n root data).Perm data := by
  induction n generalizing root data with
  | zero => exact List.Perm.refl _
  | succ n ih =>
    unfold siftDown_func
    simp only []
    split_ifs <;> first | exact List.Perm.refl _ | exact (ih _ _).trans (swapAt_perm _ _ _)

theorem heapBuild_perm (lt : α → α → Bool) (hi first i : Nat) (data : List α) :
    (heapBuild lt hi first i data).Perm data := by
  induction i generalizing data with
  | zero => exact List.Perm.refl _
  | succ i ih =>
    unfold heapBuild
    exact (ih _).trans (siftDown_func_perm lt _ _ _ _ _)

theorem heapPop_perm (lt : α → α → Bool) (first i : Nat) (data : List α) :
    (heapPop lt first i data).Perm data := by
  induction i generalizing data with
  | zero => exact List.Perm.refl _
  | succ i ih =>
    unfold heapPop
    exact (ih _).trans ((siftDown_func_perm lt _ _ _ _ _).trans (swapAt_perm _ _ _))

theorem heapSort_func_perm (lt : α → α → Bool) (data : List α) (a b : Nat) :
    (heapSort_func lt data a b).Perm data :=
  (heapPop_perm lt _ _ _).trans (heapBuild_perm lt _ _ _ _)

theorem partitionLoop_perm (lt : α → α → Bool) (a n : Nat) (data : List α) (i j : Nat) :
    (partitionLoop lt a n data i j).1.Perm data := by
  induction n generalizing data i j with
  | zero => exact List.Perm.refl _
  | succ n ih =>
    unfold partitionLoop
    simp only []
    split_ifs
    · exact List.Perm.refl _
    · exact (ih _ _ _).trans (swapAt_perm _ _ _)

theorem partition_func_perm (lt : α → α → Bool) (data : List α) (a b pivot : Nat) :
    (partition_func lt data a b pivot).1.Perm data := by
  unfold partition_func
  simp only []
  split_ifs
  · exact (swapAt_perm _ _ _).trans (swapAt_perm _ _ _)
  · exact (swapAt_perm _ _ _).trans ((partitionLoop_perm lt _ _ _ _ _).trans
      ((swapAt_perm _ _ _).trans (swapAt_perm _ _ _)))

theorem partitionEqualLoop_perm (lt : α → α → Bool) (a n : Nat) (data : List α) (i j : Nat) :
    (partitionEqualLoop lt a n data i j).1.Perm data := by
  induction n generalizing data i j with
  | zero => exact List.Perm.refl _
  | succ n ih =>
    unfold partitionEqualLoop
    simp only []
    split_ifs
    · exact List.Perm.refl _
    · exact (ih _ _ _).trans (swapAt_perm _ _ _)

theorem partitionEqual_func_perm (lt : α → α → Bool) (data : List α) (a b pivot : Nat) :
    (partitionEqual_func lt data a b pivot).1.Perm data :=
  (partitionEqualLoop_perm lt _ _ _ _ _).trans (swapAt_perm _ _ _)

theorem partialShiftLeft_perm (lt : α → α → Bool) (j : Nat) (data : List α) :
    (partialShiftLeft lt j data).Perm data := by
  induction j generalizing data with
  | zero => exact List.Perm.refl _
  | succ j ih =>
    unfold partialShiftLeft
    split_ifs
    · exact (ih _).trans (swapAt_perm _ _ _)
    · exact List.Perm.refl _

theorem partialShiftRight_perm (lt : α → α → Bool) (b n j : Nat) (data : List α) :
    (partialShiftRight lt b n j data).Perm data := by
  induction n generalizing j data with
  | zero => exact List.Perm.refl _
  | succ n ih =>
    unfold partialShiftRight
    split_ifs
    · exact (ih _ _).trans (swapAt_perm _ _ _)
    · exact List.Perm.refl _
    · exact List.Perm.refl _

theorem partialInsertionLoop_perm (lt : α → α → Bool) (a b steps i : Nat) (data : List α) :
    (partialInsertionLoop lt a b steps i data).1.Perm data := by
  induction steps generalizing i data with
  | zero => exact List.Perm.refl _
  | succ steps ih =>
    unfold partialInsertionLoop
    simp only []
    split_ifs <;>
      first
      | exact List.Perm.refl _
      | exact (ih _ _).trans ((partialShiftRight_perm lt _ _ _ _).trans
          ((partialShiftLeft_perm lt _ _).trans (swapAt_perm _ _ _)))
      | exact (ih _ _).trans ((partialShiftLeft_perm lt _ _).trans (swapAt_perm _ _ _))
      | exact (ih _ _).trans ((partialShiftRight_perm lt _ _ _ _).trans (swapAt_perm _ _ _))
      | exact (ih _ _).trans (swapAt_perm _ _ _)

theorem partialInsertionSort_func_perm (lt : α → α → Bool) (data : List α) (a b : Nat) :
    (partialInsertionSort_func lt data a b).1.Perm data :=
  partialInsertionLoop_perm lt a b _ _ data

theorem breakPatternsLoop_perm (a length modulus idx n i random : Nat) (data : List α) :
    (breakPatternsLoop a length modulus idx n i random data).Perm data := by
  induction n generalizing i random data with
  | zero => exact List.Perm.refl _
  | succ n ih =>
    unfold breakPatternsLoop
    exact (ih _ _ _).trans (swapAt_perm _ _ _)

theorem breakPatterns_func_perm (data : List α) (a b : Nat) :
    (breakPatterns_func data a b).Perm data := by
  unfold breakPatterns_func
  simp only []
  split_ifs
  · exact breakPatternsLoop_perm _ _ _ _ _ _ _ _
  · exact List.Perm.refl _

theorem reverseRangeLoop_perm (n i j : Nat) (data : List α) :
    (reverseRangeLoop n i j data).Perm data := by
  induction n generalizing i j data with
  | zero => exact List.Perm.refl _
  | succ n ih =>
    unfold reverseRangeLoop
    split_ifs
    · exact (ih _ _ _).trans (swapAt_perm _ _ _)
    · exact List.Perm.refl _

theorem reverseRange_func_perm (data : List α) (a b : Nat) :
    (reverseRange_func data a b).Perm data :=
  reverseRangeLoop_perm _ _ _ _

theorem pdqsortPivot_perm (lt : α → α → Bool) (data : List α) (a b limit : Nat)
    (wasBalanced wasPartitioned : Bool) :
    (pdqsortPivot lt data a b limit wasBalanced wasPartitioned).1.Perm data := by
  unfold pdqsortPivot
  simp only []
  have h1 : (if wasBalanced = true then data else breakPatterns_func data a b).Perm data := by
    split_ifs
    · exact List.Perm.refl _
    · exact breakPatterns_func_perm _ _ _
  generalize (if wasBalanced = true then data else breakPatterns_func data a b) = d1 at h1 ⊢
  generalize choosePivot_func lt d1 a b = ph
  have h2 : (if ph.2 = sortedHint.decreasingHint then reverseRange_func d1 a b else d1).Perm d1 := by
    split_ifs
    · exact reverseRange_func_perm _ _ _
    · exact List.Perm.refl _
  generalize (if ph.2 = sortedHint.decreasingHint then reverseRange_func d1 a b else d1) = d2
    at h2 ⊢
  split_ifs <;>
    first
    | exact (partialInsertionSort_func_perm _ _ _ _).trans (h2.trans h1)
    | exact h2.trans h1

theorem pdqsort_func_perm (lt : α → α → Bool) (fuel : Nat) (data : List α)
    (a b limit : Nat) (wasBalanced wasPartitioned : Bool) :
    (pdqsort_func lt fuel data a b limit wasBalanced wasPartitioned).Perm data := by
  induction fuel generalizing data a b limit wasBalanced wasPartitioned with
  | zero => exact List.Perm.refl _
  | succ fuel ih =>
    rw [pdqsort_func]
    have hst := pdqsortPivot_perm lt data a b limit wasBalanced wasPartitioned
    generalize pdqsortPivot lt data a b limit wasBalanced wasPartitioned = st at hst ⊢
    simp only []
    split_ifs
    · exact insertionSort_func_perm _ _ _ _
    · exact heapSort_func_perm _ _ _ _
    · exact hst
    · exact (ih _ _ _ _ _ _).trans ((partitionEqual_func_perm _ _ _ _ _).trans hst)
    · exact (ih _ _ _ _ _ _).trans ((ih _ _ _ _ _ _).trans
        ((partition_func_perm _ _ _ _ _).trans hst))
    · exact (ih _ _ _ _ _ _).trans ((ih _ _ _ _ _ _).trans
        ((partition_func_perm _ _ _ _ _).trans hst))

theorem Slice_perm (lt : α → α → Bool) (x : List α) : (Slice lt x).Perm x :=
  pdqsort_func_perm lt _ _ _ _ _ _ _

end SortPerm

/-! ## `FuzzyMatch`: the collected matches -/

theorem foldl_matchStep (mapLower : Str → Str) (pattern : Str) (cs : List Str)
    (acc : List Match) :
    cs.foldl (matchStep mapLower (ToLower mapLower pattern)) acc =
      acc ++ keptMatches mapLower pattern cs := by
  induction cs generalizing acc with
  | nil => simp [keptMatches]
  | cons c cs ih =>
    rw [List.foldl_cons, ih]
    unfold matchStep keptMatches
    simp only [List.filter_cons, scoreOf, gt_iff_lt]
    by_cases h : 0 < calculateScore (ToLower mapLower pattern) (ToLower mapLower c)
    · simp [h]
    · simp [h]

theorem FuzzyMatch_eq (mapLower : Str → Str) (pattern : Str) (cs : List Str) :
    FuzzyMatch mapLower pattern cs = Slice scoreDesc (keptMatches mapLower pattern cs) := by
  unfold FuzzyMatch
  simp only [foldl_matchStep, List.nil_append]

theorem FuzzyMatch_perm (mapLower : Str → Str) (pattern : Str) (cs : List Str) :
    (FuzzyMatch mapLower pattern cs).Perm (keptMatches mapLower pattern cs) := by
  rw [FuzzyMatch_eq]
  exact Slice_perm _ _

theorem mem_keptMatches (mapLower : Str → Str) (pattern : Str) (cs : List Str) (m : Match) :
    m ∈ keptMatches mapLower pattern cs ↔
      m.Text ∈ cs ∧ 0 < m.Score ∧ m.Score = scoreOf mapLower pattern m.Text := by
  unfold keptMatches
  simp only [List.mem_map, List.mem_filter, decide_eq_true_eq]
  constructor
  · rintro ⟨c, ⟨hc, hpos⟩, rfl⟩
    exact ⟨hc, hpos, rfl⟩
  · rintro ⟨hc, hpos, hs⟩
    refine ⟨m.Text, ⟨hc, hs ▸ hpos⟩, ?_⟩
    cases m
    simp only [Match.mk.injEq, true_and] at hs ⊢
    exact hs.symm

theorem mem_FuzzyMatch (mapLower : Str → Str) (pattern : Str) (cs : List Str) (m : Match) :
    m ∈ FuzzyMatch mapLower pattern cs ↔
      m.Text ∈ cs ∧ 0 < m.Score ∧ m.Score = scoreOf mapLower pattern m.Text := by
  rw [(FuzzyMatch_perm mapLower pattern cs).mem_iff, mem_keptMatches]

/-! ## `sort.Slice` leaves a sorted slice untouched -/

section SortSorted

variable {α : Type}

theorem lessAt_eq_false_of_pairwise {lt : α → α → Bool} {data : List α}
    (h : data.Pairwise (fun x y => lt y x = false)) {i j : Nat} (hij : i < j) :
    lessAt lt data j i = false := by
  unfold lessAt
  cases hj : data[j]? with
  | none => rfl
  | some y =>
    cases hi : data[i]? with
    | none => rfl
    | some x =>
      obtain ⟨hj', rfl⟩ := List.getElem?_eq_some.1 hj
      obtain ⟨hi', rfl⟩ := List.getElem?_eq_some.1 hi
      exact List.pairwise_iff_getElem.1 h i j hi' hj' hij

theorem insertionSortInner_of_pairwise {lt : α → α → Bool} {data : List α}
    (h : data.Pairwise (fun x y => lt y x = false)) (a j : Nat) :
    insertionSortInner lt a j data = data := by
  cases j with
  | zero => rfl
  | succ j =>
    unfold insertionSortInner
    rw [lessAt_eq_false_of_pairwise h (Nat.lt_succ_self j)]
    simp

theorem insertionSortOuter_of_pairwise {lt : α → α → Bool} {data : List α}
    (h : data.Pairwise (fun x y => lt y x = false)) (a n i : Nat) :
    insertionSortOuter lt a n i data = data := by
  induction n generalizing i with
  | zero => rfl
  | succ n ih =>
    unfold insertionSortOuter
    rw [insertionSortInner_of_pairwise h, ih]

theorem partialScan_of_pairwise {lt : α → α → Bool} {data : List α}
    (h : data.Pairwise (fun x y => lt y x = false)) (b n i : Nat)
    (hi : 1 ≤ i) (hib : i ≤ b) (hn : b - i ≤ n) : partialScan lt data b n i = b := by
  induction n generalizing i with
  | zero =>
    unfold partialScan
    omega
  | succ n ih =>
    unfold partialScan
    have hl : lessAt lt data i (i - 1) = false :=
      lessAt_eq_false_of_pairwise h (by omega)
    by_cases hb : i < b
    · rw [if_pos ⟨hb, by simp [hl]⟩]
      exact ih (i + 1) (by omega) (by omega) (by omega)
    · rw [if_neg (fun hc => hb hc.1)]
      omega

theorem partialInsertionSort_func_of_pairwise {lt : α → α → Bool} {data : List α}
    (h : data.Pairwise (fun x y => lt y x = false)) (a b : Nat) (hab : a < b) :
    partialInsertionSort_func lt data a b = (data, true) := by
  unfold partialInsertionSort_func partialInsertionLoop
  simp only []
  rw [partialScan_of_pairwise h b _ _ (by omega) (by omega) (le_refl _)]
  simp

theorem order2_func_of_pairwise {lt : α → α → Bool} {data : List α}
    (h : data.Pairwise (fun x y => lt y x = false)) {a b : Nat} (hab : a < b) (swaps : Nat) :
    order2_func lt data a b swaps = (a, b, swaps) := by
  unfold order2_func
  rw [lessAt_eq_false_of_pairwise h hab]
  simp

theorem median_func_of_pairwise {lt : α → α → Bool} {data : List α}
    (h : data.Pairwise (fun x y => lt y x = false)) {a b c : Nat} (hab : a < b) (hbc : b < c)
    (swaps : Nat) : median_func lt data a b c swaps = (b, swaps) := by
  unfold median_func
  simp only [order2_func_of_pairwise h hab, order2_func_of_pairwise h hbc]

theorem choosePivot_func_of_pairwise {lt : α → α → Bool} {data : List α}
    (h : data.Pairwise (fun x y => lt y x = false)) (a b : Nat) :
    (choosePivot_func lt data a b).2 = sortedHint.increasingHint := by
  unfold choosePivot_func medianAdjacent_func
  by_cases h8 : 8 ≤ b - a
  · have hq : 2 ≤ (b - a) / 4 := by omega
    by_cases h50 : 50 ≤ b - a
    · simp only [h8, h50, if_true]
      have e1 := fun s => median_func_of_pairwise h (a := a + (b - a) / 4 * 1 - 1)
        (b := a + (b - a) / 4 * 1) (c := a + (b - a) / 4 * 1 + 1) (by omega) (by omega) s
      have e2 := fun s => median_func_of_pairwise h (a := a + (b - a) / 4 * 2 - 1)
        (b := a + (b - a) / 4 * 2) (c := a + (b - a) / 4 * 2 + 1) (by omega) (by omega) s
      have e3 := fun s => median_func_of_pairwise h (a := a + (b - a) / 4 * 3 - 1)
        (b := a + (b - a) / 4 * 3) (c := a + (b - a) / 4 * 3 + 1) (by omega) (by omega) s
      simp only [e1, e2, e3]
      rw [median_func_of_pairwise h (by omega) (by omega)]
      simp [pivotHint]
    · simp only [h8, h50, if_true, if_false]
      rw [median_func_of_pairwise h (by omega) (by omega)]
      simp [pivotHint]
  · simp [h8, pivotHint]

theorem pdqsortPivot_of_pairwise {lt : α → α → Bool} {data : List α}
    (h : data.Pairwise (fun x y => lt y x = false)) (a b limit : Nat) (hab : a < b) :
    (pdqsortPivot lt data a b limit true true).1 = data ∧
      (pdqsortPivot lt data a b limit true true).2.2.2 = true := by
  unfold pdqsortPivot
  have hne : ¬ (sortedHint.increasingHint = sortedHint.decreasingHint) := by decide
  simp only [if_true, choosePivot_func_of_pairwise h, true_and, if_neg hne]
  rw [partialInsertionSort_func_of_pairwise h a b hab]
  simp

theorem bitsLen_ne_zero {n : Nat} (h : n ≠ 0) : bitsLen n ≠ 0 := by
  unfold bitsLen
  simp [h]

/-- A slice that is already in order comes back unchanged. -/
theorem Slice_of_pairwise {lt : α → α → Bool} {x : List α}
    (h : x.Pairwise (fun a b => lt b a = false)) : Slice lt x = x := by
  unfold Slice
  simp only []
  rw [pdqsort_func]
  by_cases h12 : x.length - 0 ≤ 12
  · rw [if_pos h12]
    exact insertionSortOuter_of_pairwise h _ _ _
  · rw [if_neg h12, if_neg (bitsLen_ne_zero (by omega))]
    obtain ⟨h1, h2⟩ := pdqsortPivot_of_pairwise h 0 x.length (bitsLen x.length) (by omega)
    simp only [h2, if_true, h1]

end SortSorted

/-! ## Short slices are sorted stably -/

section SortStable

variable {α : Type}

theorem swapAt_cons_succ (a : α) (l : List α) (i j : Nat) :
    swapAt (a :: l) (i + 1) (j + 1) = a :: swapAt l i j := by
  unfold swapAt
  simp only [List.getElem?_cons_succ]
  cases l[i]? <;> cases l[j]? <;> simp

theorem swapAt_adjacent_filter {lt : α → α → Bool} (q : α → Bool)
    (hq : ∀ x y, lt x y = true → ¬ (q x = true ∧ q y = true)) (data : List α) (j : Nat)
    (h : lessAt lt data (j + 1) j = true) :
    (swapAt data (j + 1) j).filter q = data.filter q := by
  induction data generalizing j with
  | nil => simp [swapAt]
  | cons a l ih =>
    cases j with
    | zero =>
      cases l with
      | nil => simp [swapAt]
      | cons x l =>
        have hxa : lt x a = true := by simpa [lessAt] using h
        have := hq x a hxa
        simp only [swapAt, List.getElem?_cons_succ, List.getElem?_cons_zero, List.set_cons_succ,
          List.set_cons_zero, List.filter_cons]
        cases hx : q x <;> cases ha : q a <;> simp_all
    | succ j =>
      rw [swapAt_cons_succ, List.filter_cons, List.filter_cons, ih j]
      simpa [lessAt] using h

theorem insertionSortInner_filter {lt : α → α → Bool} (q : α → Bool)
    (hq : ∀ x y, lt x y = true → ¬ (q x = true ∧ q y = true)) (a j : Nat) (data : List α) :
    (insertionSortInner lt a j data).filter q = data.filter q := by
  induction j generalizing data with
  | zero => rfl
  | succ j ih =>
    unfold insertionSortInner
    split_ifs with h
    · rw [ih, swapAt_adjacent_filter q hq data j h.2]
    · rfl

theorem insertionSortOuter_filter {lt : α → α → Bool} (q : α → Bool)
    (hq : ∀ x y, lt x y = true → ¬ (q x = true ∧ q y = true)) (a n i : Nat) (data : List α) :
    (insertionSortOuter lt a n i data).filter q = data.filter q := by
  induction n generalizing i data with
  | zero => rfl
  | succ n ih =>
    unfold insertionSortOuter
    rw [ih, insertionSortInner_filter q hq]

theorem Slice_of_length_le {lt : α → α → Bool} {x : List α} (h : x.length ≤ 12) :
    Slice lt x = insertionSort_func lt x 0 x.length := by
  unfold Slice
  simp only []
  rw [pdqsort_func, if_pos (by omega)]

/-- On at most twelve elements `sort.Slice` is an insertion sort: elements that the order
does not separate keep their relative order. -/
theorem Slice_filter_of_length_le {lt : α → α → Bool} (q : α → Bool)
    (hq : ∀ x y, lt x y = true → ¬ (q x = true ∧ q y = true)) {x : List α}
    (h : x.length ≤ 12) : (Slice lt x).filter q = x.filter q := by
  rw [Slice_of_length_le h]
  exact insertionSortOuter_filter q hq _ _ _ _

end SortStable

/-! ## `sort.Slice` commutes with maps that respect the order -/

section SortMap

variable {α β : Type} (f : α → β) (lt : β → β → Bool)

theorem lessAt_map (data : List α) (i j : Nat) :
    lessAt lt (data.map f) i j = lessAt (fun x y => lt (f x) (f y)) data i j := by
  unfold lessAt
  simp only [List.getElem?_map]
  cases data[i]? <;> cases data[j]? <;> rfl

theorem swapAt_map (data : List α) (i j : Nat) :
    swapAt (data.map f) i j = (swapAt data i j).map f := by
  unfold swapAt
  simp only [List.getElem?_map]
  cases data[i]? <;> cases data[j]? <;> simp [List.map_set]

theorem insertionSortInner_map (a j : Nat) (data : List α) :
    insertionSortInner lt a j (data.map f) =
      (insertionSortInner (fun x y => lt (f x) (f y)) a j data).map f := by
  induction j generalizing data with
  | zero => rfl
  | succ j ih =>
    unfold insertionSortInner
    simp only [lessAt_map, swapAt_map, ih]
    split_ifs <;> rfl

theorem insertionSortOuter_map (a n i : Nat) (data : List α) :
    insertionSortOuter lt a n i (data.map f) =
      (insertionSortOuter (fun x y => lt (f x) (f y)) a n i data).map f := by
  induction n generalizing i data with
  | zero => rfl
  | succ n ih =>
    unfold insertionSortOuter
    simp only [insertionSortInner_map, ih]

theorem insertionSort_func_map (data : List α) (a b : Nat) :
    insertionSort_func lt (data.map f) a b =
      (insertionSort_func (fun x y => lt (f x) (f y)) data a b).map f :=
  insertionSortOuter_map f lt _ _ _ _

theorem siftDown_func_map (hi first n root : Nat) (data : List α) :
    siftDown_func lt hi first n root (data.map f) =
      (siftDown_func (fun x y => lt (f x) (f y)) hi first n root data).map f := by
  induction n generalizing root data with
  | zero => rfl
  | succ n ih =>
    unfold siftDown_func
    simp only [lessAt_map, swapAt_map, ih]
    split_ifs <;> rfl

theorem heapBuild_map (hi first i : Nat) (data : List α) :
    heapBuild lt hi first i (data.map f) =
      (heapBuild (fun x y => lt (f x) (f y)) hi first i data).map f := by
  induction i generalizing data with
  | zero => rfl
  | succ i ih =>
    unfold heapBuild
    simp only [siftDown_func_map, ih]

theorem heapPop_map (first i : Nat) (data : List α) :
    heapPop lt first i (data.map f) =
      (heapPop (fun x y => lt (f x) (f y)) first i data).map f := by
  induction i generalizing data with
  | zero => rfl
  | succ i ih =>
    unfold heapPop
    simp only [swapAt_map, siftDown_func_map, ih]

theorem heapSort_func_map (data : List α) (a b : Nat) :
    heapSort_func lt (data.map f) a b =
      (heapSort_func (fun x y => lt (f x) (f y)) data a b).map f := by
  unfold heapSort_func
  simp only [heapBuild_map, heapPop_map]

theorem partitionUp_map (data : List α) (a j n i : Nat) :
    partitionUp lt (data.map f) a j n i =
      partitionUp (fun x y => lt (f x) (f y)) data a j n i := by
  induction n generalizing i with
  | zero => rfl
  | succ n ih =>
    unfold partitionUp
    simp only [lessAt_map, ih]

theorem partitionDown_map (data : List α) (a i j : Nat) :
    partitionDown lt (data.map f) a i j =
      partitionDown (fun x y => lt (f x) (f y)) data a i j := by
  induction j with
  | zero => rfl
  | succ j ih =>
    unfold partitionDown
    simp only [lessAt_map, ih]

theorem partitionLoop_map (a n : Nat) (data : List α) (i j : Nat) :
    partitionLoop lt a n (data.map f) i j =
      ((partitionLoop (fun x y => lt (f x) (f y)) a n data i j).1.map f,
        (partitionLoop (fun x y => lt (f x) (f y)) a n data i j).2) := by
  induction n generalizing data i j with
  | zero => rfl
  | succ n ih =>
    unfold partitionLoop
    simp only [partitionUp_map, partitionDown_map, swapAt_map, ih]
    split_ifs <;> rfl

theorem partition_func_map (data : List α) (a b pivot : Nat) :
    partition_func lt (data.map f) a b pivot =
      ((partition_func (fun x y => lt (f x) (f y)) data a b pivot).1.map f,
        (partition_func (fun x y => lt (f x) (f y)) data a b pivot).2) := by
  unfold partition_func
  simp only [partitionUp_map, partitionDown_map, swapAt_map, partitionLoop_map]
  split_ifs <;> rfl

theorem partitionEqualUp_map (data : List α) (a j n i : Nat) :
    partitionEqualUp lt (data.map f) a j n i =
      partitionEqualUp (fun x y => lt (f x) (f y)) data a j n i := by
  induction n generalizing i with
  | zero => rfl
  | succ n ih =>
    unfold partitionEqualUp
    simp only [lessAt_map, ih]

theorem partitionEqualDown_map (data : List α) (a i j : Nat) :
    partitionEqualDown lt (data.map f) a i j =
      partitionEqualDown (fun x y => lt (f x) (f y)) data a i j := by
  induction j with
  | zero => rfl
  | succ j ih =>
    unfold partitionEqualDown
    simp only [lessAt_map, ih]

theorem partitionEqualLoop_map (a n : Nat) (data : List α) (i j : Nat) :
    partitionEqualLoop lt a n (data.map f) i j =
      ((partitionEqualLoop (fun x y => lt (f x) (f y)) a n data i j).1.map f,
        (partitionEqualLoop (fun x y => lt (f x) (f y)) a n data i j).2) := by
  induction n generalizing data i j with
  | zero => rfl
  | succ n ih =>
    unfold partitionEqualLoop
    simp only [partitionEqualUp_map, partitionEqualDown_map, swapAt_map, ih]
    split_ifs <;> rfl

theorem partitionEqual_func_map (data : List α) (a b pivot : Nat) :
    partitionEqual_func lt (data.map f) a b pivot =
      ((partitionEqual_func (fun x y => lt (f x) (f y)) data a b pivot).1.map f,
        (partitionEqual_func (fun x y => lt (f x) (f y)) data a b pivot).2) := by
  unfold partitionEqual_func
  simp only [swapAt_map, partitionEqualLoop_map]

theorem partialScan_map (data : List α) (b n i : Nat) :
    partialScan lt (data.map f) b n i = partialScan (fun x y => lt (f x) (f y)) data b n i := by
  induction n generalizing i with
  | zero => rfl
  | succ n ih =>
    unfold partialScan
    simp only [lessAt_map, ih]

theorem partialShiftLeft_map (j : Nat) (data : List α) :
    partialShiftLeft lt j (data.map f) =
      (partialShiftLeft (fun x y => lt (f x) (f y)) j data).map f := by
  induction j generalizing data with
  | zero => rfl
  | succ j ih =>
    unfold partialShiftLeft
    simp only [lessAt_map, swapAt_map, ih]
    split_ifs <;> rfl

theorem partialShiftRight_map (b n j : Nat) (data : List α) :
    partialShiftRight lt b n j (data.map f) =
      (partialShiftRight (fun x y => lt (f x) (f y)) b n j data).map f := by
  induction n generalizing j data with
  | zero => rfl
  | succ n ih =>
    unfold partialShiftRight
    simp only [lessAt_map, swapAt_map, ih]
    split_ifs <;> rfl

theorem partialInsertionLoop_map (a b steps i : Nat) (data : List α) :
    partialInsertionLoop lt a b steps i (data.map f) =
      ((partialInsertionLoop (fun x y => lt (f x) (f y)) a b steps i data).1.map f,
        (partialInsertionLoop (fun x y => lt (f x) (f y)) a b steps i data).2) := by
  induction steps generalizing i data with
  | zero => rfl
  | succ steps ih =>
    unfold partialInsertionLoop
    simp only [partialScan_map, swapAt_map]
    split_ifs <;>
      simp only [partialShiftLeft_map, partialShiftRight_map, ih]

theorem partialInsertionSort_func_map (data : List α) (a b : Nat) :
    partialInsertionSort_func lt (data.map f) a b =
      ((partialInsertionSort_func (fun x y => lt (f x) (f y)) data a b).1.map f,
        (partialInsertionSort_func (fun x y => lt (f x) (f y)) data a b).2) :=
  partialInsertionLoop_map f lt _ _ _ _ _

theorem breakPatternsLoop_map (a length modulus idx n i random : Nat) (data : List α) :
    breakPatternsLoop a length modulus idx n i random (data.map f) =
      (breakPatternsLoop a length modulus idx n i random data).map f := by
  induction n generalizing i random data with
  | zero => rfl
  | succ n ih =>
    unfold breakPatternsLoop
    simp only [swapAt_map, ih]

theorem breakPatterns_func_map (data : List α) (a b : Nat) :
    breakPatterns_func (data.map f) a b = (breakPatterns_func data a b).map f := by
  unfold breakPatterns_func
  simp only [breakPatternsLoop_map]
  split_ifs <;> rfl

theorem order2_func_map (data : List α) (a b swaps : Nat) :
    order2_func lt (data.map f) a b swaps =
      order2_func (fun x y => lt (f x) (f y)) data a b swaps := by
  unfold order2_func
  simp only [lessAt_map]

theorem median_func_map (data : List α) (a b c swaps : Nat) :
    median_func lt (data.map f) a b c swaps =
      median_func (fun x y => lt (f x) (f y)) data a b c swaps := by
  unfold median_func
  simp only [order2_func_map]

theorem choosePivot_func_map (data : List α) (a b : Nat) :
    choosePivot_func lt (data.map f) a b =
      choosePivot_func (fun x y => lt (f x) (f y)) data a b := by
  unfold choosePivot_func medianAdjacent_func
  simp only [median_func_map]

theorem reverseRangeLoop_map (n i j : Nat) (data : List α) :
    reverseRangeLoop n i j (data.map f) = (reverseRangeLoop n i j data).map f := by
  induction n generalizing i j data with
  | zero => rfl
  | succ n ih =>
    unfold reverseRangeLoop
    simp only [swapAt_map, ih]
    split_ifs <;> rfl

theorem reverseRange_func_map (data : List α) (a b : Nat) :
    reverseRange_func (data.map f) a b = (reverseRange_func data a b).map f :=
  reverseRangeLoop_map f _ _ _ _

theorem pdqsortPivot_map (data : List α) (a b limit : Nat) (wb wp : Bool) :
    pdqsortPivot lt (data.map f) a b limit wb wp =
      ((pdqsortPivot (fun x y => lt (f x) (f y)) data a b limit wb wp).1.map f,
        (pdqsortPivot (fun x y => lt (f x) (f y)) data a b limit wb wp).2) := by
  unfold pdqsortPivot
  simp only []
  cases wb
  · simp only [breakPatterns_func_map, choosePivot_func_map, Bool.false_eq_true, if_false,
      false_and]
    split_ifs <;> simp only [reverseRange_func_map]
  · simp only [choosePivot_func_map, if_true, true_and]
    split_ifs <;> simp only [reverseRange_func_map, partialInsertionSort_func_map]

theorem pdqsort_func_map (fuel : Nat) (data : List α) (a b limit : Nat) (wb wp : Bool) :
    pdqsort_func lt fuel (data.map f) a b limit wb wp =
      (pdqsort_func (fun x y => lt (f x) (f y)) fuel data a b limit wb wp).map f := by
  induction fuel generalizing data a b limit wb wp with
  | zero => rfl
  | succ fuel ih =>
    rw [pdqsort_func, pdqsort_func]
    rw [pdqsortPivot_map]
    generalize pdqsortPivot (fun x y => lt (f x) (f y)) data a b limit wb wp = st
    simp only [insertionSort_func_map, heapSort_func_map, lessAt_map, partitionEqual_func_map,
      partition_func_map, ih]
    split_ifs <;> rfl

/-- Sorting the images under `f` is the image of sorting with the order pulled back. -/
theorem Slice_map (x : List α) :
    Slice lt (x.map f) = (Slice (fun a b => lt (f a) (f b)) x).map f := by
  unfold Slice
  simp only [List.length_map]
  exact pdqsort_func_map f lt _ _ _ _ _ _ _

end SortMap

/-! ## `sort.Slice` sorts: keys, segments and insertion sort -/

section SortKeys

variable {α : Type} (key : α → Int) (lt : α → α → Bool)

theorem kAt_of_lt {data : List α} {i : Nat} (h : i < data.length) :
    kAt key data i = key data[i] := by
  simp [kAt, List.getElem?_eq_getElem h]

theorem length_swapAt (data : List α) (i j : Nat) : (swapAt data i j).length = data.length :=
  (swapAt_perm data i j).length_eq

theorem kAt_swapAt {data : List α} {i j : Nat} (hi : i < data.length) (hj : j < data.length)
    (m : Nat) :
    kAt key (swapAt data i j) m =
      if m = i then kAt key data j else if m = j then kAt key data i else kAt key data m := by
  unfold swapAt kAt
  simp only [List.getElem?_eq_getElem hi, List.getElem?_eq_getElem hj, List.getElem?_set,
    List.length_set]
  by_cases h1 : m = i
  · subst h1
    by_cases h2 : j = m
    · subst h2
      simp [hj]
    · simp [h2, hi]
  · by_cases h2 : m = j
    · subst h2
      simp [h1, hj, List.getElem?_eq_getElem hi]
    · have h1' : ¬ i = m := fun h => h1 h.symm
      have h2' : ¬ j = m := fun h => h2 h.symm
      simp [h1, h2, h1', h2']

theorem lessAt_eq (hlt : ∀ x y, lt x y = decide (key x < key y)) {data : List α} {i j : Nat}
    (hi : i < data.length) (hj : j < data.length) :
    lessAt lt data i j = decide (kAt key data i < kAt key data j) := by
  unfold lessAt kAt
  simp only [List.getElem?_eq_getElem hi, List.getElem?_eq_getElem hj, hlt]

theorem lessAt_iff (hlt : ∀ x y, lt x y = decide (key x < key y)) {data : List α} {i j : Nat}
    (hi : i < data.length) (hj : j < data.length) :
    lessAt lt data i j = true ↔ kAt key data i < kAt key data j := by
  rw [lessAt_eq key lt hlt hi hj, decide_eq_true_eq]

theorem SegRel.refl (a b : Nat) (d : List α) : SegRel key a b d d :=
  ⟨rfl, fun _ _ => rfl, fun m h1 h2 => ⟨m, h1, h2, rfl⟩⟩

theorem SegRel.trans {a b : Nat} {d1 d2 d3 : List α} (h12 : SegRel key a b d1 d2)
    (h23 : SegRel key a b d2 d3) : SegRel key a b d1 d3 := by
  obtain ⟨l1, o1, i1⟩ := h12
  obtain ⟨l2, o2, i2⟩ := h23
  refine ⟨l2.trans l1, fun m hm => (o2 m hm).trans (o1 m hm), fun m h1 h2 => ?_⟩
  obtain ⟨m', h1', h2', e⟩ := i2 m h1 h2
  obtain ⟨m'', h1'', h2'', e'⟩ := i1 m' h1' h2'
  exact ⟨m'', h1'', h2'', e.trans e'⟩

theorem SegRel.mono {a b a' b' : Nat} {d1 d2 : List α} (h : SegRel key a b d1 d2)
    (ha : a' ≤ a) (hb : b ≤ b') : SegRel key a' b' d1 d2 := by
  obtain ⟨l, o, i⟩ := h
  refine ⟨l, fun m hm => o m (by omega), fun m h1 h2 => ?_⟩
  by_cases hm : a ≤ m ∧ m < b
  · obtain ⟨m', h1', h2', e⟩ := i m hm.1 hm.2
    exact ⟨m', by omega, by omega, e⟩
  · exact ⟨m, h1, h2, o m (by omega)⟩

theorem SegRel.swap {a b : Nat} {d : List α} {i j : Nat} (hi : a ≤ i) (hi' : i < b)
    (hj : a ≤ j) (hj' : j < b) (hb : b ≤ d.length) : SegRel key a b d (swapAt d i j) := by
  have hil : i < d.length := by omega
  have hjl : j < d.length := by omega
  refine ⟨length_swapAt d i j, fun m hm => ?_, fun m h1 h2 => ?_⟩
  · rw [kAt_swapAt key hil hjl, if_neg (by omega), if_neg (by omega)]
  · rw [kAt_swapAt key hil hjl]
    split_ifs
    · exact ⟨j, hj, hj', rfl⟩
    · exact ⟨i, hi, hi', rfl⟩
    · exact ⟨m, h1, h2, rfl⟩

theorem SegRel.length_eq {a b : Nat} {d1 d2 : List α} (h : SegRel key a b d1 d2) :
    d2.length = d1.length := h.1

theorem SegRel.outside {a b : Nat} {d1 d2 : List α} (h : SegRel key a b d1 d2) {m : Nat}
    (hm : m < a ∨ b ≤ m) : kAt key d2 m = kAt key d1 m := h.2.1 m hm

/-- A bound that holds for all keys of the segment before holds for all of them after. -/
theorem SegRel.forall_inside {a b : Nat} {d1 d2 : List α} (h : SegRel key a b d1 d2)
    (P : Int → Prop) (hP : ∀ m, a ≤ m → m < b → P (kAt key d1 m)) :
    ∀ m, a ≤ m → m < b → P (kAt key d2 m) := by
  intro m h1 h2
  obtain ⟨m', h1', h2', e⟩ := h.2.2 m h1 h2
  rw [e]
  exact hP m' h1' h2'

theorem SegRel.lowBound {a b : Nat} {d1 d2 : List α} (h : SegRel key a b d1 d2)
    (hl : LowBound key a b d1) : LowBound key a b d2 := by
  rcases hl with h0 | hl
  · exact Or.inl h0
  · by_cases ha : a = 0
    · exact Or.inl ha
    · refine Or.inr ?_
      rw [h.outside key (Or.inl (by omega))]
      exact h.forall_inside key (fun k => kAt key d1 (a - 1) ≤ k) hl

/-- A segment whose neighbouring keys are in order is sorted. -/
theorem sortedSeg_of_adjacent {a b : Nat} {d : List α}
    (h : ∀ i, a ≤ i → i + 1 < b → kAt key d i ≤ kAt key d (i + 1)) : SortedSeg key a b d := by
  intro i j hi hij hj
  induction j with
  | zero =>
    have : i = 0 := by omega
    subst this
    exact le_refl _
  | succ j ih =>
    by_cases hij' : i = j + 1
    · subst hij'
      exact le_refl _
    · exact (ih (by omega) (by omega)).trans (h j (by omega) hj)

/-- Inner loop of the insertion sort: the element at `j` sinks into the sorted prefix. -/
theorem insertionSortInner_spec (hlt : ∀ x y, lt x y = decide (key x < key y)) (a top : Nat)
    (j : Nat) (data : List α) (haj : a ≤ j) (hjt : j ≤ top) (htop : top < data.length)
    (h1 : SortedSeg key a j data) (h2 : SortedSeg key j (top + 1) data)
    (h3 : ∀ p q, a ≤ p → p < j → j < q → q ≤ top → kAt key data p ≤ kAt key data q) :
    SegRel key a (top + 1) data (insertionSortInner lt a j data) ∧
      SortedSeg key a (top + 1) (insertionSortInner lt a j data) := by
  induction j generalizing data with
  | zero =>
    have : a = 0 := by omega
    subst this
    exact ⟨SegRel.refl key _ _ _, h2⟩
  | succ j ih =>
    unfold insertionSortInner
    have hj1 : j + 1 < data.length := by omega
    have hj0 : j < data.length := by omega
    by_cases hc : a < j + 1 ∧ lessAt lt data (j + 1) j = true
    · rw [if_pos hc]
      obtain ⟨hc1, hc2⟩ := hc
      rw [lessAt_iff key lt hlt hj1 hj0] at hc2
      have hk := kAt_swapAt key hj1 hj0
      have hsw : SegRel key a (top + 1) data (swapAt data (j + 1) j) :=
        SegRel.swap key (by omega) (by omega) (by omega) (by omega) (by omega)
      have := ih (swapAt data (j + 1) j) (by omega) (by omega)
        (by rw [length_swapAt]; exact htop)
        (by
          intro p q hp hpq hq
          rw [hk, hk, if_neg (by omega), if_neg (by omega), if_neg (by omega), if_neg (by omega)]
          exact h1 p q hp hpq (by omega))
        (by
          intro p q hp hpq hq
          rw [hk, hk]
          by_cases hp1 : p = j + 1
          · subst hp1
            rw [if_pos rfl]
            by_cases hq1 : q = j + 1
            · rw [if_pos hq1]
            · rw [if_neg hq1, if_neg (by omega)]
              exact h3 j q (by omega) (by omega) (by omega) (by omega)
          · rw [if_neg hp1]
            by_cases hp0 : p = j
            · subst hp0
              rw [if_pos rfl]
              by_cases hq1 : q = p + 1
              · rw [if_pos hq1]; exact le_of_lt hc2
              · rw [if_neg hq1]
                by_cases hq0 : q = p
                · rw [if_pos hq0]
                · rw [if_neg hq0]
                  exact h2 (p + 1) q (le_refl _) (by omega) (by omega)
            · rw [if_neg hp0, if_neg (by omega), if_neg (by omega)]
              exact h2 p q (by omega) hpq hq)
        (by
          intro p q hp hpj hjq hq
          rw [hk, hk, if_neg (by omega), if_neg (by omega)]
          by_cases hq1 : q = j + 1
          · rw [if_pos hq1]
            exact h1 p j hp (by omega) (by omega)
          · rw [if_neg hq1, if_neg (by omega)]
            exact h3 p q hp (by omega) (by omega) hq)
      exact ⟨SegRel.trans key hsw this.1, this.2⟩
    · rw [if_neg hc]
      refine ⟨SegRel.refl key _ _ _, ?_⟩
      by_cases ha : a < j + 1
      · have hle : kAt key data j ≤ kAt key data (j + 1) := by
          by_contra hcon
          exact hc ⟨ha, (lessAt_iff key lt hlt hj1 hj0).2 (lt_of_not_le hcon)⟩
        intro p q hp hpq hq
        by_cases hq1 : q < j + 1
        · exact h1 p q hp hpq hq1
        · by_cases hp1 : j + 1 ≤ p
          · exact h2 p q hp1 hpq hq
          · by_cases hq2 : q = j + 1
            · subst hq2
              exact (h1 p j hp (by omega) (by omega)).trans hle
            · exact h3 p q hp (by omega) (by omega) (by omega)
      · have : a = j + 1 := by omega
        subst this
        exact h2

theorem sortedSeg_of_le {a b : Nat} (d : List α) (h : b ≤ a + 1) : SortedSeg key a b d := by
  intro i j hi hij hj
  have : i = j := by omega
  subst this
  exact le_refl _

theorem insertionSortOuter_spec (hlt : ∀ x y, lt x y = decide (key x < key y)) (a b : Nat)
    (n i : Nat) (data : List α) (hai : a < i) (hib : i ≤ b) (hb : b ≤ data.length)
    (hn : n = b - i) (h1 : SortedSeg key a i data) :
    SegRel key a b data (insertionSortOuter lt a n i data) ∧
      SortedSeg key a b (insertionSortOuter lt a n i data) := by
  induction n generalizing i data with
  | zero =>
    have : i = b := by omega
    subst this
    exact ⟨SegRel.refl key _ _ _, h1⟩
  | succ n ih =>
    unfold insertionSortOuter
    obtain ⟨hr, hs⟩ := insertionSortInner_spec key lt hlt a i i data (by omega) (le_refl _)
      (by omega) h1 (sortedSeg_of_le key data (by omega)) (fun p q _ _ _ _ => by omega)
    have := ih (i + 1) (insertionSortInner lt a i data) (by omega) (by omega)
      (by rw [hr.length_eq]; exact hb) (by omega) hs
    exact ⟨SegRel.trans key (hr.mono key (le_refl _) (by omega)) this.1, this.2⟩

theorem insertionSort_func_spec (hlt : ∀ x y, lt x y = decide (key x < key y)) (a b : Nat)
    (data : List α) (hb : b ≤ data.length) :
    SegRel key a b data (insertionSort_func lt data a b) ∧
      SortedSeg key a b (insertionSort_func lt data a b) := by
  unfold insertionSort_func
  by_cases hab : a + 1 ≤ b
  · exact insertionSortOuter_spec key lt hlt a b _ _ data (by omega) hab hb rfl
      (sortedSeg_of_le key data (le_refl _))
  · have : b - (a + 1) = 0 := by omega
    rw [this]
    exact ⟨SegRel.refl key _ _ _, sortedSeg_of_le key data (by omega)⟩

end SortKeys

/-! ## `sort.Slice` sorts: the two partitioning routines -/

section SortPartition

variable {α : Type} (key : α → Int) (lt : α → α → Bool)

theorem partitionUp_spec (hlt : ∀ x y, lt x y = decide (key x < key y)) (d : List α)
    (a j : Nat) (ha : a < d.length) (hj : j < d.length) (n i : Nat) (hij : i ≤ j + 1)
    (hn : j + 1 - i ≤ n) :
    i ≤ partitionUp lt d a j n i ∧ partitionUp lt d a j n i ≤ j + 1 ∧
      (∀ m, i ≤ m → m < partitionUp lt d a j n i → kAt key d m < kAt key d a) ∧
      (partitionUp lt d a j n i ≤ j → kAt key d a ≤ kAt key d (partitionUp lt d a j n i)) := by
  induction n generalizing i with
  | zero =>
    unfold partitionUp
    exact ⟨le_refl _, hij, fun m h1 h2 => by omega, fun h => by omega⟩
  | succ n ih =>
    unfold partitionUp
    by_cases hc : i ≤ j ∧ lessAt lt d i a = true
    · rw [if_pos hc]
      obtain ⟨h1, h2, h3, h4⟩ := ih (i + 1) (by omega) (by omega)
      refine ⟨by omega, h2, fun m hm1 hm2 => ?_, h4⟩
      by_cases hmi : m = i
      · subst hmi
        exact (lessAt_iff key lt hlt (by omega) ha).1 hc.2
      · exact h3 m (by omega) hm2
    · rw [if_neg hc]
      refine ⟨le_refl _, hij, fun m h1 h2 => by omega, fun h => ?_⟩
      by_contra hcon
      exact hc ⟨h, (lessAt_iff key lt hlt (by omega) ha).2 (lt_of_not_le hcon)⟩

theorem partitionDown_spec (hlt : ∀ x y, lt x y = decide (key x < key y)) (d : List α)
    (a i : Nat) (ha : a < d.length) (hi : 1 ≤ i) (j : Nat) (hj : j < d.length)
    (hij : i ≤ j + 1) :
    partitionDown lt d a i j ≤ j ∧ i ≤ partitionDown lt d a i j + 1 ∧
      (∀ m, partitionDown lt d a i j < m → m ≤ j → kAt key d a ≤ kAt key d m) ∧
      (i ≤ partitionDown lt d a i j → kAt key d (partitionDown lt d a i j) < kAt key d a) := by
  induction j with
  | zero =>
    unfold partitionDown
    exact ⟨le_refl _, by omega, fun m h1 h2 => by omega, fun h => by omega⟩
  | succ j ih =>
    unfold partitionDown
    by_cases hc : i ≤ j + 1 ∧ ¬ lessAt lt d (j + 1) a = true
    · rw [if_pos hc]
      obtain ⟨h1, h2, h3, h4⟩ := ih (by omega) (by omega)
      refine ⟨by omega, h2, fun m hm1 hm2 => ?_, h4⟩
      by_cases hmj : m = j + 1
      · subst hmj
        have := hc.2
        rw [lessAt_iff key lt hlt hj ha] at this
        exact le_of_not_lt this
      · exact h3 m hm1 (by omega)
    · rw [if_neg hc]
      refine ⟨le_refl _, hij, fun m h1 h2 => by omega, fun h => ?_⟩
      by_contra hcon
      exact hc ⟨h, fun hl => hcon ((lessAt_iff key lt hlt hj ha).1 hl)⟩

/-- The two scans of one round of `partition_func`: afterwards everything in `(a, i1)` is
below the pivot key and everything in `(j1, b)` is not. -/
theorem partitionScans_spec (hlt : ∀ x y, lt x y = decide (key x < key y)) (d : List α)
    (a b i j : Nat) (hai : a + 1 ≤ i) (hij : i ≤ j + 1) (hjb : j < b) (hb : b ≤ d.length)
    (hL : ∀ m, a < m → m < i → kAt key d m < kAt key d a)
    (hR : ∀ m, j < m → m < b → kAt key d a ≤ kAt key d m) :
    let i1 := partitionUp lt d a j (j + 1 - i) i
    let j1 := partitionDown lt d a i1 j
    i ≤ i1 ∧ j1 ≤ j ∧ i1 ≤ j1 + 1 ∧
      (∀ m, a < m → m < i1 → kAt key d m < kAt key d a) ∧
      (∀ m, j1 < m → m < b → kAt key d a ≤ kAt key d m) ∧
      (i1 ≤ j1 → i1 < j1 ∧ kAt key d a ≤ kAt key d i1 ∧ kAt key d j1 < kAt key d a) := by
  intro i1 j1
  obtain ⟨u1, u2, u3, u4⟩ := partitionUp_spec key lt hlt d a j (by omega) (by omega)
    (j + 1 - i) i hij (le_refl _)
  obtain ⟨v1, v2, v3, v4⟩ := partitionDown_spec key lt hlt d a i1 (by omega) (by omega) j
    (by omega) u2
  refine ⟨u1, v1, v2, fun m h1 h2 => ?_, fun m h1 h2 => ?_, fun h => ?_⟩
  · by_cases hm : m < i
    · exact hL m h1 hm
    · exact u3 m (by omega) h2
  · by_cases hm : j < m
    · exact hR m hm h2
    · exact v3 m h1 (by omega)
  · have e1 : kAt key d a ≤ kAt key d i1 := u4 (by omega)
    have e2 : kAt key d j1 < kAt key d a := v4 h
    refine ⟨?_, e1, e2⟩
    by_contra hcon
    have : i1 = j1 := by omega
    rw [this] at e1
    exact absurd e2 (not_lt.2 e1)

theorem partitionLoop_spec (hlt : ∀ x y, lt x y = decide (key x < key y)) (a b : Nat) (n : Nat)
    (d : List α) (i j : Nat) (hai : a + 1 ≤ i) (hij : i ≤ j + 1) (hjb : j < b)
    (hb : b ≤ d.length) (hn : j + 1 - i < n)
    (hL : ∀ m, a < m → m < i → kAt key d m < kAt key d a)
    (hR : ∀ m, j < m → m < b → kAt key d a ≤ kAt key d m) :
    SegRel key (a + 1) b d (partitionLoop lt a n d i j).1 ∧
      a ≤ (partitionLoop lt a n d i j).2 ∧ (partitionLoop lt a n d i j).2 < b ∧
      (∀ m, a < m → m ≤ (partitionLoop lt a n d i j).2 →
        kAt key (partitionLoop lt a n d i j).1 m < kAt key d a) ∧
      (∀ m, (partitionLoop lt a n d i j).2 < m → m < b →
        kAt key d a ≤ kAt key (partitionLoop lt a n d i j).1 m) := by
  induction n generalizing d i j with
  | zero => omega
  | succ n ih =>
    unfold partitionLoop
    simp only []
    obtain ⟨s1, s2, s3, s4, s5, s6⟩ := partitionScans_spec key lt hlt d a b i j hai hij hjb hb hL hR
    generalize partitionUp lt d a j (j + 1 - i) i = i1 at *
    generalize partitionDown lt d a i1 j = j1 at *
    by_cases hc : j1 < i1
    · rw [if_pos hc]
      exact ⟨SegRel.refl key _ _ _, by omega, by omega, fun m h1 h2 => s4 m h1 (by omega), s5⟩
    · rw [if_neg hc]
      obtain ⟨t1, t2, t3⟩ := s6 (by omega)
      have hil : i1 < d.length := by omega
      have hjl : j1 < d.length := by omega
      have hk := kAt_swapAt key hil hjl
      have hka : kAt key (swapAt d i1 j1) a = kAt key d a := by
        rw [hk, if_neg (by omega), if_neg (by omega)]
      have hsw : SegRel key (a + 1) b d (swapAt d i1 j1) :=
        SegRel.swap key (by omega) (by omega) (by omega) (by omega) hb
      obtain ⟨r1, r2, r3, r4, r5⟩ := ih (swapAt d i1 j1) (i1 + 1) (j1 - 1) (by omega) (by omega)
        (by omega) (by rw [length_swapAt]; exact hb) (by omega)
        (by
          intro m h1 h2
          rw [hka, hk]
          by_cases hm : m = i1
          · rw [if_pos hm]; exact t3
          · rw [if_neg hm, if_neg (by omega)]
            exact s4 m h1 (by omega))
        (by
          intro m h1 h2
          rw [hka, hk, if_neg (by omega)]
          by_cases hm : m = j1
          · rw [if_pos hm]; exact t2
          · rw [if_neg hm]
            exact s5 m (by omega) h2)
      rw [hka] at r4 r5
      exact ⟨SegRel.trans key hsw r1, r2, r3, r4, r5⟩

/-- Go `partition_func`: afterwards `data[newpivot]` holds the pivot, everything before it
in the segment is smaller and nothing after it is. -/
theorem partition_func_spec (hlt : ∀ x y, lt x y = decide (key x < key y)) (data : List α)
    (a b pivot : Nat) (hap : a ≤ pivot) (hpb : pivot < b) (hb : b ≤ data.length) :
    SegRel key a b data (partition_func lt data a b pivot).1 ∧
      a ≤ (partition_func lt data a b pivot).2.1 ∧ (partition_func lt data a b pivot).2.1 < b ∧
      (∀ m, a ≤ m → m < (partition_func lt data a b pivot).2.1 →
        kAt key (partition_func lt data a b pivot).1 m <
          kAt key (partition_func lt data a b pivot).1 (partition_func lt data a b pivot).2.1) ∧
      (∀ m, (partition_func lt data a b pivot).2.1 < m → m < b →
        kAt key (partition_func lt data a b pivot).1 (partition_func lt data a b pivot).2.1 ≤
          kAt key (partition_func lt data a b pivot).1 m) := by
  unfold partition_func
  simp only []
  have hsw0 : SegRel key a b data (swapAt data a pivot) :=
    SegRel.swap key (le_refl _) (by omega) hap hpb hb
  have hb0 : b ≤ (swapAt data a pivot).length := by rw [length_swapAt]; exact hb
  generalize swapAt data a pivot = d at *
  obtain ⟨s1, s2, s3, s4, s5, s6⟩ := partitionScans_spec key lt hlt d a b (a + 1) (b - 1)
    (le_refl _) (by omega) (by omega) hb0 (fun m h1 h2 => by omega) (fun m h1 h2 => by omega)
  generalize partitionUp lt d a (b - 1) (b - 1 + 1 - (a + 1)) (a + 1) = i1 at *
  generalize partitionDown lt d a i1 (b - 1) = j1 at *
  -- the final `data.Swap(j, a)` on a slice `e` that satisfies the loop invariant at `j`
  have hfinal : ∀ (e : List α) (j : Nat), SegRel key (a + 1) b d e → a ≤ j → j < b →
      (∀ m, a < m → m ≤ j → kAt key e m < kAt key d a) →
      (∀ m, j < m → m < b → kAt key d a ≤ kAt key e m) →
      SegRel key a b data (swapAt e j a) ∧ a ≤ j ∧ j < b ∧
        (∀ m, a ≤ m → m < j → kAt key (swapAt e j a) m < kAt key (swapAt e j a) j) ∧
        (∀ m, j < m → m < b → kAt key (swapAt e j a) j ≤ kAt key (swapAt e j a) m) := by
    intro e j he haj hjb hL hR
    have hel : b ≤ e.length := by rw [he.length_eq]; exact hb0
    have hea : kAt key e a = kAt key d a := he.outside key (Or.inl (by omega))
    have hk := kAt_swapAt key (show j < e.length by omega) (show a < e.length by omega)
    have hjj : kAt key (swapAt e j a) j = kAt key d a := by
      rw [hk, if_pos rfl, hea]
    refine ⟨SegRel.trans key hsw0 (SegRel.trans key (he.mono key (by omega) (le_refl _))
      (SegRel.swap key haj hjb (le_refl _) (by omega) hel)), haj, hjb, fun m h1 h2 => ?_,
      fun m h1 h2 => ?_⟩
    · rw [hjj, hk, if_neg (by omega)]
      by_cases hm : m = a
      · rw [if_pos hm]
        exact hL j (by omega) (le_refl _)
      · rw [if_neg hm]
        exact hL m (by omega) (by omega)
    · rw [hjj, hk, if_neg (by omega), if_neg (by omega)]
      exact hR m h1 h2
  by_cases hc : j1 < i1
  · rw [if_pos hc]
    exact hfinal d j1 (SegRel.refl key _ _ _) (by omega) (by omega)
      (fun m h1 h2 => s4 m h1 (by omega)) s5
  · rw [if_neg hc]
    obtain ⟨t1, t2, t3⟩ := s6 (by omega)
    have hil : i1 < d.length := by omega
    have hjl : j1 < d.length := by omega
    have hk := kAt_swapAt key hil hjl
    have hka : kAt key (swapAt d i1 j1) a = kAt key d a := by
      rw [hk, if_neg (by omega), if_neg (by omega)]
    have hsw : SegRel key (a + 1) b d (swapAt d i1 j1) :=
      SegRel.swap key (by omega) (by omega) (by omega) (by omega) hb0
    obtain ⟨r1, r2, r3, r4, r5⟩ := partitionLoop_spec key lt hlt a b (j1 - i1 + 1)
      (swapAt d i1 j1) (i1 + 1) (j1 - 1) (by omega) (by omega)
      (by omega) (by rw [length_swapAt]; exact hb0) (by omega)
      (by
        intro m h1 h2
        rw [hka, hk]
        by_cases hm : m = i1
        · rw [if_pos hm]; exact t3
        · rw [if_neg hm, if_neg (by omega)]
          exact s4 m h1 (by omega))
      (by
        intro m h1 h2
        rw [hka, hk, if_neg (by omega)]
        by_cases hm : m = j1
        · rw [if_pos hm]; exact t2
        · rw [if_neg hm]
          exact s5 m (by omega) h2)
    rw [hka] at r4 r5
    exact hfinal _ _ (SegRel.trans key hsw r1) r2 r3 r4 r5

end SortPartition

section SortPartitionEqual

variable {α : Type} (key : α → Int) (lt : α → α → Bool)

theorem partitionEqualUp_spec (hlt : ∀ x y, lt x y = decide (key x < key y)) (d : List α)
    (a j : Nat) (ha : a < d.length) (hj : j < d.length) (n i : Nat) (hij : i ≤ j + 1)
    (hn : j + 1 - i ≤ n) :
    i ≤ partitionEqualUp lt d a j n i ∧ partitionEqualUp lt d a j n i ≤ j + 1 ∧
      (∀ m, i ≤ m → m < partitionEqualUp lt d a j n i → kAt key d m ≤ kAt key d a) ∧
      (partitionEqualUp lt d a j n i ≤ j →
        kAt key d a < kAt key d (partitionEqualUp lt d a j n i)) := by
  induction n generalizing i with
  | zero =>
    unfold partitionEqualUp
    exact ⟨le_refl _, hij, fun m h1 h2 => by omega, fun h => by omega⟩
  | succ n ih =>
    unfold partitionEqualUp
    by_cases hc : i ≤ j ∧ ¬ lessAt lt d a i = true
    · rw [if_pos hc]
      obtain ⟨h1, h2, h3, h4⟩ := ih (i + 1) (by omega) (by omega)
      refine ⟨by omega, h2, fun m hm1 hm2 => ?_, h4⟩
      by_cases hmi : m = i
      · subst hmi
        have := hc.2
        rw [lessAt_iff key lt hlt ha (by omega)] at this
        exact le_of_not_lt this
      · exact h3 m (by omega) hm2
    · rw [if_neg hc]
      refine ⟨le_refl _, hij, fun m h1 h2 => by omega, fun h => ?_⟩
      by_contra hcon
      exact hc ⟨h, fun hl => hcon ((lessAt_iff key lt hlt ha (by omega)).1 hl)⟩

theorem partitionEqualDown_spec (hlt : ∀ x y, lt x y = decide (key x < key y)) (d : List α)
    (a i : Nat) (ha : a < d.length) (hi : 1 ≤ i) (j : Nat) (hj : j < d.length)
    (hij : i ≤ j + 1) :
    partitionEqualDown lt d a i j ≤ j ∧ i ≤ partitionEqualDown lt d a i j + 1 ∧
      (∀ m, partitionEqualDown lt d a i j < m → m ≤ j → kAt key d a < kAt key d m) ∧
      (i ≤ partitionEqualDown lt d a i j →
        kAt key d (partitionEqualDown lt d a i j) ≤ kAt key d a) := by
  induction j with
  | zero =>
    unfold partitionEqualDown
    exact ⟨le_refl _, by omega, fun m h1 h2 => by omega, fun h => by omega⟩
  | succ j ih =>
    unfold partitionEqualDown
    by_cases hc : i ≤ j + 1 ∧ lessAt lt d a (j + 1) = true
    · rw [if_pos hc]
      obtain ⟨h1, h2, h3, h4⟩ := ih (by omega) (by omega)
      refine ⟨by omega, h2, fun m hm1 hm2 => ?_, h4⟩
      by_cases hmj : m = j + 1
      · subst hmj
        exact (lessAt_iff key lt hlt ha hj).1 hc.2
      · exact h3 m hm1 (by omega)
    · rw [if_neg hc]
      refine ⟨le_refl _, hij, fun m h1 h2 => by omega, fun h => ?_⟩
      by_contra hcon
      exact hc ⟨h, (lessAt_iff key lt hlt ha hj).2 (lt_of_not_le hcon)⟩

theorem partitionEqualScans_spec (hlt : ∀ x y, lt x y = decide (key x < key y)) (d : List α)
    (a b i j : Nat) (hai : a + 1 ≤ i) (hij : i ≤ j + 1) (hjb : j < b) (hb : b ≤ d.length)
    (hL : ∀ m, a < m → m < i → kAt key d m ≤ kAt key d a)
    (hR : ∀ m, j < m → m < b → kAt key d a < kAt key d m) :
    i ≤ partitionEqualUp lt d a j (j + 1 - i) i ∧
      partitionEqualDown lt d a (partitionEqualUp lt d a j (j + 1 - i) i) j ≤ j ∧
      partitionEqualUp lt d a j (j + 1 - i) i ≤
        partitionEqualDown lt d a (partitionEqualUp lt d a j (j + 1 - i) i) j + 1 ∧
      (∀ m, a < m → m < partitionEqualUp lt d a j (j + 1 - i) i → kAt key d m ≤ kAt key d a) ∧
      (∀ m, partitionEqualDown lt d a (partitionEqualUp lt d a j (j + 1 - i) i) j < m → m < b →
        kAt key d a < kAt key d m) ∧
      (partitionEqualUp lt d a j (j + 1 - i) i ≤
          partitionEqualDown lt d a (partitionEqualUp lt d a j (j + 1 - i) i) j →
        partitionEqualUp lt d a j (j + 1 - i) i <
            partitionEqualDown lt d a (partitionEqualUp lt d a j (j + 1 - i) i) j ∧
          kAt key d a < kAt key d (partitionEqualUp lt d a j (j + 1 - i) i) ∧
          kAt key d (partitionEqualDown lt d a (partitionEqualUp lt d a j (j + 1 - i) i) j) ≤
            kAt key d a) := by
  obtain ⟨u1, u2, u3, u4⟩ := partitionEqualUp_spec key lt hlt d a j (by omega) (by omega)
    (j + 1 - i) i hij (le_refl _)
  generalize partitionEqualUp lt d a j (j + 1 - i) i = i1 at *
  obtain ⟨v1, v2, v3, v4⟩ := partitionEqualDown_spec key lt hlt d a i1 (by omega) (by omega) j
    (by omega) u2
  generalize partitionEqualDown lt d a i1 j = j1 at *
  refine ⟨u1, v1, v2, fun m h1 h2 => ?_, fun m h1 h2 => ?_, fun h => ?_⟩
  · by_cases hm : m < i
    · exact hL m h1 hm
    · exact u3 m (by omega) h2
  · by_cases hm : j < m
    · exact hR m hm h2
    · exact v3 m h1 (by omega)
  · have e1 := u4 (by omega)
    have e2 := v4 h
    refine ⟨?_, e1, e2⟩
    by_contra hcon
    have : i1 = j1 := by omega
    rw [this] at e1
    exact absurd e1 (not_lt.2 e2)

theorem partitionEqualLoop_spec (hlt : ∀ x y, lt x y = decide (key x < key y)) (a b : Nat)
    (n : Nat) (d : List α) (i j : Nat) (hai : a + 1 ≤ i) (hij : i ≤ j + 1) (hjb : j < b)
    (hb : b ≤ d.length) (hn : j + 1 - i < n)
    (hL : ∀ m, a < m → m < i → kAt key d m ≤ kAt key d a)
    (hR : ∀ m, j < m → m < b → kAt key d a < kAt key d m) :
    SegRel key (a + 1) b d (partitionEqualLoop lt a n d i j).1 ∧
      a < (partitionEqualLoop lt a n d i j).2 ∧ (partitionEqualLoop lt a n d i j).2 ≤ b ∧
      (∀ m, a < m → m < (partitionEqualLoop lt a n d i j).2 →
        kAt key (partitionEqualLoop lt a n d i j).1 m ≤ kAt key d a) ∧
      (∀ m, (partitionEqualLoop lt a n d i j).2 ≤ m → m < b →
        kAt key d a < kAt key (partitionEqualLoop lt a n d i j).1 m) := by
  induction n generalizing d i j with
  | zero => omega
  | succ n ih =>
    unfold partitionEqualLoop
    simp only []
    obtain ⟨s1, s2, s3, s4, s5, s6⟩ :=
      partitionEqualScans_spec key lt hlt d a b i j hai hij hjb hb hL hR
    generalize partitionEqualUp lt d a j (j + 1 - i) i = i1 at *
    generalize partitionEqualDown lt d a i1 j = j1 at *
    by_cases hc : j1 < i1
    · rw [if_pos hc]
      exact ⟨SegRel.refl key _ _ _, by omega, by omega, s4, fun m h1 h2 => s5 m (by omega) h2⟩
    · rw [if_neg hc]
      obtain ⟨t1, t2, t3⟩ := s6 (by omega)
      have hil : i1 < d.length := by omega
      have hjl : j1 < d.length := by omega
      have hk := kAt_swapAt key hil hjl
      have hka : kAt key (swapAt d i1 j1) a = kAt key d a := by
        rw [hk, if_neg (by omega), if_neg (by omega)]
      have hsw : SegRel key (a + 1) b d (swapAt d i1 j1) :=
        SegRel.swap key (by omega) (by omega) (by omega) (by omega) hb
      obtain ⟨r1, r2, r3, r4, r5⟩ := ih (swapAt d i1 j1) (i1 + 1) (j1 - 1) (by omega) (by omega)
        (by omega) (by rw [length_swapAt]; exact hb) (by omega)
        (by
          intro m h1 h2
          rw [hka, hk]
          by_cases hm : m = i1
          · rw [if_pos hm]; exact t3
          · rw [if_neg hm, if_neg (by omega)]
            exact s4 m h1 (by omega))
        (by
          intro m h1 h2
          rw [hka, hk, if_neg (by omega)]
          by_cases hm : m = j1
          · rw [if_pos hm]; exact t2
          · rw [if_neg hm]
            exact s5 m (by omega) h2)
      rw [hka] at r4 r5
      exact ⟨SegRel.trans key hsw r1, r2, r3, r4, r5⟩

/-- Go `partitionEqual_func`: afterwards the keys before `newpivot` are at most the pivot
key and the keys from `newpivot` on are greater. -/
theorem partitionEqual_func_spec (hlt : ∀ x y, lt x y = decide (key x < key y))
    (data : List α) (a b pivot : Nat) (hap : a ≤ pivot) (hpb : pivot < b)
    (hb : b ≤ data.length) :
    SegRel key a b data (partitionEqual_func lt data a b pivot).1 ∧
      a < (partitionEqual_func lt data a b pivot).2 ∧
      (partitionEqual_func lt data a b pivot).2 ≤ b ∧
      (∀ m, a ≤ m → m < (partitionEqual_func lt data a b pivot).2 →
        kAt key (partitionEqual_func lt data a b pivot).1 m ≤ kAt key data pivot) ∧
      (∀ m, (partitionEqual_func lt data a b pivot).2 ≤ m → m < b →
        kAt key data pivot < kAt key (partitionEqual_func lt data a b pivot).1 m) := by
  unfold partitionEqual_func
  have hsw0 : SegRel key a b data (swapAt data a pivot) :=
    SegRel.swap key (le_refl _) (by omega) hap hpb hb
  have hb0 : b ≤ (swapAt data a pivot).length := by rw [length_swapAt]; exact hb
  have hp : kAt key (swapAt data a pivot) a = kAt key data pivot := by
    rw [kAt_swapAt key (by omega) (by omega), if_pos rfl]
  generalize swapAt data a pivot = d at *
  obtain ⟨r1, r2, r3, r4, r5⟩ := partitionEqualLoop_spec key lt hlt a b (b - a + 1) d (a + 1)
    (b - 1) (le_refl _) (by omega) (by omega) hb0 (by omega) (fun m h1 h2 => by omega)
    (fun m h1 h2 => by omega)
  rw [hp] at r4 r5
  refine ⟨SegRel.trans key hsw0 (r1.mono key (by omega) (le_refl _)), r2, r3, fun m h1 h2 => ?_,
    r5⟩
  by_cases hm : m = a
  · subst hm
    rw [r1.outside key (Or.inl (by omega)), hp]
  · exact r4 m (by omega) h2

end SortPartitionEqual

/-! ## `sort.Slice` sorts: pivot choice, pattern breaking, partial insertion sort -/

section SortAux

variable {α : Type} (key : α → Int) (lt : α → α → Bool)

theorem order2_func_mem (data : List α) (a b swaps : Nat) (P : Nat → Prop) (ha : P a)
    (hb : P b) :
    P (order2_func lt data a b swaps).1 ∧ P (order2_func lt data a b swaps).2.1 := by
  unfold order2_func
  split_ifs
  · exact ⟨hb, ha⟩
  · exact ⟨ha, hb⟩

theorem median_func_mem (data : List α) (a b c swaps : Nat) (P : Nat → Prop) (ha : P a)
    (hb : P b) (hc : P c) : P (median_func lt data a b c swaps).1 := by
  unfold median_func
  simp only []
  obtain ⟨h1, h2⟩ := order2_func_mem lt data a b swaps P ha hb
  obtain ⟨h3, _⟩ := order2_func_mem lt data (order2_func lt data a b swaps).2.1 c
    (order2_func lt data a b swaps).2.2 P h2 hc
  exact (order2_func_mem lt data _ _ _ P h1 h3).2

theorem pivotHint_fst (js : Nat × Nat) : (pivotHint js).1 = js.1 := by
  unfold pivotHint
  split_ifs <;> rfl

/-- The pivot chosen by `choosePivot_func` lies inside the segment. -/
theorem choosePivot_func_range (data : List α) (a b : Nat) (hab : a < b) :
    a ≤ (choosePivot_func lt data a b).1 ∧ (choosePivot_func lt data a b).1 < b := by
  unfold choosePivot_func medianAdjacent_func
  simp only []
  by_cases h8 : 8 ≤ b - a
  · rw [if_pos h8]
    by_cases h50 : 50 ≤ b - a
    · rw [if_pos h50, pivotHint_fst]
      have hq : 12 ≤ (b - a) / 4 := by omega
      apply median_func_mem lt data _ _ _ _ (fun x => a ≤ x ∧ x < b)
      · exact median_func_mem lt data _ _ _ _ (fun x => a ≤ x ∧ x < b)
          (by constructor <;> omega) (by constructor <;> omega) (by constructor <;> omega)
      · exact median_func_mem lt data _ _ _ _ (fun x => a ≤ x ∧ x < b)
          (by constructor <;> omega) (by constructor <;> omega) (by constructor <;> omega)
      · exact median_func_mem lt data _ _ _ _ (fun x => a ≤ x ∧ x < b)
          (by constructor <;> omega) (by constructor <;> omega) (by constructor <;> omega)
    · rw [if_neg h50, pivotHint_fst]
      exact median_func_mem lt data _ _ _ _ (fun x => a ≤ x ∧ x < b)
        (by constructor <;> omega) (by constructor <;> omega) (by constructor <;> omega)
  · rw [if_neg h8, pivotHint_fst]
    constructor <;> omega

theorem reverseRangeLoop_spec (a b : Nat) (n i j : Nat) (d : List α) (hi : a ≤ i) (hj : j < b)
    (hb : b ≤ d.length) : SegRel key a b d (reverseRangeLoop n i j d) := by
  induction n generalizing i j d with
  | zero => exact SegRel.refl key _ _ _
  | succ n ih =>
    unfold reverseRangeLoop
    split_ifs with h
    · exact SegRel.trans key (SegRel.swap key hi (by omega) (by omega) hj hb)
        (ih (i + 1) (j - 1) _ (by omega) (by omega) (by rw [length_swapAt]; exact hb))
    · exact SegRel.refl key _ _ _

theorem reverseRange_func_spec (a b : Nat) (d : List α) (hb : b ≤ d.length) :
    SegRel key a b d (reverseRange_func d a b) := by
  unfold reverseRange_func
  by_cases hab : a < b
  · exact reverseRangeLoop_spec key a b _ _ _ d (le_refl _) (by omega) hb
  · have : b - a = 0 := by omega
    rw [this]
    exact SegRel.refl key _ _ _

theorem nextPowerOfTwo_le (length : Nat) (h : length ≠ 0) :
    nextPowerOfTwo length ≤ 2 * length := by
  unfold nextPowerOfTwo bitsLen
  rw [if_neg h, Nat.shiftLeft_eq, Nat.one_mul, Nat.pow_succ]
  have := Nat.log2_self_le h
  omega

theorem breakPatternsLoop_spec (a b length modulus idx : Nat) (n i random : Nat) (d : List α)
    (hb : b ≤ d.length) (hlen : a + length ≤ b) (hl0 : 0 < length)
    (hmod : modulus ≤ 2 * length) (hidx : 1 ≤ idx) (h1 : a + 1 ≤ idx + i)
    (h2 : idx + i + n ≤ b + 1) :
    SegRel key a b d (breakPatternsLoop a length modulus idx n i random d) := by
  induction n generalizing i random d with
  | zero => exact SegRel.refl key _ _ _
  | succ n ih =>
    unfold breakPatternsLoop
    simp only []
    have hand : xorshiftNext random &&& (modulus - 1) ≤ modulus - 1 := Nat.and_le_right
    have hother : (if length ≤ xorshiftNext random &&& (modulus - 1) then
        (xorshiftNext random &&& (modulus - 1)) - length
        else xorshiftNext random &&& (modulus - 1)) < length := by
      split_ifs <;> omega
    exact SegRel.trans key
      (SegRel.swap key (by omega) (by omega) (by omega) (by omega) hb)
      (ih (i + 1) _ _ (by rw [length_swapAt]; exact hb) (by omega) (by omega))

theorem breakPatterns_func_spec (a b : Nat) (d : List α) (hab : a ≤ b) (hb : b ≤ d.length) :
    SegRel key a b d (breakPatterns_func d a b) := by
  unfold breakPatterns_func
  simp only []
  split_ifs with h8
  · exact breakPatternsLoop_spec key a b _ _ _ _ _ _ d hb (by omega) (by omega)
      (nextPowerOfTwo_le _ (by omega)) (by omega) (by omega) (by omega)
  · exact SegRel.refl key _ _ _

theorem partialScan_spec (hlt : ∀ x y, lt x y = decide (key x < key y)) (d : List α) (b : Nat)
    (hb : b ≤ d.length) (n i : Nat) (hi : 1 ≤ i) (hib : i ≤ b) (hn : b - i ≤ n) :
    i ≤ partialScan lt d b n i ∧ partialScan lt d b n i ≤ b ∧
      (∀ m, i ≤ m → m < partialScan lt d b n i → kAt key d (m - 1) ≤ kAt key d m) ∧
      (partialScan lt d b n i < b →
        kAt key d (partialScan lt d b n i) < kAt key d (partialScan lt d b n i - 1)) := by
  induction n generalizing i with
  | zero =>
    unfold partialScan
    exact ⟨le_refl _, hib, fun m h1 h2 => by omega, fun h => by omega⟩
  | succ n ih =>
    unfold partialScan
    by_cases hc : i < b ∧ ¬ lessAt lt d i (i - 1) = true
    · rw [if_pos hc]
      obtain ⟨h1, h2, h3, h4⟩ := ih (i + 1) (by omega) (by omega) (by omega)
      refine ⟨by omega, h2, fun m hm1 hm2 => ?_, h4⟩
      by_cases hmi : m = i
      · subst hmi
        have := hc.2
        rw [lessAt_iff key lt hlt (by omega) (by omega)] at this
        exact le_of_not_lt this
      · exact h3 m (by omega) hm2
    · rw [if_neg hc]
      refine ⟨le_refl _, hib, fun m h1 h2 => by omega, fun h => ?_⟩
      by_contra hcon
      exact hc ⟨h, fun hl => hcon ((lessAt_iff key lt hlt (by omega) (by omega)).1 hl)⟩

/-- Under the lower bound on the segment, the left shift of `partialInsertionSort_func` never
leaves the segment: it is the inner loop of the insertion sort. -/
theorem partialShiftLeft_eq (hlt : ∀ x y, lt x y = decide (key x < key y)) (a b : Nat) (j : Nat)
    (d : List α) (haj : a ≤ j) (hjb : j < b) (hb : b ≤ d.length) (hlow : LowBound key a b d) :
    partialShiftLeft lt j d = insertionSortInner lt a j d := by
  induction j generalizing d with
  | zero => rfl
  | succ j ih =>
    unfold partialShiftLeft insertionSortInner
    by_cases hc : lessAt lt d (j + 1) j = true
    · have hk := (lessAt_iff key lt hlt (by omega) (by omega)).1 hc
      have haj' : a < j + 1 := by
        by_contra hcon
        have ha : a = j + 1 := by omega
        rcases hlow with h0 | hl
        · omega
        · have := hl (j + 1) (by omega) hjb
          rw [ha] at this
          simp only [Nat.add_sub_cancel] at this
          exact absurd hk (not_lt.2 this)
      rw [if_neg (by simp [hc]), if_pos ⟨haj', hc⟩]
      exact ih _ (by omega) (by omega) (by rw [length_swapAt]; exact hb)
        (SegRel.lowBound key (SegRel.swap key (by omega) hjb (by omega) (by omega) hb) hlow)
    · rw [if_pos hc, if_neg (fun h => hc h.2)]

theorem partialShiftRight_spec (lo b : Nat) (n j : Nat) (d : List α) (hj : lo < j)
    (hb : b ≤ d.length) : SegRel key lo b d (partialShiftRight lt b n j d) := by
  induction n generalizing j d with
  | zero => exact SegRel.refl key _ _ _
  | succ n ih =>
    unfold partialShiftRight
    split_ifs with h1 h2
    · exact SegRel.trans key (SegRel.swap key (by omega) h1 (by omega) (by omega) hb)
        (ih (j + 1) _ (by omega) (by rw [length_swapAt]; exact hb))
    · exact SegRel.refl key _ _ _
    · exact SegRel.refl key _ _ _

theorem SortedSeg.of_segRel_outside {a b lo hi : Nat} {d1 d2 : List α}
    (h : SegRel key lo hi d1 d2) (hs : SortedSeg key a b d1) (hdis : b ≤ lo ∨ hi ≤ a) :
    SortedSeg key a b d2 := by
  intro i j hi' hij hj
  rw [h.outside key (by omega), h.outside key (by omega)]
  exact hs i j hi' hij hj

theorem sortedSeg_extend {a i i' : Nat} {d : List α} (hs : SortedSeg key a i d)
    (h : ∀ m, i ≤ m → m < i' → kAt key d (m - 1) ≤ kAt key d m) : SortedSeg key a i' d := by
  apply sortedSeg_of_adjacent
  intro m hm1 hm2
  by_cases hm : m + 1 < i
  · exact hs m (m + 1) hm1 (by omega) hm
  · have := h (m + 1) (by omega) hm2
    simpa using this

theorem partialInsertionLoop_spec (hlt : ∀ x y, lt x y = decide (key x < key y)) (a b : Nat)
    (steps i : Nat) (d : List α) (hai : a < i) (hib : i ≤ b) (hb : b ≤ d.length)
    (hs : SortedSeg key a i d) (hlow : LowBound key a b d) :
    SegRel key a b d (partialInsertionLoop lt a b steps i d).1 ∧
      ((partialInsertionLoop lt a b steps i d).2 = true →
        SortedSeg key a b (partialInsertionLoop lt a b steps i d).1) := by
  induction steps generalizing i d with
  | zero => exact ⟨SegRel.refl key _ _ _, fun h => by simp [partialInsertionLoop] at h⟩
  | succ steps ih =>
    unfold partialInsertionLoop
    simp only []
    obtain ⟨p1, p2, p3, p4⟩ := partialScan_spec key lt hlt d b hb (b - i) i (by omega) hib
      (le_refl _)
    have hs' := sortedSeg_extend key hs p3
    generalize partialScan lt d b (b - i) i = i1 at *
    by_cases h1 : i1 = b
    · rw [if_pos h1]
      exact ⟨SegRel.refl key _ _ _, fun _ => h1 ▸ hs'⟩
    · rw [if_neg h1]
      by_cases h2 : b - a < 50
      · rw [if_pos h2]
        exact ⟨SegRel.refl key _ _ _, fun h => by simp at h⟩
      · rw [if_neg h2]
        have hil : i1 < b := by omega
        -- the swap of the out-of-order pair
        have hsw : SegRel key a b d (swapAt d i1 (i1 - 1)) :=
          SegRel.swap key (by omega) hil (by omega) (by omega) hb
        have hk := kAt_swapAt key (show i1 < d.length by omega)
          (show i1 - 1 < d.length by omega)
        have hb1 : b ≤ (swapAt d i1 (i1 - 1)).length := by rw [length_swapAt]; exact hb
        have hlow1 := SegRel.lowBound key hsw hlow
        have hs1 : SortedSeg key a (i1 - 1) (swapAt d i1 (i1 - 1)) := by
          intro p q hp hpq hq
          rw [hk, hk, if_neg (by omega), if_neg (by omega), if_neg (by omega), if_neg (by omega)]
          exact hs' p q hp hpq (by omega)
        generalize swapAt d i1 (i1 - 1) = d1 at *
        -- the shift to the left
        have hleft : SegRel key a b d1
              (if 2 ≤ i1 - a then partialShiftLeft lt (i1 - 1) d1 else d1) ∧
            SortedSeg key a i1 (if 2 ≤ i1 - a then partialShiftLeft lt (i1 - 1) d1 else d1) := by
          by_cases h3 : 2 ≤ i1 - a
          · rw [if_pos h3, partialShiftLeft_eq key lt hlt a b (i1 - 1) d1 (by omega) (by omega)
              hb1 hlow1]
            obtain ⟨q1, q2⟩ := insertionSortInner_spec key lt hlt a (i1 - 1) (i1 - 1) d1
              (by omega) (le_refl _) (by omega) hs1 (sortedSeg_of_le key d1 (by omega))
              (fun p q _ _ _ _ => by omega)
            have e : i1 - 1 + 1 = i1 := by omega
            rw [e] at q1 q2
            exact ⟨q1.mono key (le_refl _) (by omega), q2⟩
          · rw [if_neg h3]
            exact ⟨SegRel.refl key _ _ _, sortedSeg_of_le key d1 (by omega)⟩
        obtain ⟨l1, l2⟩ := hleft
        have hb2 := l1.length_eq
        generalize (if 2 ≤ i1 - a then partialShiftLeft lt (i1 - 1) d1 else d1) = d2 at *
        -- the shift to the right
        have hright : SegRel key i1 b d2
            (if 2 ≤ b - i1 then partialShiftRight lt b (b - (i1 + 1)) (i1 + 1) d2 else d2) := by
          split_ifs
          · exact partialShiftRight_spec key lt i1 b _ _ d2 (by omega) (by omega)
          · exact SegRel.refl key _ _ _
        have hb3 := hright.length_eq
        have hs3 := SortedSeg.of_segRel_outside key hright l2 (Or.inl (le_refl _))
        have hr3 := hright.mono key (show a ≤ i1 by omega) (le_refl b)
        generalize (if 2 ≤ b - i1 then partialShiftRight lt b (b - (i1 + 1)) (i1 + 1) d2
          else d2) = d3 at *
        have hrel : SegRel key a b d d3 := SegRel.trans key hsw (SegRel.trans key l1 hr3)
        obtain ⟨r1, r2⟩ := ih i1 d3 (by omega) (by omega) (by omega) hs3
          (SegRel.lowBound key hrel hlow)
        exact ⟨SegRel.trans key hrel r1, r2⟩

theorem partialInsertionSort_func_spec (hlt : ∀ x y, lt x y = decide (key x < key y))
    (a b : Nat) (d : List α) (hab : a < b) (hb : b ≤ d.length) (hlow : LowBound key a b d) :
    SegRel key a b d (partialInsertionSort_func lt d a b).1 ∧
      ((partialInsertionSort_func lt d a b).2 = true →
        SortedSeg key a b (partialInsertionSort_func lt d a b).1) :=
  partialInsertionLoop_spec key lt hlt a b 5 (a + 1) d (by omega) (by omega) hb
    (sortedSeg_of_le key d (le_refl _)) hlow

/-- The first half of an iteration of `pdqsort_func` rearranges the segment, returns a pivot
inside it, and reports "sorted" only for a sorted segment. -/
theorem pdqsortPivot_spec (hlt : ∀ x y, lt x y = decide (key x < key y)) (data : List α)
    (a b limit : Nat) (wb wp : Bool) (hab : a < b) (hb : b ≤ data.length)
    (hlow : LowBound key a b data) :
    SegRel key a b data (pdqsortPivot lt data a b limit wb wp).1 ∧
      a ≤ (pdqsortPivot lt data a b limit wb wp).2.2.1 ∧
      (pdqsortPivot lt data a b limit wb wp).2.2.1 < b ∧
      ((pdqsortPivot lt data a b limit wb wp).2.2.2 = true →
        SortedSeg key a b (pdqsortPivot lt data a b limit wb wp).1) := by
  unfold pdqsortPivot
  simp only []
  have h1 : SegRel key a b data (if wb = true then data else breakPatterns_func data a b) := by
    split_ifs
    · exact SegRel.refl key _ _ _
    · exact breakPatterns_func_spec key a b data (by omega) hb
  generalize (if wb = true then data else breakPatterns_func data a b) = d1 at h1 ⊢
  have hb1 : b ≤ d1.length := by rw [h1.length_eq]; exact hb
  obtain ⟨c1, c2⟩ := choosePivot_func_range lt d1 a b hab
  generalize choosePivot_func lt d1 a b = ph at c1 c2 ⊢
  have h2 : SegRel key a b d1
      (if ph.2 = sortedHint.decreasingHint then reverseRange_func d1 a b else d1) := by
    split_ifs
    · exact reverseRange_func_spec key a b d1 hb1
    · exact SegRel.refl key _ _ _
  generalize (if ph.2 = sortedHint.decreasingHint then reverseRange_func d1 a b else d1) = d2
    at h2 ⊢
  have hb2 : b ≤ d2.length := by rw [h2.length_eq]; exact hb1
  have h12 := SegRel.trans key h1 h2
  have hp : a ≤ (if ph.2 = sortedHint.decreasingHint then b - 1 - (ph.1 - a) else ph.1) ∧
      (if ph.2 = sortedHint.decreasingHint then b - 1 - (ph.1 - a) else ph.1) < b := by
    split_ifs <;> constructor <;> omega
  by_cases hc : wb = true ∧ wp = true ∧
      (if ph.2 = sortedHint.decreasingHint then sortedHint.increasingHint else ph.2) =
        sortedHint.increasingHint
  · rw [if_pos hc]
    obtain ⟨q1, q2⟩ := partialInsertionSort_func_spec key lt hlt a b d2 hab hb2
      (SegRel.lowBound key h12 hlow)
    exact ⟨SegRel.trans key h12 q1, hp.1, hp.2, q2⟩
  · rw [if_neg hc]
    exact ⟨h12, hp.1, hp.2, fun h => by simp at h⟩

end SortAux

/-! ## `sort.Slice` sorts: heap sort -/

section SortHeap

variable {α : Type} (key : α → Int) (lt : α → α → Bool)

theorem siftDown_func_spec (hlt : ∀ x y, lt x y = decide (key x < key y)) (hi first lo : Nat)
    (n root : Nat) (d : List α) (hb : first + hi ≤ d.length) (hlo : lo ≤ root)
    (hn : hi ≤ root + n)
    (H1 : ∀ x c, lo ≤ x → x ≠ root → (c = 2 * x + 1 ∨ c = 2 * x + 2) → c < hi →
      kAt key d (first + c) ≤ kAt key d (first + x))
    (H2 : ∀ x c, lo ≤ x → (root = 2 * x + 1 ∨ root = 2 * x + 2) →
      (c = 2 * root + 1 ∨ c = 2 * root + 2) → c < hi →
      kAt key d (first + c) ≤ kAt key d (first + x)) :
    SegRel key first (first + hi) d (siftDown_func lt hi first n root d) ∧
      HeapFrom key first hi lo (siftDown_func lt hi first n root d) := by
  induction n generalizing root d with
  | zero =>
    unfold siftDown_func
    refine ⟨SegRel.refl key _ _ _, fun x c hx hc hch => ?_⟩
    exact H1 x c hx (by omega) hc hch
  | succ n ih =>
    unfold siftDown_func
    simp only []
    by_cases h0 : hi ≤ 2 * root + 1
    · rw [if_pos h0]
      refine ⟨SegRel.refl key _ _ _, fun x c hx hc hch => ?_⟩
      exact H1 x c hx (by omega) hc hch
    · rw [if_neg h0]
      -- the greater child
      have hcs : ∃ cs, cs = (if 2 * root + 1 + 1 < hi ∧
            lessAt lt d (first + (2 * root + 1)) (first + (2 * root + 1) + 1) = true
          then 2 * root + 1 + 1 else 2 * root + 1) ∧
          (cs = 2 * root + 1 ∨ cs = 2 * root + 2) ∧ cs < hi ∧
          ∀ c, (c = 2 * root + 1 ∨ c = 2 * root + 2) → c < hi →
            kAt key d (first + c) ≤ kAt key d (first + cs) := by
        refine ⟨_, rfl, ?_⟩
        by_cases hc : 2 * root + 1 + 1 < hi ∧
            lessAt lt d (first + (2 * root + 1)) (first + (2 * root + 1) + 1) = true
        · rw [if_pos hc]
          have hl := (lessAt_iff key lt hlt (by omega) (by omega)).1 hc.2
          refine ⟨Or.inr rfl, hc.1, fun c hcc _ => ?_⟩
          rcases hcc with rfl | rfl
          · exact le_of_lt hl
          · exact le_refl _
        · rw [if_neg hc]
          refine ⟨Or.inl rfl, by omega, fun c hcc hch => ?_⟩
          rcases hcc with rfl | rfl
          · exact le_refl _
          · by_contra hcon
            exact hc ⟨hch, (lessAt_iff key lt hlt (by omega) (by omega)).2
              (lt_of_not_le hcon)⟩
      obtain ⟨cs, hcs0, hcs1, hcs2, hcs3⟩ := hcs
      rw [← hcs0]
      by_cases hl : lessAt lt d (first + root) (first + cs) = true
      · rw [if_neg (by simp [hl])]
        have hlk := (lessAt_iff key lt hlt (by omega) (by omega)).1 hl
        have hk := kAt_swapAt key (show first + root < d.length by omega)
          (show first + cs < d.length by omega)
        have hsw : SegRel key first (first + hi) d (swapAt d (first + root) (first + cs)) :=
          SegRel.swap key (by omega) (by omega) (by omega) (by omega) hb
        have hk' : ∀ m, kAt key (swapAt d (first + root) (first + cs)) (first + m) =
            if m = root then kAt key d (first + cs)
            else if m = cs then kAt key d (first + root) else kAt key d (first + m) := by
          intro m
          rw [hk]
          by_cases h1 : m = root
          · rw [if_pos (by omega), if_pos h1]
          · rw [if_neg (by omega), if_neg h1]
            by_cases h2 : m = cs
            · rw [if_pos (by omega), if_pos h2]
            · rw [if_neg (by omega), if_neg h2]
        obtain ⟨r1, r2⟩ := ih cs (swapAt d (first + root) (first + cs))
          (by rw [length_swapAt]; exact hb) (by omega) (by omega)
          (by
            intro x c hx hxc hc hch
            rw [hk' c, hk' x]
            by_cases hxr : x = root
            · rw [if_pos hxr, if_neg (show ¬ c = root by omega)]
              by_cases hccs : c = cs
              · rw [if_pos hccs]
                exact le_of_lt hlk
              · rw [if_neg hccs]
                exact hcs3 c (by omega) hch
            · rw [if_neg hxr, if_neg hxc]
              by_cases hcr : c = root
              · rw [if_pos hcr]
                exact H2 x cs hx (by omega) hcs1 hcs2
              · rw [if_neg hcr, if_neg (show ¬ c = cs by omega)]
                exact H1 x c hx hxr hc hch)
          (by
            intro x c hx hxc hc hch
            have hxr : x = root := by omega
            rw [hk' c, hk' x, if_pos hxr, if_neg (show ¬ c = root by omega),
              if_neg (show ¬ c = cs by omega)]
            exact H1 cs c (by omega) (by omega) hc hch)
        exact ⟨SegRel.trans key hsw r1, r2⟩
      · rw [if_pos hl]
        have hle : kAt key d (first + cs) ≤ kAt key d (first + root) := by
          by_contra hcon
          exact hl ((lessAt_iff key lt hlt (by omega) (by omega)).2 (lt_of_not_le hcon))
        refine ⟨SegRel.refl key _ _ _, fun x c hx hc hch => ?_⟩
        by_cases hxr : x = root
        · subst hxr
          exact (hcs3 c hc hch).trans hle
        · exact H1 x c hx hxr hc hch

theorem heapBuild_spec (hlt : ∀ x y, lt x y = decide (key x < key y)) (hi first : Nat)
    (i : Nat) (d : List α) (hb : first + hi ≤ d.length) (h : HeapFrom key first hi i d) :
    SegRel key first (first + hi) d (heapBuild lt hi first i d) ∧
      HeapFrom key first hi 0 (heapBuild lt hi first i d) := by
  induction i generalizing d with
  | zero => exact ⟨SegRel.refl key _ _ _, h⟩
  | succ i ih =>
    unfold heapBuild
    obtain ⟨s1, s2⟩ := siftDown_func_spec key lt hlt hi first i hi i d hb (le_refl _) (by omega)
      (fun x c hx hxr hc hch => h x c (by omega) hc hch)
      (fun x c hx hxr _ _ => by omega)
    obtain ⟨r1, r2⟩ := ih _ (by rw [s1.length_eq]; exact hb) s2
    exact ⟨SegRel.trans key s1 r1, r2⟩

/-- The root of a heap carries the greatest key. -/
theorem HeapFrom.root_max {first hi : Nat} {d : List α} (h : HeapFrom key first hi 0 d)
    (r : Nat) (hr : r < hi) : kAt key d (first + r) ≤ kAt key d (first + 0) := by
  induction r using Nat.strong_induction_on with
  | _ r ih =>
    by_cases h0 : r = 0
    · subst h0; exact le_refl _
    · have hp := h ((r - 1) / 2) r (Nat.zero_le _) (by omega) hr
      exact hp.trans (ih ((r - 1) / 2) (by omega) (by omega))

theorem heapPop_spec (hlt : ∀ x y, lt x y = decide (key x < key y)) (first top : Nat)
    (i : Nat) (d : List α) (hi : i ≤ top) (hb : first + top ≤ d.length)
    (hheap : HeapFrom key first i 0 d) (hsorted : SortedSeg key (first + i) (first + top) d)
    (hcross : ∀ r s, r < i → i ≤ s → s < top →
      kAt key d (first + r) ≤ kAt key d (first + s)) :
    SegRel key first (first + top) d (heapPop lt first i d) ∧
      SortedSeg key first (first + top) (heapPop lt first i d) := by
  induction i generalizing d with
  | zero => exact ⟨SegRel.refl key _ _ _, hsorted⟩
  | succ i ih =>
    unfold heapPop
    have hk := kAt_swapAt key (show first < d.length by omega)
      (show first + i < d.length by omega)
    have hk' : ∀ m, kAt key (swapAt d first (first + i)) (first + m) =
        if m = 0 then kAt key d (first + i)
        else if m = i then kAt key d first else kAt key d (first + m) := by
      intro m
      rw [hk]
      by_cases h1 : m = 0
      · rw [if_pos (by omega), if_pos h1]
      · rw [if_neg (by omega), if_neg h1]
        by_cases h2 : m = i
        · rw [if_pos (by omega), if_pos h2]
        · rw [if_neg (by omega), if_neg h2]
    have hsw : SegRel key first (first + top) d (swapAt d first (first + i)) :=
      SegRel.swap key (le_refl _) (by omega) (by omega) (by omega) hb
    have hmax : ∀ r, r < i + 1 → kAt key d (first + r) ≤ kAt key d first := by
      intro r hr
      have := HeapFrom.root_max key hheap r hr
      simpa using this
    have hb1 : first + top ≤ (swapAt d first (first + i)).length := by
      rw [length_swapAt]; exact hb
    -- after the swap the old root sits at `i`: above everything before it, below the rest
    have hroot : ∀ r, r ≤ i →
        kAt key (swapAt d first (first + i)) (first + r) ≤
          kAt key (swapAt d first (first + i)) (first + i) := by
      intro r hr
      rw [hk' r, hk' i]
      by_cases hi0 : i = 0
      · have hr0 : r = 0 := by omega
        rw [if_pos hr0, if_pos hi0]
      · rw [if_neg hi0, if_pos rfl]
        by_cases hr0 : r = 0
        · rw [if_pos hr0]
          exact hmax i (by omega)
        · rw [if_neg hr0]
          by_cases hri : r = i
          · rw [if_pos hri]
          · rw [if_neg hri]
            exact hmax r (by omega)
    have hsuffix : ∀ s, i < s → s < top →
        kAt key (swapAt d first (first + i)) (first + s) = kAt key d (first + s) := by
      intro s h1 h2
      rw [hk' s, if_neg (by omega), if_neg (by omega)]
    have hati : ∀ s, i < s → s < top →
        kAt key (swapAt d first (first + i)) (first + i) ≤ kAt key d (first + s) := by
      intro s h1 h2
      have h0 := hcross 0 s (by omega) (by omega) h2
      simp only [Nat.add_zero] at h0
      rw [hk' i]
      by_cases hi0 : i = 0
      · rw [if_pos hi0]
        subst hi0
        simpa using h0
      · rw [if_neg hi0, if_pos rfl]
        exact h0
    have hheap1 : ∀ x c, 0 ≤ x → x ≠ 0 → (c = 2 * x + 1 ∨ c = 2 * x + 2) → c < i →
        kAt key (swapAt d first (first + i)) (first + c) ≤
          kAt key (swapAt d first (first + i)) (first + x) := by
      intro x c _ hx hc hch
      rw [hk' c, hk' x, if_neg (by omega), if_neg (by omega), if_neg hx, if_neg (by omega)]
      exact hheap x c (Nat.zero_le _) hc (by omega)
    generalize swapAt d first (first + i) = d1 at *
    obtain ⟨s1, s2⟩ := siftDown_func_spec key lt hlt i first 0 i 0 d1 (by omega) (le_refl _)
      (by omega) hheap1 (fun x c hx hxr _ _ => by omega)
    have hb2 : first + top ≤ (siftDown_func lt i first i 0 d1).length := by
      rw [s1.length_eq]; exact hb1
    have hout : ∀ s, i ≤ s →
        kAt key (siftDown_func lt i first i 0 d1) (first + s) = kAt key d1 (first + s) :=
      fun s hs => s1.outside key (Or.inr (by omega))
    have hin : ∀ r, r < i →
        kAt key (siftDown_func lt i first i 0 d1) (first + r) ≤ kAt key d1 (first + i) := by
      intro r hr
      refine s1.forall_inside key (fun k => k ≤ kAt key d1 (first + i)) ?_ (first + r)
        (by omega) (by omega)
      intro m hm1 hm2
      have := hroot (m - first) (by omega)
      rwa [show first + (m - first) = m by omega] at this
    generalize siftDown_func lt i first i 0 d1 = d2 at *
    obtain ⟨r1, r2⟩ := ih d2 (by omega) hb2 s2
      (by
        intro p q hp hpq hq
        have e1 := hout (p - first) (by omega)
        have e2 := hout (q - first) (by omega)
        rw [show first + (p - first) = p by omega] at e1
        rw [show first + (q - first) = q by omega] at e2
        rw [e1, e2]
        by_cases hpi : p = first + i
        · by_cases hqi : q = first + i
          · rw [hpi, hqi]
          · have e3 := hsuffix (q - first) (by omega) (by omega)
            have e4 := hati (q - first) (by omega) (by omega)
            rw [show first + (q - first) = q by omega] at e3 e4
            rw [hpi, e3]
            exact e4
        · have e3 := hsuffix (q - first) (by omega) (by omega)
          have e5 := hsuffix (p - first) (by omega) (by omega)
          rw [show first + (q - first) = q by omega] at e3
          rw [show first + (p - first) = p by omega] at e5
          rw [e3, e5]
          exact hsorted p q (by omega) hpq hq)
      (by
        intro r s hr hs hst
        rw [hout s hs]
        refine (hin r hr).trans ?_
        by_cases hsi : s = i
        · rw [hsi]
        · rw [hsuffix s (by omega) hst]
          exact hati s (by omega) hst)
    exact ⟨SegRel.trans key hsw (SegRel.trans key (s1.mono key (le_refl _) (by omega)) r1), r2⟩

/-- Go `heapSort_func` sorts the segment. -/
theorem heapSort_func_spec (hlt : ∀ x y, lt x y = decide (key x < key y)) (a b : Nat)
    (d : List α) (hab : a ≤ b) (hb : b ≤ d.length) :
    SegRel key a b d (heapSort_func lt d a b) ∧ SortedSeg key a b (heapSort_func lt d a b) := by
  unfold heapSort_func
  simp only []
  have hb' : a + (b - a) ≤ d.length := by omega
  obtain ⟨s1, s2⟩ := heapBuild_spec key lt hlt (b - a) a ((b - a - 1) / 2 + 1) d hb'
    (fun x c hx hc hch => by omega)
  obtain ⟨r1, r2⟩ := heapPop_spec key lt hlt a (b - a) (b - a) _ (le_refl _)
    (by rw [s1.length_eq]; exact hb') s2 (fun p q hp hpq hq => by omega)
    (fun r s hr hs hst => by omega)
  have e : a + (b - a) = b := by omega
  rw [e] at s1 r1 r2
  exact ⟨SegRel.trans key s1 r1, r2⟩

end SortHeap

/-! ## `sort.Slice` sorts: the main loop -/

section SortMain

variable {α : Type} (key : α → Int) (lt : α → α → Bool)

theorem sortedSeg_join {a b : Nat} (mid : Nat) {d : List α} (h1 : SortedSeg key a mid d)
    (h2 : SortedSeg key (mid + 1) b d)
    (hl : ∀ m, a ≤ m → m < mid → kAt key d m ≤ kAt key d mid)
    (hr : ∀ m, mid < m → m < b → kAt key d mid ≤ kAt key d m) : SortedSeg key a b d := by
  intro i j hi hij hj
  by_cases hjm : j < mid
  · exact h1 i j hi hij hjm
  · by_cases him : mid < i
    · exact h2 i j (by omega) hij hj
    · by_cases hi' : i = mid
      · by_cases hj' : j = mid
        · rw [hi', hj']
        · rw [hi']
          exact hr j (by omega) hj
      · by_cases hj' : j = mid
        · rw [hj']
          exact hl i hi (by omega)
        · exact (hl i hi (by omega)).trans (hr j (by omega) hj)

theorem LowBound.mono_right {a b b' : Nat} {d : List α} (h : LowBound key a b d) (hb : b' ≤ b) :
    LowBound key a b' d := by
  rcases h with h | h
  · exact Or.inl h
  · exact Or.inr (fun m h1 h2 => h m h1 (by omega))

/-- Go `pdqsort_func` sorts `data[a:b]` and touches nothing else, provided no element of the
segment is smaller than the element just before it. -/
theorem pdqsort_func_spec (hlt : ∀ x y, lt x y = decide (key x < key y)) (fuel : Nat)
    (data : List α) (a b limit : Nat) (wb wp : Bool) (hab : a ≤ b) (hb : b ≤ data.length)
    (hfuel : b - a < fuel) (hlow : LowBound key a b data) :
    SegRel key a b data (pdqsort_func lt fuel data a b limit wb wp) ∧
      SortedSeg key a b (pdqsort_func lt fuel data a b limit wb wp) := by
  induction fuel generalizing data a b limit wb wp with
  | zero => omega
  | succ fuel ih =>
    rw [pdqsort_func]
    by_cases h12 : b - a ≤ 12
    · rw [if_pos h12]
      exact insertionSort_func_spec key lt hlt a b data hb
    rw [if_neg h12]
    by_cases hlim : limit = 0
    · rw [if_pos hlim]
      exact heapSort_func_spec key lt hlt a b data hab hb
    rw [if_neg hlim]
    obtain ⟨p1, p2, p3, p4⟩ := pdqsortPivot_spec key lt hlt data a b limit wb wp (by omega) hb hlow
    have hlow1 := SegRel.lowBound key p1 hlow
    have hb1 : b ≤ (pdqsortPivot lt data a b limit wb wp).1.length := by
      rw [p1.length_eq]; exact hb
    generalize pdqsortPivot lt data a b limit wb wp = st at *
    simp only []
    by_cases hdone : st.2.2.2 = true
    · rw [if_pos hdone]
      exact ⟨p1, p4 hdone⟩
    rw [if_neg hdone]
    by_cases heq : 0 < a ∧ ¬ lessAt lt st.1 (a - 1) st.2.2.1 = true
    · -- many duplicates: `partitionEqual_func`, then continue on the greater part
      rw [if_pos heq]
      obtain ⟨ha0, hle⟩ := heq
      rw [lessAt_iff key lt hlt (by omega) (by omega)] at hle
      have hpiv : ∀ m, a ≤ m → m < b → kAt key st.1 st.2.2.1 ≤ kAt key st.1 m := by
        intro m h1 h2
        rcases hlow1 with h0 | hl
        · omega
        · exact (le_of_not_lt hle).trans (hl m h1 h2)
      obtain ⟨e1, e2, e3, e4, e5⟩ := partitionEqual_func_spec key lt hlt st.1 a b st.2.2.1 p2 p3 hb1
      have e6 := e1.forall_inside key (fun k => kAt key st.1 st.2.2.1 ≤ k) hpiv
      have hb2 : b ≤ (partitionEqual_func lt st.1 a b st.2.2.1).1.length := by
        rw [e1.length_eq]; exact hb1
      generalize partitionEqual_func lt st.1 a b st.2.2.1 = pe at *
      obtain ⟨r1, r2⟩ := ih pe.1 pe.2 b st.2.1 wb wp e3 hb2 (by omega)
        (Or.inr (fun m h1 h2 => by
          have := e4 (pe.2 - 1) (by omega) (by omega)
          exact this.trans (le_of_lt (e5 m h1 h2))))
      refine ⟨SegRel.trans key p1 (SegRel.trans key e1 (r1.mono key (by omega) (le_refl _))), ?_⟩
      have e7 := r1.forall_inside key (fun k => kAt key st.1 st.2.2.1 < k) e5
      intro i j hi hij hj
      by_cases him : pe.2 ≤ i
      · exact r2 i j him hij hj
      · rw [r1.outside key (Or.inl (by omega))]
        by_cases hjm : pe.2 ≤ j
        · exact (e4 i hi (by omega)).trans (le_of_lt (e7 j hjm hj))
        · rw [r1.outside key (Or.inl (by omega))]
          exact (e4 i hi (by omega)).trans (e6 j (by omega) hj)
    · rw [if_neg heq]
      obtain ⟨t1, t2, t3, t4, t5⟩ := partition_func_spec key lt hlt st.1 a b st.2.2.1 p2 p3 hb1
      have hlow2 := SegRel.lowBound key t1 hlow1
      have hb2 : b ≤ (partition_func lt st.1 a b st.2.2.1).1.length := by
        rw [t1.length_eq]; exact hb1
      have h01 := SegRel.trans key p1 t1
      generalize partition_func lt st.1 a b st.2.2.1 = pt at *
      by_cases hside : pt.2.1 - a < b - pt.2.1
      · -- the smaller left part is sorted by the recursive call
        rw [if_pos hside]
        obtain ⟨l1, l2⟩ := ih pt.1 a pt.2.1 st.2.1 true true t2 (by omega) (by omega)
          (LowBound.mono_right key hlow2 (by omega))
        have l3 := l1.forall_inside key (fun k => k < kAt key pt.1 pt.2.1) t4
        have l4 : ∀ m, pt.2.1 ≤ m → kAt key (pdqsort_func lt fuel pt.1 a pt.2.1 st.2.1 true true) m
            = kAt key pt.1 m := fun m hm => l1.outside key (Or.inr hm)
        have hb3 : b ≤ (pdqsort_func lt fuel pt.1 a pt.2.1 st.2.1 true true).length := by
          rw [l1.length_eq]; exact hb2
        generalize pdqsort_func lt fuel pt.1 a pt.2.1 st.2.1 true true = dl at *
        obtain ⟨r1, r2⟩ := ih dl (pt.2.1 + 1) b st.2.1 (decide ((b - a) / 8 ≤ pt.2.1 - a)) pt.2.2
          (by omega) hb3 (by omega)
          (Or.inr (fun m h1 h2 => by
            rw [show pt.2.1 + 1 - 1 = pt.2.1 by omega, l4 _ (le_refl _), l4 m (by omega)]
            exact t5 m (by omega) h2))
        have r3 := r1.forall_inside key (fun k => kAt key pt.1 pt.2.1 ≤ k)
          (fun m h1 h2 => by rw [l4 m (by omega)]; exact t5 m (by omega) h2)
        have r4 : ∀ m, m ≤ pt.2.1 →
            kAt key (pdqsort_func lt fuel dl (pt.2.1 + 1) b st.2.1
              (decide ((b - a) / 8 ≤ pt.2.1 - a)) pt.2.2) m = kAt key dl m :=
          fun m hm => r1.outside key (Or.inl (by omega))
        refine ⟨SegRel.trans key h01 (SegRel.trans key (l1.mono key (le_refl _) (by omega))
          (r1.mono key (by omega) (le_refl _))), ?_⟩
        apply sortedSeg_join key pt.2.1
        · exact SortedSeg.of_segRel_outside key r1 l2 (Or.inl (by omega))
        · exact r2
        · intro m h1 h2
          rw [r4 m (by omega), r4 _ (le_refl _), l4 _ (le_refl _)]
          exact le_of_lt (l3 m h1 h2)
        · intro m h1 h2
          rw [r4 _ (le_refl _), l4 _ (le_refl _)]
          exact r3 m (by omega) h2
      · -- the smaller right part is sorted by the recursive call
        rw [if_neg hside]
        obtain ⟨r1, r2⟩ := ih pt.1 (pt.2.1 + 1) b st.2.1 true true (by omega) hb2 (by omega)
          (Or.inr (fun m h1 h2 => by
            rw [show pt.2.1 + 1 - 1 = pt.2.1 by omega]
            exact t5 m (by omega) h2))
        have r3 := r1.forall_inside key (fun k => kAt key pt.1 pt.2.1 ≤ k)
          (fun m h1 h2 => t5 m (by omega) h2)
        have r4 : ∀ m, m ≤ pt.2.1 →
            kAt key (pdqsort_func lt fuel pt.1 (pt.2.1 + 1) b st.2.1 true true) m =
              kAt key pt.1 m :=
          fun m hm => r1.outside key (Or.inl (by omega))
        have hb3 : b ≤ (pdqsort_func lt fuel pt.1 (pt.2.1 + 1) b st.2.1 true true).length := by
          rw [r1.length_eq]; exact hb2
        have hlow3 := SegRel.lowBound key (r1.mono key (show a ≤ pt.2.1 + 1 by omega) (le_refl b))
          hlow2
        generalize pdqsort_func lt fuel pt.1 (pt.2.1 + 1) b st.2.1 true true = dr at *
        obtain ⟨l1, l2⟩ := ih dr a pt.2.1 st.2.1 (decide ((b - a) / 8 ≤ b - pt.2.1)) pt.2.2
          t2 (by omega) (by omega) (LowBound.mono_right key hlow3 (by omega))
        have l3 := l1.forall_inside key (fun k => k < kAt key pt.1 pt.2.1)
          (fun m h1 h2 => by rw [r4 m (by omega)]; exact t4 m h1 h2)
        have l4 : ∀ m, pt.2.1 ≤ m →
            kAt key (pdqsort_func lt fuel dr a pt.2.1 st.2.1
              (decide ((b - a) / 8 ≤ b - pt.2.1)) pt.2.2) m = kAt key dr m :=
          fun m hm => l1.outside key (Or.inr hm)
        refine ⟨SegRel.trans key h01 (SegRel.trans key (r1.mono key (by omega) (le_refl _))
          (l1.mono key (le_refl _) (by omega))), ?_⟩
        apply sortedSeg_join key pt.2.1
        · exact l2
        · exact SortedSeg.of_segRel_outside key l1 r2 (Or.inr (by omega))
        · intro m h1 h2
          rw [l4 _ (le_refl _), r4 _ (le_refl _)]
          exact le_of_lt (l3 m h1 h2)
        · intro m h1 h2
          rw [l4 _ (le_refl _), l4 m (by omega), r4 _ (le_refl _)]
          exact r3 m (by omega) h2

/-- Go `sort.Slice` returns its elements in non-decreasing order of their keys, for any
`less` that compares integer keys. -/
theorem Slice_sorted (hlt : ∀ x y, lt x y = decide (key x < key y)) (x : List α) :
    (Slice lt x).Pairwise (fun u v => key u ≤ key v) := by
  obtain ⟨h1, h2⟩ := pdqsort_func_spec key lt hlt (x.length + 1) x 0 x.length (bitsLen x.length)
    true true (Nat.zero_le _) (le_refl _) (by omega) (Or.inl rfl)
  have hlen : (Slice lt x).length = x.length := h1.length_eq
  have h2' : SortedSeg key 0 x.length (Slice lt x) := h2
  rw [List.pairwise_iff_getElem]
  intro i j hi hj hij
  have := h2' i j (Nat.zero_le _) (le_of_lt hij) (by rw [← hlen]; exact hj)
  rw [kAt_of_lt key hi, kAt_of_lt key hj] at this
  exact this

end SortMain

/-! ## The iteration bounds are never reached

The loops of the Go code that end on a condition on the data carry a bound on their iterations
in this development.  The bound given by the callers is never the reason for a loop to stop:
any bound that is at least as large gives the same result. -/

section SortFuel

variable {α : Type} (key : α → Int) (lt : α → α → Bool)

theorem siftDown_func_fuel (hi first : Nat) (n n' root : Nat) (d : List α) (hn : hi ≤ root + n)
    (hn' : hi ≤ root + n') :
    siftDown_func lt hi first n root d = siftDown_func lt hi first n' root d := by
  induction n generalizing n' root d with
  | zero =>
    cases n' with
    | zero => rfl
    | succ n' =>
      unfold siftDown_func
      simp only []
      rw [if_pos (by omega)]
  | succ n ih =>
    cases n' with
    | zero =>
      unfold siftDown_func
      simp only []
      rw [if_pos (by omega)]
    | succ n' =>
      unfold siftDown_func
      simp only []
      by_cases h0 : hi ≤ 2 * root + 1
      · rw [if_pos h0, if_pos h0]
      · rw [if_neg h0, if_neg h0]
        split_ifs <;> first | rfl | exact ih _ _ _ (by omega) (by omega)

theorem partitionLoop_fuel (hlt : ∀ x y, lt x y = decide (key x < key y)) (a b : Nat)
    (n n' : Nat) (d : List α) (i j : Nat) (hai : a + 1 ≤ i) (hij : i ≤ j + 1) (hjb : j < b)
    (hb : b ≤ d.length) (hn : j + 1 - i < n) (hn' : j + 1 - i < n') :
    partitionLoop lt a n d i j = partitionLoop lt a n' d i j := by
  induction n generalizing n' d i j with
  | zero => omega
  | succ n ih =>
    cases n' with
    | zero => omega
    | succ n' =>
      unfold partitionLoop
      simp only []
      obtain ⟨u1, u2, _, u4⟩ := partitionUp_spec key lt hlt d a j (by omega) (by omega)
        (j + 1 - i) i hij (le_refl _)
      generalize partitionUp lt d a j (j + 1 - i) i = i1 at *
      obtain ⟨v1, v2, _, v4⟩ := partitionDown_spec key lt hlt d a i1 (by omega) (by omega) j
        (by omega) u2
      generalize partitionDown lt d a i1 j = j1 at *
      by_cases hc : j1 < i1
      · rw [if_pos hc, if_pos hc]
      · rw [if_neg hc, if_neg hc]
        have hne : i1 ≠ j1 := by
          intro h
          have e1 := u4 (by omega)
          have e2 := v4 (by omega)
          rw [h] at e1
          exact absurd e2 (not_lt.2 e1)
        exact ih n' _ _ _ (by omega) (by omega) (by omega) (by rw [length_swapAt]; exact hb)
          (by omega) (by omega)

theorem partitionEqualLoop_fuel (hlt : ∀ x y, lt x y = decide (key x < key y)) (a b : Nat)
    (n n' : Nat) (d : List α) (i j : Nat) (hai : a + 1 ≤ i) (hij : i ≤ j + 1) (hjb : j < b)
    (hb : b ≤ d.length) (hn : j + 1 - i < n) (hn' : j + 1 - i < n') :
    partitionEqualLoop lt a n d i j = partitionEqualLoop lt a n' d i j := by
  induction n generalizing n' d i j with
  | zero => omega
  | succ n ih =>
    cases n' with
    | zero => omega
    | succ n' =>
      unfold partitionEqualLoop
      simp only []
      obtain ⟨u1, u2, _, u4⟩ := partitionEqualUp_spec key lt hlt d a j (by omega) (by omega)
        (j + 1 - i) i hij (le_refl _)
      generalize partitionEqualUp lt d a j (j + 1 - i) i = i1 at *
      obtain ⟨v1, v2, _, v4⟩ := partitionEqualDown_spec key lt hlt d a i1 (by omega) (by omega) j
        (by omega) u2
      generalize partitionEqualDown lt d a i1 j = j1 at *
      by_cases hc : j1 < i1
      · rw [if_pos hc, if_pos hc]
      · rw [if_neg hc, if_neg hc]
        have hne : i1 ≠ j1 := by
          intro h
          have e1 := u4 (by omega)
          have e2 := v4 (by omega)
          rw [h] at e1
          exact absurd e1 (not_lt.2 e2)
        exact ih n' _ _ _ (by omega) (by omega) (by omega) (by rw [length_swapAt]; exact hb)
          (by omega) (by omega)

/-- Any bound above `b - a` gives the same result of `pdqsort_func`. -/
theorem pdqsort_func_fuel (hlt : ∀ x y, lt x y = decide (key x < key y)) (fuel fuel' : Nat)
    (data : List α) (a b limit : Nat) (wb wp : Bool) (hab : a ≤ b) (hb : b ≤ data.length)
    (hfuel : b - a < fuel) (hfuel' : b - a < fuel') (hlow : LowBound key a b data) :
    pdqsort_func lt fuel data a b limit wb wp = pdqsort_func lt fuel' data a b limit wb wp := by
  induction fuel generalizing fuel' data a b limit wb wp with
  | zero => omega
  | succ fuel ih =>
    cases fuel' with
    | zero => omega
    | succ fuel' =>
      rw [pdqsort_func, pdqsort_func]
      by_cases h12 : b - a ≤ 12
      · rw [if_pos h12, if_pos h12]
      rw [if_neg h12, if_neg h12]
      by_cases hlim : limit = 0
      · rw [if_pos hlim, if_pos hlim]
      rw [if_neg hlim, if_neg hlim]
      obtain ⟨p1, p2, p3, _⟩ := pdqsortPivot_spec key lt hlt data a b limit wb wp (by omega) hb
        hlow
      have hlow1 := SegRel.lowBound key p1 hlow
      have hb1 : b ≤ (pdqsortPivot lt data a b limit wb wp).1.length := by
        rw [p1.length_eq]; exact hb
      generalize pdqsortPivot lt data a b limit wb wp = st at *
      simp only []
      by_cases hdone : st.2.2.2 = true
      · rw [if_pos hdone, if_pos hdone]
      rw [if_neg hdone, if_neg hdone]
      by_cases heq : 0 < a ∧ ¬ lessAt lt st.1 (a - 1) st.2.2.1 = true
      · rw [if_pos heq, if_pos heq]
        obtain ⟨e1, e2, e3, e4, e5⟩ :=
          partitionEqual_func_spec key lt hlt st.1 a b st.2.2.1 p2 p3 hb1
        have hb2 : b ≤ (partitionEqual_func lt st.1 a b st.2.2.1).1.length := by
          rw [e1.length_eq]; exact hb1
        generalize partitionEqual_func lt st.1 a b st.2.2.1 = pe at *
        exact ih fuel' pe.1 pe.2 b st.2.1 wb wp e3 hb2 (by omega) (by omega)
          (Or.inr (fun m h1 h2 => by
            have := e4 (pe.2 - 1) (by omega) (by omega)
            exact this.trans (le_of_lt (e5 m h1 h2))))
      · rw [if_neg heq, if_neg heq]
        obtain ⟨t1, t2, t3, _, t5⟩ := partition_func_spec key lt hlt st.1 a b st.2.2.1 p2 p3 hb1
        have hlow2 := SegRel.lowBound key t1 hlow1
        have hb2 : b ≤ (partition_func lt st.1 a b st.2.2.1).1.length := by
          rw [t1.length_eq]; exact hb1
        generalize partition_func lt st.1 a b st.2.2.1 = pt at *
        by_cases hside : pt.2.1 - a < b - pt.2.1
        · rw [if_pos hside, if_pos hside]
          have hlowL := LowBound.mono_right key hlow2 (show pt.2.1 ≤ b by omega)
          rw [← ih fuel' pt.1 a pt.2.1 st.2.1 true true t2 (by omega) (by omega) (by omega) hlowL]
          obtain ⟨l1, _⟩ := pdqsort_func_spec key lt hlt fuel pt.1 a pt.2.1 st.2.1 true true t2
            (by omega) (by omega) hlowL
          have l4 : ∀ m, pt.2.1 ≤ m →
              kAt key (pdqsort_func lt fuel pt.1 a pt.2.1 st.2.1 true true) m = kAt key pt.1 m :=
            fun m hm => l1.outside key (Or.inr hm)
          have hb3 : b ≤ (pdqsort_func lt fuel pt.1 a pt.2.1 st.2.1 true true).length := by
            rw [l1.length_eq]; exact hb2
          generalize pdqsort_func lt fuel pt.1 a pt.2.1 st.2.1 true true = dl at *
          exact ih fuel' dl (pt.2.1 + 1) b st.2.1 _ pt.2.2 (by omega) hb3 (by omega) (by omega)
            (Or.inr (fun m h1 h2 => by
              rw [show pt.2.1 + 1 - 1 = pt.2.1 by omega, l4 _ (le_refl _), l4 m (by omega)]
              exact t5 m (by omega) h2))
        · rw [if_neg hside, if_neg hside]
          have hlowR : LowBound key (pt.2.1 + 1) b pt.1 :=
            Or.inr (fun m h1 h2 => by
              rw [show pt.2.1 + 1 - 1 = pt.2.1 by omega]
              exact t5 m (by omega) h2)
          rw [← ih fuel' pt.1 (pt.2.1 + 1) b st.2.1 true true (by omega) hb2 (by omega)
            (by omega) hlowR]
          obtain ⟨r1, _⟩ := pdqsort_func_spec key lt hlt fuel pt.1 (pt.2.1 + 1) b st.2.1 true
            true (by omega) hb2 (by omega) hlowR
          have hb3 : b ≤ (pdqsort_func lt fuel pt.1 (pt.2.1 + 1) b st.2.1 true true).length := by
            rw [r1.length_eq]; exact hb2
          have hlow3 := SegRel.lowBound key
            (r1.mono key (show a ≤ pt.2.1 + 1 by omega) (le_refl b)) hlow2
          generalize pdqsort_func lt fuel pt.1 (pt.2.1 + 1) b st.2.1 true true = dr at *
          exact ih fuel' dr a pt.2.1 st.2.1 _ pt.2.2 t2 (by omega) (by omega) (by omega)
            (LowBound.mono_right key hlow3 (by omega))

/-- The bound `len(x) + 1` used by `Slice` can be replaced by any larger one. -/
theorem Slice_fuel (hlt : ∀ x y, lt x y = decide (key x < key y)) (x : List α) (fuel : Nat)
    (h : x.length < fuel) :
    pdqsort_func lt fuel x 0 x.length (bitsLen x.length) true true = Slice lt x :=
  pdqsort_func_fuel key lt hlt fuel (x.length + 1) x 0 x.length _ true true (Nat.zero_le _)
    (le_refl _) (by omega) (by omega) (Or.inl rfl)

end SortFuel

/-! ## The claims about `calculateScore` and `FuzzyMatch` -/

theorem ToLower_nil (mapLower : Str → Str) : ToLower mapLower [] = [] := by
  simp [ToLower]

theorem Slice_nil {α : Type} (lt : α → α → Bool) : Slice lt ([] : List α) = [] :=
  List.perm_nil.1 (Slice_perm lt [])

/-- C1: `FuzzyMatch(P, cs)` is a permutation of the matches kept while walking `cs` in order
(every candidate with a positive score, with that score, and no other), multiplicities
included; a match is in the result exactly when its text is a candidate, its score is that
candidate's score and this score is positive; the result is empty for an empty candidate
list, and it is empty exactly when no candidate scores positively. -/
theorem FuzzyMatch_perm_kept (mapLower : Str → Str) (P : Str) (cs : List Str) :
    (FuzzyMatch mapLower P cs).Perm
        ((cs.filter (fun c =>
            decide (0 < calculateScore (ToLower mapLower P) (ToLower mapLower c)))).map
          (fun c => { Text := c,
                      Score := calculateScore (ToLower mapLower P) (ToLower mapLower c) })) ∧
      (∀ m : Match, (FuzzyMatch mapLower P cs).count m =
        (keptMatches mapLower P cs).count m) ∧
      (∀ m : Match, m ∈ FuzzyMatch mapLower P cs ↔
        m.Text ∈ cs ∧ 0 < m.Score ∧
          m.Score = calculateScore (ToLower mapLower P) (ToLower mapLower m.Text)) ∧
      FuzzyMatch mapLower P [] = [] ∧
      (FuzzyMatch mapLower P cs = [] ↔
        ∀ c ∈ cs, calculateScore (ToLower mapLower P) (ToLower mapLower c) ≤ 0) := by
  refine ⟨FuzzyMatch_perm mapLower P cs, fun m => (FuzzyMatch_perm mapLower P cs).count_eq m,
    fun m => mem_FuzzyMatch mapLower P cs m, ?_, ?_⟩
  · rw [FuzzyMatch_eq]
    exact Slice_nil _
  · have hk : FuzzyMatch mapLower P cs = [] ↔ keptMatches mapLower P cs = [] :=
      ⟨fun h => List.perm_nil.1 (h ▸ (FuzzyMatch_perm mapLower P cs).symm),
        fun h => List.perm_nil.1 (h ▸ FuzzyMatch_perm mapLower P cs)⟩
    rw [hk]
    unfold keptMatches scoreOf
    simp only [List.map_eq_nil_iff, List.filter_eq_nil_iff, decide_eq_true_eq, not_lt]

/-- C2: the scores of `FuzzyMatch(P, cs)` never increase along the result: for all positions
`i < j` the score at `i` is at least the score at `j`. -/
theorem FuzzyMatch_sorted (mapLower : Str → Str) (P : Str) (cs : List Str) :
    (FuzzyMatch mapLower P cs).Pairwise (fun x y => x.Score ≥ y.Score) := by
  rw [FuzzyMatch_eq]
  have hlt : ∀ x y : Match, scoreDesc x y = decide (- x.Score < - y.Score) := by
    intro x y
    unfold scoreDesc
    rw [decide_eq_decide]
    constructor <;> intro h <;> omega
  have h := Slice_sorted (fun m : Match => - m.Score) scoreDesc hlt (keptMatches mapLower P cs)
  refine List.Pairwise.imp ?_ h
  intro x y hxy
  simp only [] at hxy
  omega

/-- C3 (failing input): for the pattern `feature-login` the candidate `feature-log-in`, which
is not an exact match, scores 1080 and is returned before the exact match (score 1000). -/
theorem exact_match_outranked :
    FuzzyMatch id (bytes "feature-login") [bytes "feature-login", bytes "feature-log-in"] =
      [{ Text := bytes "feature-log-in", Score := 1080 },
       { Text := bytes "feature-login", Score := 1000 }] := by
  decide

/-- C4 (as stated) fails: for the pattern `abbbbbbbbb`, the candidate `abbbbbbbbbx` contains
the pattern as a contiguous substring without being equal to it, the candidate `a-bbbbbbbbb`
(of the same length) contains it in order but not contiguously, and yet the substring match
(589) does not outrank the subsequence match (600). -/
theorem substring_below_subsequence :
    bytes "abbbbbbbbb" ≠ [] ∧
      ToLower id (bytes "abbbbbbbbb") <:+: ToLower id (bytes "abbbbbbbbbx") ∧
      ToLower id (bytes "abbbbbbbbbx") ≠ ToLower id (bytes "abbbbbbbbb") ∧
      (ToLower id (bytes "abbbbbbbbb")).Sublist (ToLower id (bytes "a-bbbbbbbbb")) ∧
      ¬ ToLower id (bytes "abbbbbbbbb") <:+: ToLower id (bytes "a-bbbbbbbbb") ∧
      ¬ (calculateScore (ToLower id (bytes "abbbbbbbbb")) (ToLower id (bytes "abbbbbbbbbx")) >
          calculateScore (ToLower id (bytes "abbbbbbbbb")) (ToLower id (bytes "a-bbbbbbbbb"))) := by
  decide

/-- C4 (amended): a candidate `A` that contains the pattern as a contiguous substring without
being equal to it outranks a candidate `B` that contains it only as a subsequence, provided
`len(lower A) + 5 m^2 + 35 m < 600` for `m = len(lower P)`. -/
theorem substring_above_subsequence (mapLower : Str → Str) (P A B : Str)
    (hA : ToLower mapLower P <:+: ToLower mapLower A)
    (hne : ToLower mapLower A ≠ ToLower mapLower P)
    (_hB : (ToLower mapLower P).Sublist (ToLower mapLower B))
    (hnB : ¬ ToLower mapLower P <:+: ToLower mapLower B)
    (hlen : (ToLower mapLower A).length + 5 * (ToLower mapLower P).length *
      (ToLower mapLower P).length + 35 * (ToLower mapLower P).length < 600) :
    calculateScore (ToLower mapLower P) (ToLower mapLower B) <
      calculateScore (ToLower mapLower P) (ToLower mapLower A) := by
  generalize ToLower mapLower P = p at *
  generalize ToLower mapLower A = ta at *
  generalize ToLower mapLower B = tb at *
  have hlen' : (ta.length : Int) + 5 * (p.length : Int) * (p.length : Int) +
      35 * (p.length : Int) < 600 := by exact_mod_cast hlen
  have hsA : calculateScore p ta = 600 - (ta.length : Int) := by
    rcases calculateScore_cases p ta with ⟨h1, _⟩ | ⟨_, h2, _⟩ | ⟨_, _, _, h4⟩ | ⟨_, _, h3, _⟩
    · exact absurd (h1 ▸ List.nil_infix) hnB
    · exact absurd h2 hne
    · exact h4
    · exact absurd hA h3
  have hsB : calculateScore p tb = fuzzyScore p tb := by
    rcases calculateScore_cases p tb with ⟨h1, _⟩ | ⟨_, h2, _⟩ | ⟨_, _, h3, _⟩ | ⟨_, _, _, h4⟩
    · exact absurd (h1 ▸ List.nil_infix) hnB
    · exact absurd (h2 ▸ List.infix_refl _) hnB
    · exact absurd h3 hnB
    · exact h4
  rw [hsA, hsB]
  have := fuzzyScore_le p tb
  linarith

theorem substring_above_subsequence_witness :
    calculateScore (ToLower id (bytes "ab")) (ToLower id (bytes "a-b")) <
      calculateScore (ToLower id (bytes "ab")) (ToLower id (bytes "xab")) :=
  substring_above_subsequence id (bytes "ab") (bytes "xab") (bytes "a-b")
    (by decide) (by decide) (by decide) (by decide) (by decide)

set_option maxRecDepth 100000 in
/-- C5 (as stated) fails: a candidate of 601 bytes that ends with the one-byte pattern scores
`500 + (100 - 601) = -1`. -/
theorem calculateScore_negative :
    ¬ (0 ≤ calculateScore (ToLower id (bytes "a"))
        (ToLower id (List.replicate 600 120 ++ bytes "a"))) := by
  decide

/-- C5 (amended): the score is non-negative except in the substring tier for candidates longer
than 600 bytes: `calculateScore(lower P, lower C) >= 0` holds exactly when it is not the case
that `lower P` is non-empty, `lower C` differs from it, contains it as a contiguous substring
and is longer than 600 bytes. -/
theorem calculateScore_nonneg_iff (mapLower : Str → Str) (P C : Str) :
    0 ≤ calculateScore (ToLower mapLower P) (ToLower mapLower C) ↔
      ¬ (ToLower mapLower P ≠ [] ∧ ToLower mapLower C ≠ ToLower mapLower P ∧
          ToLower mapLower P <:+: ToLower mapLower C ∧ 600 < (ToLower mapLower C).length) := by
  generalize ToLower mapLower P = p
  generalize ToLower mapLower C = t
  rcases calculateScore_cases p t with ⟨h1, hs⟩ | ⟨_, h2, hs⟩ | ⟨h1, h2, h3, hs⟩ | ⟨_, _, h3, hs⟩
  · rw [hs]; simp [h1]
  · rw [hs]; simp [h2]
  · rw [hs]
    constructor
    · rintro h ⟨_, _, _, h4⟩
      have : (600 : Int) < (t.length : Int) := by exact_mod_cast h4
      linarith
    · intro h
      have h4 : ¬ 600 < t.length := fun hc => h ⟨h1, h2, h3, hc⟩
      have : (t.length : Int) ≤ 600 := by exact_mod_cast (Nat.le_of_not_lt h4)
      linarith
  · rw [hs]
    constructor
    · rintro _ ⟨_, _, h, _⟩
      exact h3 h
    · intro _
      exact fuzzyScore_nonneg p t

/-- C6 (as stated) fails for the empty pattern: the empty candidate equals the empty pattern
after lowering, and its score is 1, not 1000. -/
theorem empty_pattern_not_1000 :
    ¬ (calculateScore (ToLower id (bytes "")) (ToLower id (bytes "")) = 1000 ↔
        ToLower id (bytes "") = ToLower id (bytes "")) := by
  decide

/-- C6 (amended): for the empty lowered pattern every candidate scores 1.  For a non-empty
lowered pattern, a candidate whose lowered form equals it scores 1000, and when the lowered
pattern has at most 11 bytes a score of 1000 is reached by no other candidate. -/
theorem calculateScore_eq_1000 (mapLower : Str → Str) (P C : Str) :
    (ToLower mapLower P = [] →
        calculateScore (ToLower mapLower P) (ToLower mapLower C) = 1) ∧
      (ToLower mapLower P ≠ [] →
        (ToLower mapLower C = ToLower mapLower P →
          calculateScore (ToLower mapLower P) (ToLower mapLower C) = 1000) ∧
        ((ToLower mapLower P).length ≤ 11 →
          (calculateScore (ToLower mapLower P) (ToLower mapLower C) = 1000 ↔
            ToLower mapLower C = ToLower mapLower P))) := by
  generalize ToLower mapLower P = p
  generalize ToLower mapLower C = t
  refine ⟨fun h => by simp [calculateScore, h], fun hP => ?_⟩
  have hfwd : t = p → calculateScore p t = 1000 := by
    intro h
    simp [calculateScore, hP, h]
  refine ⟨hfwd, fun hlen => ⟨fun hs => ?_, hfwd⟩⟩
  rcases calculateScore_cases p t with ⟨h1, _⟩ | ⟨_, h2, _⟩ | ⟨_, _, _, h4⟩ | ⟨_, _, _, h4⟩
  · exact absurd h1 hP
  · exact h2
  · rw [h4] at hs
    have : (0 : Int) ≤ (t.length : Int) := Int.natCast_nonneg _
    omega
  · rw [h4] at hs
    have hb := fuzzyScore_le p t
    have hl : (p.length : Int) ≤ 11 := by exact_mod_cast hlen
    have h0 : (0 : Int) ≤ (p.length : Int) := Int.natCast_nonneg _
    nlinarith

theorem calculateScore_eq_1000_witness :
    calculateScore (ToLower id (bytes "")) (ToLower id (bytes "foo")) = 1 ∧
      calculateScore (ToLower id (bytes "foo")) (ToLower id (bytes "Foo")) = 1000 ∧
      (calculateScore (ToLower id (bytes "foo")) (ToLower id (bytes "bar")) = 1000 ↔
        ToLower id (bytes "bar") = ToLower id (bytes "foo")) :=
  ⟨(calculateScore_eq_1000 id (bytes "") (bytes "foo")).1 (by decide),
    ((calculateScore_eq_1000 id (bytes "foo") (bytes "Foo")).2 (by decide)).1 (by decide),
    ((calculateScore_eq_1000 id (bytes "foo") (bytes "bar")).2 (by decide)).2 (by decide)⟩

set_option maxRecDepth 100000 in
/-- C7 (as stated) fails: with thirteen candidates for the pattern `a`, twelve of which tie at
598, the tied matches do not come back in input order (`a7` is returned before `a3`, and `a1`
after `a6`). -/
theorem ties_reordered :
    (FuzzyMatch id (bytes "a") tieCandidates).filter (fun m => m.Score == 598) ≠
      (keptMatches id (bytes "a") tieCandidates).filter (fun m => m.Score == 598) := by
  decide

/-- C7 (amended): when at most twelve candidates have a positive score, ties keep input order:
for every score `s` the matches of score `s` appear in the result in the order in which their
candidates appear in the input. -/
theorem FuzzyMatch_ties_stable (mapLower : Str → Str) (P : Str) (cs : List Str)
    (h : (cs.filter (fun c => decide
      (0 < calculateScore (ToLower mapLower P) (ToLower mapLower c)))).length ≤ 12) (s : Int) :
    (FuzzyMatch mapLower P cs).filter (fun m => m.Score == s) =
      (keptMatches mapLower P cs).filter (fun m => m.Score == s) := by
  rw [FuzzyMatch_eq]
  apply Slice_filter_of_length_le
  · intro x y hxy hq
    simp only [scoreDesc, gt_iff_lt, decide_eq_true_eq] at hxy
    simp only [beq_iff_eq] at hq
    omega
  · simpa [keptMatches, scoreOf] using h

theorem FuzzyMatch_ties_stable_witness :
    (FuzzyMatch id (bytes "a") [bytes "a1", bytes "a", bytes "a2"]).filter
        (fun m => m.Score == 598) =
      (keptMatches id (bytes "a") [bytes "a1", bytes "a", bytes "a2"]).filter
        (fun m => m.Score == 598) :=
  FuzzyMatch_ties_stable id (bytes "a") [bytes "a1", bytes "a", bytes "a2"] (by decide) 598

/-- C8: for the empty pattern `FuzzyMatch` returns one match per candidate, in input order,
with the candidate as text and score 1. -/
theorem FuzzyMatch_empty_pattern (mapLower : Str → Str) (cs : List Str) :
    FuzzyMatch mapLower [] cs = cs.map (fun c => { Text := c, Score := 1 }) := by
  have hk : keptMatches mapLower [] cs = cs.map (fun c => { Text := c, Score := 1 }) := by
    unfold keptMatches scoreOf
    simp [ToLower_nil, calculateScore]
  rw [FuzzyMatch_eq, hk]
  apply Slice_of_pairwise
  rw [List.pairwise_map]
  exact List.pairwise_of_forall (fun _ _ => by simp [scoreDesc])

/-- C9: a candidate whose lowered form does not contain the bytes of the lowered pattern in
order scores 0 and is the text of no match returned by `FuzzyMatch`, whatever the list. -/
theorem not_subsequence_excluded (mapLower : Str → Str) (P C : Str)
    (h : ¬ (ToLower mapLower P).Sublist (ToLower mapLower C)) :
    calculateScore (ToLower mapLower P) (ToLower mapLower C) = 0 ∧
      ∀ (cs : List Str) (m : Match), m ∈ FuzzyMatch mapLower P cs → m.Text ≠ C := by
  have h0 := calculateScore_eq_zero_of_not_sublist _ _ h
  refine ⟨h0, fun cs m hm hC => ?_⟩
  obtain ⟨_, hpos, hs⟩ := (mem_FuzzyMatch mapLower P cs m).1 hm
  rw [hs, hC, scoreOf, h0] at hpos
  exact absurd hpos (lt_irrefl _)

theorem not_subsequence_excluded_witness :
    calculateScore (ToLower id (bytes "xyz")) (ToLower id (bytes "foo")) = 0 ∧
      ∀ (cs : List Str) (m : Match), m ∈ FuzzyMatch id (bytes "xyz") cs →
        m.Text ≠ bytes "foo" :=
  not_subsequence_excluded id (bytes "xyz") (bytes "foo") (by decide)

theorem eq_map_getD_range {α : Type} (l : List α) (d : α) :
    l = (List.range l.length).map (fun i => l.getD i d) := by
  apply List.ext_getElem
  · simp
  · intro i h1 h2
    simp [List.getD_eq_getElem?_getD, List.getElem?_eq_getElem h1]

theorem keptMatches_eq_map (mapLower : Str → Str) (P : Str) (cs : List Str) :
    keptMatches mapLower P cs = (keptPositions mapLower P cs).map (matchAt mapLower P cs) := by
  unfold keptMatches keptPositions
  conv_lhs => rw [eq_map_getD_range cs []]
  rw [List.filter_map, List.map_map]
  rfl

theorem getD_lower_eq (mapLower : Str → Str) (cs cs' : List Str)
    (hcs : cs.map (ToLower mapLower) = cs'.map (ToLower mapLower)) (i : Nat) :
    ToLower mapLower (cs.getD i []) = ToLower mapLower (cs'.getD i []) := by
  have h := congrArg (fun l => l[i]?) hcs
  simp only [List.getElem?_map] at h
  rw [List.getD_eq_getElem?_getD, List.getD_eq_getElem?_getD]
  cases h1 : cs[i]? <;> cases h2 : cs'[i]? <;> simp_all

/-- C10: case is ignored for matching and preserved in the output.  If `P` and `P'` have the
same lowered form and `cs`, `cs'` have pointwise the same lowered forms (hence the same
length), then one list `idx` of input positions, a rearrangement of the positions with a
positive score (which are the same for both inputs), describes both results: the `k`-th match
of `FuzzyMatch(P, cs)` is built from `cs[idx[k]]` and the `k`-th match of `FuzzyMatch(P', cs')`
from `cs'[idx[k]]`, each carrying the unmodified candidate of its own list as text, and the
two scores at every position agree. -/
theorem FuzzyMatch_case_insensitive (mapLower : Str → Str) (P P' : Str) (cs cs' : List Str)
    (hP : ToLower mapLower P = ToLower mapLower P')
    (hcs : cs.map (ToLower mapLower) = cs'.map (ToLower mapLower)) :
    ∃ idx : List Nat,
      idx.Perm (keptPositions mapLower P cs) ∧
      keptPositions mapLower P cs = keptPositions mapLower P' cs' ∧
      FuzzyMatch mapLower P cs = idx.map (matchAt mapLower P cs) ∧
      FuzzyMatch mapLower P' cs' = idx.map (matchAt mapLower P' cs') ∧
      (∀ i, (matchAt mapLower P cs i).Text = cs.getD i [] ∧
        (matchAt mapLower P' cs' i).Text = cs'.getD i [] ∧
        (matchAt mapLower P cs i).Score = (matchAt mapLower P' cs' i).Score) := by
  have hlen : cs.length = cs'.length := by
    simpa using congrArg List.length hcs
  have hscore : ∀ i, scoreOf mapLower P (cs.getD i []) = scoreOf mapLower P' (cs'.getD i []) := by
    intro i
    unfold scoreOf
    rw [hP, getD_lower_eq mapLower cs cs' hcs i]
  have hpos : keptPositions mapLower P cs = keptPositions mapLower P' cs' := by
    unfold keptPositions
    rw [hlen]
    simp only [hscore]
  have hlt : (fun a b => scoreDesc (matchAt mapLower P cs a) (matchAt mapLower P cs b)) =
      (fun a b => scoreDesc (matchAt mapLower P' cs' a) (matchAt mapLower P' cs' b)) := by
    funext a b
    simp only [scoreDesc, matchAt, hscore]
  refine ⟨Slice (fun a b => scoreDesc (matchAt mapLower P cs a) (matchAt mapLower P cs b))
    (keptPositions mapLower P cs), Slice_perm _ _, hpos, ?_, ?_, ?_⟩
  · rw [FuzzyMatch_eq, keptMatches_eq_map, Slice_map]
  · rw [FuzzyMatch_eq, keptMatches_eq_map, Slice_map, hlt, hpos]
  · intro i
    exact ⟨rfl, rfl, hscore i⟩

theorem FuzzyMatch_case_insensitive_witness :
    ∃ idx : List Nat,
      idx.Perm (keptPositions id (bytes "myfeature") [bytes "MyFeature", bytes "BUGFIX"]) ∧
      keptPositions id (bytes "myfeature") [bytes "MyFeature", bytes "BUGFIX"] =
        keptPositions id (bytes "MYFEATURE") [bytes "myFEATURE", bytes "bugfix"] ∧
      FuzzyMatch id (bytes "myfeature") [bytes "MyFeature", bytes "BUGFIX"] =
        idx.map (matchAt id (bytes "myfeature") [bytes "MyFeature", bytes "BUGFIX"]) ∧
      FuzzyMatch id (bytes "MYFEATURE") [bytes "myFEATURE", bytes "bugfix"] =
        idx.map (matchAt id (bytes "MYFEATURE") [bytes "myFEATURE", bytes "bugfix"]) ∧
      (∀ i, (matchAt id (bytes "myfeature") [bytes "MyFeature", bytes "BUGFIX"] i).Text =
          [bytes "MyFeature", bytes "BUGFIX"].getD i [] ∧
        (matchAt id (bytes "MYFEATURE") [bytes "myFEATURE", bytes "bugfix"] i).Text =
          [bytes "myFEATURE", bytes "bugfix"].getD i [] ∧
        (matchAt id (bytes "myfeature") [bytes "MyFeature", bytes "BUGFIX"] i).Score =
          (matchAt id (bytes "MYFEATURE") [bytes "myFEATURE", bytes "bugfix"] i).Score) :=
  FuzzyMatch_case_insensitive id (bytes "myfeature") (bytes "MYFEATURE")
    [bytes "MyFeature", bytes "BUGFIX"] [bytes "myFEATURE", bytes "bugfix"]
    (by decide) (by decide)

/-! ## `BestMatch`, `TopMatches` and the substring tier -/

/-- C11: in the substring tier (non-empty lowered pattern, contained in the lowered candidate
without being equal to it) the score is `500 + (100 - len(lower C))`; of two such candidates
for the same pattern the strictly shorter one has the strictly higher score. -/
theorem substring_tier_score (mapLower : Str → Str) (P C C' : Str)
    (hP : ToLower mapLower P ≠ [])
    (hC : ToLower mapLower P <:+: ToLower mapLower C)
    (hne : ToLower mapLower C ≠ ToLower mapLower P) :
    calculateScore (ToLower mapLower P) (ToLower mapLower C) =
        500 + (100 - ((ToLower mapLower C).length : Int)) ∧
      (ToLower mapLower P <:+: ToLower mapLower C' →
        ToLower mapLower C' ≠ ToLower mapLower P →
        (ToLower mapLower C).length < (ToLower mapLower C').length →
        calculateScore (ToLower mapLower P) (ToLower mapLower C') <
          calculateScore (ToLower mapLower P) (ToLower mapLower C)) := by
  generalize ToLower mapLower P = p at *
  generalize ToLower mapLower C = t at *
  generalize ToLower mapLower C' = t' at *
  have key : ∀ u : Str, p <:+: u → u ≠ p → calculateScore p u = 500 + (100 - (u.length : Int)) := by
    intro u h1 h2
    rcases calculateScore_cases p u with ⟨h, _⟩ | ⟨_, h, _⟩ | ⟨_, _, _, h⟩ | ⟨_, _, h, _⟩
    · exact absurd h hP
    · exact absurd h h2
    · rw [h]; ring
    · exact absurd h1 h
  refine ⟨key t hC hne, fun h1 h2 h3 => ?_⟩
  rw [key t hC hne, key t' h1 h2]
  have : (t.length : Int) < (t'.length : Int) := by exact_mod_cast h3
  linarith

theorem substring_tier_score_witness :
    calculateScore (ToLower id (bytes "ab")) (ToLower id (bytes "xaby")) =
        500 + (100 - ((ToLower id (bytes "xaby")).length : Int)) ∧
      (ToLower id (bytes "ab") <:+: ToLower id (bytes "xabyyyyyy") →
        ToLower id (bytes "xabyyyyyy") ≠ ToLower id (bytes "ab") →
        (ToLower id (bytes "xaby")).length < (ToLower id (bytes "xabyyyyyy")).length →
        calculateScore (ToLower id (bytes "ab")) (ToLower id (bytes "xabyyyyyy")) <
          calculateScore (ToLower id (bytes "ab")) (ToLower id (bytes "xaby"))) :=
  substring_tier_score id (bytes "ab") (bytes "xaby") (bytes "xabyyyyyy")
    (by decide) (by decide) (by decide)

theorem topLoop_eq (found : List Match) (n : Int) (fuel i : Nat) (result : List Str)
    (hf : found.length - i ≤ fuel) :
    topLoop found n fuel i result =
      some (result ++ ((found.drop i).take (n.toNat - i)).map (fun m => m.Text)) := by
  induction fuel generalizing i result with
  | zero =>
    unfold topLoop
    rw [List.drop_eq_nil_of_le (by omega)]
    simp
  | succ fuel ih =>
    unfold topLoop
    by_cases hc : i < found.length ∧ (i : Int) < n
    · rw [if_pos hc]
      obtain ⟨h1, h2⟩ := hc
      have hn : i < n.toNat := by omega
      rw [List.getElem?_eq_getElem h1]
      simp only []
      rw [ih (i + 1) _ (by omega), List.drop_eq_getElem_cons h1,
        show n.toNat - i = (n.toNat - (i + 1)) + 1 by omega, List.take_succ_cons]
      simp
    · rw [if_neg hc]
      by_cases h1 : i < found.length
      · have h2 : ¬ (i : Int) < n := fun h => hc ⟨h1, h⟩
        have : n.toNat - i = 0 := by omega
        rw [this]
        simp
      · rw [List.drop_eq_nil_of_le (by omega)]
        simp

theorem take_min_length {α : Type} (l : List α) (n : Nat) :
    l.take (min n l.length) = l.take n := by
  by_cases h : n ≤ l.length
  · rw [Nat.min_eq_left h]
  · rw [Nat.min_eq_right (by omega), List.take_length, List.take_of_length_le (by omega)]

theorem FuzzyMatch_length (mapLower : Str → Str) (P : Str) (cs : List Str) :
    (FuzzyMatch mapLower P cs).length =
      (cs.filter (fun c =>
        decide (0 < calculateScore (ToLower mapLower P) (ToLower mapLower c)))).length := by
  rw [(FuzzyMatch_perm mapLower P cs).length_eq]
  simp [keptMatches, scoreOf]

/-- The allocation of `TopMatches` on an `int`: it succeeds exactly for `0 <= n` with
`16 * n <= maxAlloc`, and panics for every other `n`. -/
theorem makeStrings_eq (n : Int)
    (hint : - 9223372036854775808 ≤ n ∧ n < 9223372036854775808) :
    makeStrings n = if 0 ≤ n ∧ 16 * n ≤ (maxAlloc : Int) then some [] else none := by
  unfold makeStrings maxAlloc
  simp only []
  by_cases h : 0 ≤ n ∧ 16 * n ≤ ((2 ^ 48 : Nat) : Int)
  · rw [if_pos h, if_neg]
    omega
  · rw [if_neg h, if_pos]
    omega

/-- Within the limit of the allocator (`0 <= n` and `16 * n <= maxAlloc`), `TopMatches(P, cs,
n)` returns the texts of the first `min(n, len(FuzzyMatch(P, cs)))` elements of
`FuzzyMatch(P, cs)`, in the same order; their number is `min(n, number of candidates with a
positive score)`. -/
theorem TopMatches_eq (mapLower : Str → Str) (P : Str) (cs : List Str) (n : Int)
    (hn : 0 ≤ n) (hcap : 16 * n ≤ (maxAlloc : Int)) :
    TopMatches mapLower P cs n =
        some (((FuzzyMatch mapLower P cs).take
          (min n.toNat (FuzzyMatch mapLower P cs).length)).map (fun m => m.Text)) ∧
      (((FuzzyMatch mapLower P cs).take
          (min n.toNat (FuzzyMatch mapLower P cs).length)).map (fun m => m.Text)).length =
        min n.toNat (cs.filter (fun c =>
          decide (0 < calculateScore (ToLower mapLower P) (ToLower mapLower c)))).length := by
  constructor
  · have hm : makeStrings n = some [] := by
      have h48 : 16 * n ≤ ((2 ^ 48 : Nat) : Int) := hcap
      rw [makeStrings_eq n (by omega), if_pos ⟨hn, hcap⟩]
    unfold TopMatches
    simp only [hm]
    rw [topLoop_eq _ _ _ _ _ (by omega), take_min_length]
    simp
  · rw [List.length_map, List.length_take, ← FuzzyMatch_length]
    omega

theorem TopMatches_eq_witness :
    TopMatches id (bytes "a") [bytes "a1", bytes "a2", bytes "a3"] 2 =
        some (((FuzzyMatch id (bytes "a") [bytes "a1", bytes "a2", bytes "a3"]).take
          (min (2 : Int).toNat
            (FuzzyMatch id (bytes "a") [bytes "a1", bytes "a2", bytes "a3"]).length)).map
          (fun m => m.Text)) ∧
      (((FuzzyMatch id (bytes "a") [bytes "a1", bytes "a2", bytes "a3"]).take
          (min (2 : Int).toNat
            (FuzzyMatch id (bytes "a") [bytes "a1", bytes "a2", bytes "a3"]).length)).map
          (fun m => m.Text)).length =
        min (2 : Int).toNat ([bytes "a1", bytes "a2", bytes "a3"].filter (fun c =>
          decide (0 < calculateScore (ToLower id (bytes "a")) (ToLower id c)))).length :=
  TopMatches_eq id (bytes "a") [bytes "a1", bytes "a2", bytes "a3"] 2 (by decide) (by decide)

/-- C12 (failing input): with `n = 1 << 62` the capacity of `make([]string, 0, n)` is out of
range (`16 * n` overflows), so `TopMatches` panics, although `n >= 0`, one candidate
qualifies, and `n = 1` returns it. -/
theorem TopMatches_large_capacity_panics :
    (4611686018427387904 : Nat) = 2 ^ 62 ∧
      TopMatches id (bytes "a") [bytes "a"] 4611686018427387904 = none ∧
      (0 : Int) ≤ 4611686018427387904 ∧
      (FuzzyMatch id (bytes "a") [bytes "a"]).map (fun m => m.Text) = [bytes "a"] ∧
      TopMatches id (bytes "a") [bytes "a"] 1 = some [bytes "a"] := by
  decide

/-- C13 (failing input): with `n = -1` the call `make([]string, 0, n)` panics, so `TopMatches`
fails instead of returning an empty sequence; with `n = 0` it returns the empty sequence. -/
theorem TopMatches_negative_panics :
    TopMatches id (bytes "a") [bytes "a"] (-1) = none ∧
      TopMatches id (bytes "a") [bytes "a"] 0 = some [] := by
  decide

theorem FuzzyMatch_pairwise (mapLower : Str → Str) (P : Str) (cs : List Str) :
    (FuzzyMatch mapLower P cs).Pairwise (fun x y => y.Score ≤ x.Score) := by
  rw [FuzzyMatch_eq]
  have hlt : ∀ x y : Match, scoreDesc x y = decide (- x.Score < - y.Score) := by
    intro x y
    unfold scoreDesc
    rw [decide_eq_decide]
    constructor <;> intro h <;> omega
  have h := Slice_sorted (fun m : Match => - m.Score) scoreDesc hlt (keptMatches mapLower P cs)
  refine List.Pairwise.imp ?_ h
  intro x y hxy
  simp only [] at hxy
  omega

/-- C14: if no candidate has a positive score `BestMatch(P, cs)` is the empty string;
otherwise it is the text of the first element of `FuzzyMatch(P, cs)`, a member of `cs` whose
score is the greatest score over all candidates of `cs`. -/
theorem BestMatch_spec (mapLower : Str → Str) (P : Str) (cs : List Str) :
    ((∀ c ∈ cs, calculateScore (ToLower mapLower P) (ToLower mapLower c) ≤ 0) →
        BestMatch mapLower P cs = []) ∧
      ((∃ c ∈ cs, 0 < calculateScore (ToLower mapLower P) (ToLower mapLower c)) →
        (∃ m rest, FuzzyMatch mapLower P cs = m :: rest ∧ BestMatch mapLower P cs = m.Text) ∧
          BestMatch mapLower P cs ∈ cs ∧
          ∀ c ∈ cs, calculateScore (ToLower mapLower P) (ToLower mapLower c) ≤
            calculateScore (ToLower mapLower P) (ToLower mapLower (BestMatch mapLower P cs))) := by
  constructor
  · intro h
    have hk : keptMatches mapLower P cs = [] := by
      unfold keptMatches scoreOf
      simp only [List.map_eq_nil_iff, List.filter_eq_nil_iff, decide_eq_true_eq, not_lt]
      exact h
    have : FuzzyMatch mapLower P cs = [] :=
      List.perm_nil.1 (hk ▸ FuzzyMatch_perm mapLower P cs)
    unfold BestMatch
    rw [this]
  · rintro ⟨c0, hc0, hpos0⟩
    have hmem0 : (⟨c0, scoreOf mapLower P c0⟩ : Match) ∈ FuzzyMatch mapLower P cs :=
      (mem_FuzzyMatch mapLower P cs _).2 ⟨hc0, hpos0, rfl⟩
    have hpw := FuzzyMatch_pairwise mapLower P cs
    have hmemAll := mem_FuzzyMatch mapLower P cs
    unfold BestMatch
    cases hF : FuzzyMatch mapLower P cs with
    | nil => rw [hF] at hmem0; simp at hmem0
    | cons m rest =>
      rw [hF] at hpw hmemAll
      simp only []
      obtain ⟨hm1, hm2, hm3⟩ := (hmemAll m).1 (List.mem_cons_self _ _)
      refine ⟨⟨m, rest, rfl, rfl⟩, hm1, fun c hc => ?_⟩
      have hms : calculateScore (ToLower mapLower P) (ToLower mapLower m.Text) = m.Score :=
        hm3.symm
      rw [hms]
      by_cases hpos : 0 < calculateScore (ToLower mapLower P) (ToLower mapLower c)
      · have hcm : (⟨c, scoreOf mapLower P c⟩ : Match) ∈ m :: rest :=
          (hmemAll _).2 ⟨hc, hpos, rfl⟩
        rcases List.mem_cons.1 hcm with h | h
        · rw [← h]
          exact le_refl _
        · exact (List.pairwise_cons.1 hpw).1 _ h
      · omega

theorem BestMatch_spec_witness :
    BestMatch id (bytes "xyz") [bytes "foo", bytes "bar"] = [] ∧
      BestMatch id (bytes "foo") [bytes "bar", bytes "foo"] ∈ [bytes "bar", bytes "foo"] :=
  ⟨(BestMatch_spec id (bytes "xyz") [bytes "foo", bytes "bar"]).1 (by decide),
    ((BestMatch_spec id (bytes "foo") [bytes "bar", bytes "foo"]).2
      ⟨bytes "foo", by decide, by decide⟩).2.1⟩

/-! ## The scan loop as a fold over the greedy positions -/

/-- The scan loop matches exactly at the greedy positions and adds up `codeFold` over them;
`prev` is the position of the previous match, kept by the code in `lastMatchIdx` (`-1` when
there is none). -/
theorem scanLoop_fold (pattern text : Str) (n i : Nat) (st : ScanState) (prev : Option Nat)
    (hrel : (prev = none ∧ st.lastMatchIdx = -1) ∨
      (∃ q : Nat, prev = some q ∧ st.lastMatchIdx = (q : Int) ∧ q < i)) :
    (scanLoop pattern text n i st).patternIdx =
        st.patternIdx + (greedyFrom pattern text n i st.patternIdx).length ∧
      (scanLoop pattern text n i st).score =
        st.score + codeFold text prev st.consecutiveBonus
          (greedyFrom pattern text n i st.patternIdx) := by
  induction n generalizing i st prev with
  | zero => simp [scanLoop, greedyFrom, codeFold]
  | succ n ih =>
    unfold scanLoop greedyFrom
    by_cases hc : i < text.length ∧ st.patternIdx < pattern.length
    · rw [if_pos hc, if_pos hc]
      by_cases hm : text[i]? = pattern[st.patternIdx]?
      · rw [if_pos hm, if_pos hm]
        have hih := ih (i + 1) (scanMatch text i st) (some i)
          (Or.inr ⟨i, rfl, rfl, Nat.lt_succ_self i⟩)
        have h1 : (scanLoop pattern text n (i + 1) (scanMatch text i st)).patternIdx =
            st.patternIdx + 1 +
              (greedyFrom pattern text n (i + 1) (st.patternIdx + 1)).length := hih.1
        have h2 : (scanLoop pattern text n (i + 1) (scanMatch text i st)).score =
            (scanMatch text i st).score +
              codeFold text (some i) (scanMatch text i st).consecutiveBonus
                (greedyFrom pattern text n (i + 1) (st.patternIdx + 1)) := hih.2
        refine ⟨by rw [h1, List.length_cons]; omega, ?_⟩
        rw [h2]
        have hb : (scanMatch text i st).consecutiveBonus =
            (if prev.map (fun q => q + 1) = some i ∨ (prev = none ∧ i = 0) then
              st.consecutiveBonus + 10 else st.consecutiveBonus) := by
          have hcond : st.lastMatchIdx = (i : Int) - 1 ↔
              (prev.map (fun q => q + 1) = some i ∨ (prev = none ∧ i = 0)) := by
            rcases hrel with ⟨hp0, hl⟩ | ⟨q, hp0, hl, hq⟩
            · subst hp0
              rw [hl]
              simp only [Option.map_none', reduceCtorEq, false_or, true_and]
              constructor <;> intro h <;> omega
            · subst hp0
              rw [hl]
              simp only [Option.map_some', Option.some.injEq, reduceCtorEq, false_and, or_false]
              constructor <;> intro h <;> omega
          show (if st.lastMatchIdx = (i : Int) - 1 then st.consecutiveBonus + 10
            else st.consecutiveBonus) = _
          by_cases hx : st.lastMatchIdx = (i : Int) - 1
          · rw [if_pos hx, if_pos (hcond.1 hx)]
          · rw [if_neg hx, if_neg (fun h => hx (hcond.2 h))]
        have hs : (scanMatch text i st).score =
            (if atWordBoundary text i then st.score + 20 else st.score) +
              (10 + (scanMatch text i st).consecutiveBonus) := rfl
        rw [hs, hb]
        conv_rhs => rw [codeFold]
        split_ifs <;> ring
      · rw [if_neg hm, if_neg hm]
        apply ih (i + 1) st prev
        rcases hrel with h | ⟨q, hp0, hl, hq⟩
        · exact Or.inl h
        · exact Or.inr ⟨q, hp0, hl, by omega⟩
    · rw [if_neg hc, if_neg hc]
      simp [codeFold]

theorem codeFold_some (text : Str) (q : Nat) (b : Int) (ps : List Nat) :
    codeFold text (some q) b ps = claimedFold text (some q) b ps := by
  induction ps generalizing q b with
  | nil => rfl
  | cons p ps ih =>
    unfold codeFold claimedFold
    simp only [Option.map_some', Option.some.injEq, reduceCtorEq, false_and, or_false, ih]

theorem claimedFold_add (text : Str) (prev : Option Nat) (b c : Int) (ps : List Nat) :
    claimedFold text prev (b + c) ps = claimedFold text prev b ps + c * (ps.length : Int) := by
  induction ps generalizing prev b with
  | nil => simp [claimedFold]
  | cons p ps ih =>
    unfold claimedFold
    simp only [List.length_cons]
    by_cases h : prev.map (fun q => q + 1) = some p
    · rw [if_pos h, if_pos h, show b + c + 10 = (b + 10) + c by ring, ih]
      push_cast
      ring
    · rw [if_neg h, if_neg h, ih]
      push_cast
      ring

/-- The code's fold is the specified fold, plus `10` for every match when the first match
is at index `0`. -/
theorem codeFold_none (text : Str) (ps : List Nat) :
    codeFold text none 0 ps =
      claimedFold text none 0 ps +
        (if ps.head? = some 0 then 10 * (ps.length : Int) else 0) := by
  cases ps with
  | nil => simp [codeFold, claimedFold]
  | cons p ps =>
    unfold codeFold claimedFold
    simp only [Option.map_none', reduceCtorEq, false_or, true_and, List.head?_cons,
      Option.some.injEq, List.length_cons, if_false]
    by_cases h0 : p = 0
    · simp only [h0, if_true, codeFold_some]
      have := claimedFold_add text (some 0) 0 10 ps
      rw [this]
      push_cast
      ring
    · simp only [h0, if_false, codeFold_some]
      ring

theorem fuzzyScore_eq_codeFold (pattern text : Str) :
    fuzzyScore pattern text =
      if (greedyPositions pattern text).length = pattern.length then
        codeFold text none 0 (greedyPositions pattern text)
      else 0 := by
  obtain ⟨h1, h2⟩ := scanLoop_fold pattern text text.length 0 scanInit none (Or.inl ⟨rfl, rfl⟩)
  unfold fuzzyScore greedyPositions
  simp only []
  rw [h1, h2]
  simp [scanInit]

/-- What the fuzzy branch computes, against the specified fold: the two agree unless the whole
pattern is matched with its first byte at index `0`, where the code returns `10 * len(pattern)`
more. -/
theorem fuzzyScore_eq_claimedScore_add (pattern text : Str) :
    fuzzyScore pattern text =
      claimedScore pattern text +
        (if (greedyPositions pattern text).length = pattern.length ∧
            (greedyPositions pattern text).head? = some 0 then
          10 * (pattern.length : Int) else 0) := by
  rw [fuzzyScore_eq_codeFold]
  unfold claimedScore
  by_cases hc : (greedyPositions pattern text).length = pattern.length
  · rw [if_pos hc, if_pos hc, codeFold_none, hc]
    by_cases h0 : (greedyPositions pattern text).head? = some 0
    · rw [if_pos h0, if_pos ⟨rfl, h0⟩]
    · rw [if_neg h0, if_neg (fun h => h0 h.2)]
  · rw [if_neg hc, if_neg hc, if_neg (fun h => hc h.1)]
    ring

theorem codeFold_ge (text : Str) (prev : Option Nat) (b : Int) (ps : List Nat) (hb : 0 ≤ b) :
    10 * (ps.length : Int) ≤ codeFold text prev b ps := by
  induction ps generalizing prev b with
  | nil => simp [codeFold]
  | cons p ps ih =>
    unfold codeFold
    simp only [List.length_cons]
    push_cast
    by_cases h : prev.map (fun q => q + 1) = some p ∨ (prev = none ∧ p = 0)
    · rw [if_pos h]
      have := ih (some p) (b + 10) (by omega)
      split_ifs <;> omega
    · rw [if_neg h]
      have := ih (some p) b hb
      split_ifs <;> omega

/-- The greedy scan is complete: when the rest of the pattern is a subsequence of the rest
of the text, every remaining pattern byte is matched. -/
theorem greedyFrom_length (pattern text : Str) (n i k : Nat)
    (h : (pattern.drop k).Sublist (text.drop i)) (hn : text.length - i ≤ n) :
    (greedyFrom pattern text n i k).length = pattern.length - k := by
  induction n generalizing i k with
  | zero =>
    rw [List.drop_eq_nil_of_le (show text.length ≤ i by omega)] at h
    have := List.sublist_nil.1 h
    have hk : pattern.length ≤ k := by
      by_contra hcon
      have := congrArg List.length this
      simp at this
      omega
    simp only [greedyFrom, List.length_nil]
    omega
  | succ n ih =>
    unfold greedyFrom
    by_cases hk : k < pattern.length
    · rw [List.drop_eq_getElem_cons hk] at h
      have hi : i < text.length := by
        by_contra hcon
        rw [List.drop_eq_nil_of_le (show text.length ≤ i by omega)] at h
        exact absurd (List.sublist_nil.1 h) (List.cons_ne_nil _ _)
      rw [List.drop_eq_getElem_cons hi] at h
      rw [if_pos ⟨hi, hk⟩]
      by_cases hm : text[i]? = pattern[k]?
      · rw [if_pos hm, List.length_cons]
        have hsub : (pattern.drop (k + 1)).Sublist (text.drop (i + 1)) := by
          rcases List.sublist_cons_iff.1 h with h' | ⟨r, hr, h'⟩
          · exact (List.sublist_cons_self _ _).trans h'
          · rw [(List.cons.inj hr).2]
            exact h'
        rw [ih (i + 1) (k + 1) hsub (by omega)]
        omega
      · rw [if_neg hm]
        have hsub : (pattern.drop k).Sublist (text.drop (i + 1)) := by
          rw [List.drop_eq_getElem_cons hk]
          rcases List.sublist_cons_iff.1 h with h' | ⟨r, hr, _⟩
          · exact h'
          · exfalso
            apply hm
            rw [List.getElem?_eq_getElem hi, List.getElem?_eq_getElem hk, (List.cons.inj hr).1]
        exact ih (i + 1) k hsub (by omega)
    · have : pattern.length - k = 0 := by omega
      rw [if_neg (fun hc => hk hc.2), this]
      rfl

/-- C15 (failing input): for the pattern `abc`, the candidate `-axb-c` (matches at 1, 3, 5,
the first and the third at a word boundary) and the candidate `axbxc` (matches at 0, 2, 4,
only the first at a word boundary) have no consecutive matches, every boundary match of the
second is a boundary match of the first, the first has one more, and yet the first scores 70
against 80. -/
theorem boundary_alignment_outranked :
    greedyPositions (bytes "abc") (bytes "-axb-c") = [1, 3, 5] ∧
      greedyPositions (bytes "abc") (bytes "axbxc") = [0, 2, 4] ∧
      [1, 3, 5].map (atWordBoundary (bytes "-axb-c")) = [true, false, true] ∧
      [0, 2, 4].map (atWordBoundary (bytes "axbxc")) = [true, false, false] ∧
      ¬ bytes "abc" <:+: bytes "-axb-c" ∧ ¬ bytes "abc" <:+: bytes "axbxc" ∧
      calculateScore (bytes "abc") (bytes "-axb-c") = 70 ∧
      calculateScore (bytes "abc") (bytes "axbxc") = 80 := by
  decide

/-- C17 (failing input): `ab` is a subsequence but not a substring of `axb`, matched at
positions 0 and 2; the specified fold gives `(10 + 0 + 20) + (10 + 0 + 0) = 40`, the code
returns 60, because the match at index 0 already raises the consecutive bonus. -/
theorem fold_differs_at_index_zero :
    (bytes "ab").Sublist (bytes "axb") ∧ ¬ bytes "ab" <:+: bytes "axb" ∧
      greedyPositions (bytes "ab") (bytes "axb") = [0, 2] ∧
      claimedScore (bytes "ab") (bytes "axb") = 40 ∧
      calculateScore (bytes "ab") (bytes "axb") = 60 := by
  decide

/-- C18: when the lowered pattern is a subsequence but not a contiguous substring of the
lowered candidate, the scan consumes the whole pattern, the score is at least
`10 * len(lower P)`, which is positive, and the candidate is returned by `FuzzyMatch` for every
list that contains it. -/
theorem greedy_scan_complete (mapLower : Str → Str) (P C : Str)
    (h1 : (ToLower mapLower P).Sublist (ToLower mapLower C))
    (h2 : ¬ ToLower mapLower P <:+: ToLower mapLower C) :
    (scanLoop (ToLower mapLower P) (ToLower mapLower C) (ToLower mapLower C).length 0
        scanInit).patternIdx = (ToLower mapLower P).length ∧
      10 * ((ToLower mapLower P).length : Int) ≤
        calculateScore (ToLower mapLower P) (ToLower mapLower C) ∧
      0 < 10 * ((ToLower mapLower P).length : Int) ∧
      ∀ cs : List Str, C ∈ cs → ∃ m ∈ FuzzyMatch mapLower P cs, m.Text = C := by
  have hlen : (greedyPositions (ToLower mapLower P) (ToLower mapLower C)).length =
      (ToLower mapLower P).length :=
    greedyFrom_length _ _ _ 0 0 (by simpa using h1) (by omega)
  have hne : ToLower mapLower P ≠ [] := by
    intro h
    exact h2 (h ▸ List.nil_infix)
  have hpos : 0 < 10 * ((ToLower mapLower P).length : Int) := by
    have := List.length_pos.2 hne
    omega
  have hscore : calculateScore (ToLower mapLower P) (ToLower mapLower C) =
      fuzzyScore (ToLower mapLower P) (ToLower mapLower C) := by
    rcases calculateScore_cases (ToLower mapLower P) (ToLower mapLower C) with
      ⟨h, _⟩ | ⟨_, h, _⟩ | ⟨_, _, h, _⟩ | ⟨_, _, _, h⟩
    · exact absurd h hne
    · exact absurd (h ▸ List.infix_refl _) h2
    · exact absurd h h2
    · exact h
  have hge : 10 * ((ToLower mapLower P).length : Int) ≤
      calculateScore (ToLower mapLower P) (ToLower mapLower C) := by
    rw [hscore, fuzzyScore_eq_codeFold, if_pos hlen, ← hlen]
    exact codeFold_ge _ _ _ _ (le_refl _)
  refine ⟨?_, hge, hpos, fun cs hC => ?_⟩
  · have := (scanLoop_fold (ToLower mapLower P) (ToLower mapLower C)
      (ToLower mapLower C).length 0 scanInit none (Or.inl ⟨rfl, rfl⟩)).1
    rw [this]
    show 0 + (greedyPositions (ToLower mapLower P) (ToLower mapLower C)).length = _
    omega
  · refine ⟨⟨C, scoreOf mapLower P C⟩, ?_, rfl⟩
    rw [mem_FuzzyMatch]
    exact ⟨hC, by show 0 < calculateScore _ _; omega, rfl⟩

theorem greedy_scan_complete_witness :
    (scanLoop (ToLower id (bytes "fx")) (ToLower id (bytes "repo-bugfix"))
        (ToLower id (bytes "repo-bugfix")).length 0 scanInit).patternIdx =
        (ToLower id (bytes "fx")).length ∧
      10 * ((ToLower id (bytes "fx")).length : Int) ≤
        calculateScore (ToLower id (bytes "fx")) (ToLower id (bytes "repo-bugfix")) ∧
      0 < 10 * ((ToLower id (bytes "fx")).length : Int) ∧
      ∀ cs : List Str, bytes "repo-bugfix" ∈ cs →
        ∃ m ∈ FuzzyMatch id (bytes "fx") cs, m.Text = bytes "repo-bugfix" :=
  greedy_scan_complete id (bytes "fx") (bytes "repo-bugfix") (by decide) (by decide)

/-! ## `strconv.Atoi` against the decimal reading -/

set_option maxRecDepth 100000 in
theorem byte_digit_facts : ∀ v : Fin 256,
    ((9 < UInt8.mk (BitVec.ofFin v) - 48) ↔
        ¬ (48 ≤ UInt8.mk (BitVec.ofFin v) ∧ UInt8.mk (BitVec.ofFin v) ≤ 57)) ∧
      ((48 ≤ UInt8.mk (BitVec.ofFin v) ∧ UInt8.mk (BitVec.ofFin v) ≤ 57) →
        (UInt8.mk (BitVec.ofFin v) - 48).toNat = (UInt8.mk (BitVec.ofFin v)).toNat - 48 ∧
          (UInt8.mk (BitVec.ofFin v)).toNat - 48 ≤ 9) := by
  decide

/-- The test `ch -= '0'; ch > 9` of the fast path rejects exactly the bytes outside `'0'..'9'`,
and on a digit the wrapped difference is the digit value. -/
theorem byte_digit (c : UInt8) :
    ((9 < c - 48) ↔ ¬ (48 ≤ c ∧ c ≤ 57)) ∧
      ((48 ≤ c ∧ c ≤ 57) → (c - 48).toNat = c.toNat - 48 ∧ c.toNat - 48 ≤ 9) := by
  cases c with
  | mk v =>
    cases v with
    | ofFin f => exact byte_digit_facts f

theorem digits_foldl_mono (ds : Str) (n : Nat) :
    n ≤ ds.foldl (fun n d => n * 10 + (d.toNat - 48)) n := by
  induction ds generalizing n with
  | nil => exact le_refl _
  | cons c s ih =>
    rw [List.foldl_cons]
    exact le_trans (by omega) (ih _)

theorem digits_foldl_lt (ds : Str) (n : Nat)
    (h : ds.all (fun d => decide (48 ≤ d ∧ d ≤ 57)) = true) :
    ds.foldl (fun n d => n * 10 + (d.toNat - 48)) n < (n + 1) * 10 ^ ds.length := by
  induction ds generalizing n with
  | nil => simp
  | cons c s ih =>
    rw [List.all_cons, Bool.and_eq_true, decide_eq_true_eq] at h
    rw [List.foldl_cons, List.length_cons]
    have h9 := ((byte_digit c).2 h.1).2
    have := ih (n * 10 + (c.toNat - 48)) h.2
    calc _ < (n * 10 + (c.toNat - 48) + 1) * 10 ^ s.length := this
      _ ≤ ((n + 1) * 10) * 10 ^ s.length := Nat.mul_le_mul_right _ (by omega)
      _ = (n + 1) * 10 ^ (s.length + 1) := by rw [pow_succ]; ring

theorem atoiLoop_eq (ds : Str) (n : Nat) :
    atoiLoop (n : Int) ds =
      if ds.all (fun d => decide (48 ≤ d ∧ d ≤ 57)) = true then
        some ((ds.foldl (fun n d => n * 10 + (d.toNat - 48)) n : Nat) : Int)
      else none := by
  induction ds generalizing n with
  | nil => simp [atoiLoop]
  | cons c s ih =>
    unfold atoiLoop
    simp only [List.all_cons, Bool.and_eq_true, decide_eq_true_eq, List.foldl_cons]
    by_cases hd : 48 ≤ c ∧ c ≤ 57
    · have h9 : ¬ (c - 48 > 9) := fun h => (byte_digit c).1.1 h hd
      rw [if_neg h9, ((byte_digit c).2 hd).1]
      have hcast : (n : Int) * 10 + ((c.toNat - 48 : Nat) : Int) =
          ((n * 10 + (c.toNat - 48) : Nat) : Int) := by
        push_cast
        ring
      rw [hcast, ih]
      by_cases hs : s.all (fun d => decide (48 ≤ d ∧ d ≤ 57)) = true
      · rw [if_pos hs, if_pos ⟨hd, hs⟩]
      · rw [if_neg hs, if_neg (fun h => hs h.2)]
    · rw [if_pos ((byte_digit c).1.2 hd), if_neg (fun h => hd h.1)]

theorem parseUintLoop_eq (ds : Str) (n : Nat) (hn : n ≤ 2 ^ 64 - 1) :
    parseUintLoop n ds =
      if ds.all (fun d => decide (48 ≤ d ∧ d ≤ 57)) = true ∧
          ds.foldl (fun n d => n * 10 + (d.toNat - 48)) n ≤ 2 ^ 64 - 1 then
        some (ds.foldl (fun n d => n * 10 + (d.toNat - 48)) n)
      else none := by
  induction ds generalizing n with
  | nil =>
    simp only [parseUintLoop, List.all_nil, List.foldl_nil, true_and]
    rw [if_pos hn]
  | cons c s ih =>
    unfold parseUintLoop
    simp only [List.all_cons, Bool.and_eq_true, decide_eq_true_eq, List.foldl_cons]
    by_cases hd : 48 ≤ c ∧ c ≤ 57
    · rw [if_pos hd]
      by_cases hbig : n * 10 + (c.toNat - 48) > 2 ^ 64 - 1
      · rw [if_pos hbig, if_neg]
        intro h
        have := digits_foldl_mono s (n * 10 + (c.toNat - 48))
        omega
      · rw [if_neg hbig, ih _ (by omega)]
        by_cases hs : s.all (fun d => decide (48 ≤ d ∧ d ≤ 57)) = true ∧
            s.foldl (fun n d => n * 10 + (d.toNat - 48)) (n * 10 + (c.toNat - 48)) ≤ 2 ^ 64 - 1
        · rw [if_pos hs, if_pos ⟨⟨hd, hs.1⟩, hs.2⟩]
        · rw [if_neg hs, if_neg (fun h => hs ⟨h.1.2, h.2⟩)]
    · rw [if_neg hd, if_neg (fun h => hd h.1.1)]

theorem ParseUint_eq (ds : Str) :
    ParseUint ds =
      if ds ≠ [] ∧ ds.all (fun d => decide (48 ≤ d ∧ d ≤ 57)) = true ∧
          ds.foldl (fun n d => n * 10 + (d.toNat - 48)) 0 ≤ 2 ^ 64 - 1 then
        some (ds.foldl (fun n d => n * 10 + (d.toNat - 48)) 0)
      else none := by
  unfold ParseUint
  by_cases h : ds = []
  · rw [if_pos h, if_neg (fun hc => hc.1 h)]
  · rw [if_neg h, parseUintLoop_eq ds 0 (by omega)]
    by_cases hs : ds.all (fun d => decide (48 ≤ d ∧ d ≤ 57)) = true ∧
        ds.foldl (fun n d => n * 10 + (d.toNat - 48)) 0 ≤ 2 ^ 64 - 1
    · rw [if_pos hs, if_pos ⟨h, hs⟩]
    · rw [if_neg hs, if_neg (fun hc => hs hc.2)]

/-- The sign and range stage of `ParseInt`, on the digits that follow the optional sign. -/
theorem parseInt_stage (neg : Bool) (ds : Str) :
    (match ParseUint ds with
      | none => none
      | some un =>
        if ¬ neg ∧ un ≥ 2 ^ 63 then none
        else if neg ∧ un > 2 ^ 63 then none
        else some (if neg then - (un : Int) else (un : Int))) =
      (if ds ≠ [] ∧ ds.all (fun d => decide (48 ≤ d ∧ d ≤ 57)) = true then
        some (if neg then
            - ((ds.foldl (fun n d => n * 10 + (d.toNat - 48)) 0 : Nat) : Int)
          else ((ds.foldl (fun n d => n * 10 + (d.toNat - 48)) 0 : Nat) : Int))
      else none).bind
        (fun v : Int =>
          if - 9223372036854775808 ≤ v ∧ v < 9223372036854775808 then some v else none) := by
  rw [ParseUint_eq]
  generalize ds.foldl (fun n d => n * 10 + (d.toNat - 48)) 0 = V
  by_cases h : ds ≠ [] ∧ ds.all (fun d => decide (48 ≤ d ∧ d ≤ 57)) = true
  · rw [if_pos h]
    simp only [Option.some_bind]
    by_cases hV : V ≤ 2 ^ 64 - 1
    · rw [if_pos ⟨h.1, h.2, hV⟩]
      simp only []
      cases neg
      · simp only [Bool.false_eq_true, not_false_eq_true, true_and, false_and, if_false]
        by_cases hr : V ≥ 2 ^ 63
        · rw [if_pos hr, if_neg]
          intro hc
          have := hc.2
          omega
        · rw [if_neg hr, if_pos]
          constructor <;> omega
      · simp only [not_true_eq_false, false_and, true_and, if_false, if_true]
        by_cases hr : V > 2 ^ 63
        · rw [if_pos hr, if_neg]
          intro hc
          have := hc.1
          omega
        · rw [if_neg hr, if_pos]
          constructor <;> omega
    · rw [if_neg (fun hc => hV hc.2.2)]
      simp only []
      rw [if_neg]
      intro hc
      cases neg
      · simp only [Bool.false_eq_true, if_false] at hc
        omega
      · simp only [if_true] at hc
        omega
  · rw [if_neg h, if_neg (fun hc => h ⟨hc.1, hc.2.1⟩)]
    rfl

/-- The loop and sign stage of the fast path of `Atoi`, on at most 18 digits. -/
theorem atoiFast_stage (neg : Bool) (ds : Str) (hne : ds ≠ []) (hl : ds.length < 19) :
    (match atoiLoop 0 ds with
      | none => none
      | some n => some (if neg then - n else n)) =
      (if ds ≠ [] ∧ ds.all (fun d => decide (48 ≤ d ∧ d ≤ 57)) = true then
        some (if neg then
            - ((ds.foldl (fun n d => n * 10 + (d.toNat - 48)) 0 : Nat) : Int)
          else ((ds.foldl (fun n d => n * 10 + (d.toNat - 48)) 0 : Nat) : Int))
      else none).bind
        (fun v : Int =>
          if - 9223372036854775808 ≤ v ∧ v < 9223372036854775808 then some v else none) := by
  have h0 := atoiLoop_eq ds 0
  rw [Nat.cast_zero] at h0
  rw [h0]
  by_cases h : ds.all (fun d => decide (48 ≤ d ∧ d ≤ 57)) = true
  · rw [if_pos h, if_pos ⟨hne, h⟩]
    have hV : ds.foldl (fun n d => n * 10 + (d.toNat - 48)) 0 < 1000000000000000000 := by
      have hlt := digits_foldl_lt ds 0 h
      rw [Nat.zero_add, Nat.one_mul] at hlt
      have hpow : 10 ^ ds.length ≤ 10 ^ 18 :=
        Nat.pow_le_pow_right (by decide) (Nat.le_of_lt_succ hl)
      have h18 : (10 : Nat) ^ 18 = 1000000000000000000 := by norm_num
      rw [h18] at hpow
      exact lt_of_lt_of_le hlt hpow
    generalize ds.foldl (fun n d => n * 10 + (d.toNat - 48)) 0 = V at hV
    have hpos : - 9223372036854775808 ≤ (V : Int) ∧ (V : Int) < 9223372036854775808 := by
      constructor <;> omega
    have hneg : - 9223372036854775808 ≤ - (V : Int) ∧ - (V : Int) < 9223372036854775808 := by
      constructor <;> omega
    rw [Option.some_bind]
    cases neg
    · simp only [Bool.false_eq_true, if_false]
      exact (if_pos hpos).symm
    · simp only [if_true]
      exact (if_pos hneg).symm
  · rw [if_neg h, if_neg (fun hc => h hc.2)]
    rfl

theorem ParseInt_eq (s : Str) :
    ParseInt s =
      (decimalValue s).bind
        (fun v : Int =>
          if - 9223372036854775808 ≤ v ∧ v < 9223372036854775808 then some v else none) := by
  cases s with
  | nil => rfl
  | cons c rest =>
    exact parseInt_stage (c == 45) (if c == 43 ∨ c == 45 then rest else c :: rest)

theorem atoiFast_eq (s : Str) (hl : s.length < 19) :
    atoiFast s =
      (decimalValue s).bind
        (fun v : Int =>
          if - 9223372036854775808 ≤ v ∧ v < 9223372036854775808 then some v else none) := by
  cases s with
  | nil => rfl
  | cons c rest =>
    rw [List.length_cons] at hl
    by_cases hs : (c == 45) = true ∨ (c == 43) = true
    · have hs2 : (c == 43) = true ∨ (c == 45) = true := hs.symm
      have hd : decimalValue (c :: rest) =
          if rest ≠ [] ∧ rest.all (fun d => decide (48 ≤ d ∧ d ≤ 57)) = true then
            some (if (c == 45) = true then
                - ((rest.foldl (fun n d => n * 10 + (d.toNat - 48)) 0 : Nat) : Int)
              else ((rest.foldl (fun n d => n * 10 + (d.toNat - 48)) 0 : Nat) : Int))
          else none := by
        unfold decimalValue
        simp only [if_pos hs2]
      rw [hd]
      by_cases hr : rest = []
      · have ha : atoiFast (c :: rest) = none := by
          unfold atoiFast
          simp only [if_pos hs]
          rw [if_pos ⟨hs, by rw [hr]; exact Nat.zero_lt_one⟩]
        rw [ha, if_neg (fun h => h.1 hr)]
        rfl
      · have ha : atoiFast (c :: rest) =
            match atoiLoop 0 rest with
            | none => none
            | some n => some (if (c == 45) = true then - n else n) := by
          unfold atoiFast
          have hpos := List.length_pos.2 hr
          simp only [if_pos hs]
          exact if_neg (fun h => absurd h.2 (by omega))
        rw [ha]
        exact atoiFast_stage (c == 45) rest hr (by omega)
    · have hs2 : ¬ ((c == 43) = true ∨ (c == 45) = true) := fun h => hs h.symm
      have hd : decimalValue (c :: rest) =
          if c :: rest ≠ [] ∧ (c :: rest).all (fun d => decide (48 ≤ d ∧ d ≤ 57)) = true then
            some (if (c == 45) = true then
                - (((c :: rest).foldl (fun n d => n * 10 + (d.toNat - 48)) 0 : Nat) : Int)
              else (((c :: rest).foldl (fun n d => n * 10 + (d.toNat - 48)) 0 : Nat) : Int))
          else none := by
        unfold decimalValue
        simp only [if_neg hs2]
      have ha : atoiFast (c :: rest) =
          match atoiLoop 0 (c :: rest) with
          | none => none
          | some n => some (if (c == 45) = true then - n else n) := by
        unfold atoiFast
        simp only [if_neg hs]
        exact if_neg (fun h => hs h.1)
      rw [ha, hd]
      exact atoiFast_stage (c == 45) (c :: rest) (List.cons_ne_nil _ _)
        (by rw [List.length_cons]; exact hl)

/-- Go `strconv.Atoi` returns exactly the decimal readings that fit in an `int64`. -/
theorem Atoi_eq (s : Str) :
    Atoi s =
      (decimalValue s).bind
        (fun v : Int =>
          if - 9223372036854775808 ≤ v ∧ v < 9223372036854775808 then some v else none) := by
  unfold Atoi
  by_cases h : 0 < s.length ∧ s.length < 19
  · rw [if_pos h, atoiFast_eq s h.2]
  · rw [if_neg h, ParseInt_eq]

/-- C16: with the line read trimmed to `t`, `promptSelection` returns `matches[k-1].Text` when
`t` is a decimal integer `k` with `1 <= k <= len(matches)`, returns the "invalid selection"
error carrying `t` for every other line, and `promptDeleteSelection` returns the same result
as `promptSelection` on every input.  The length of a Go slice is below `2^63`. -/
theorem promptSelection_spec (trimU trimRightU : Str → Str) (found : List Match) (input : Str)
    (hlen : found.length < 2 ^ 63) :
    (∀ k : Int, decimalValue (TrimSpace trimU trimRightU input) = some k →
        1 ≤ k → k ≤ (found.length : Int) →
        ∃ m, found[(k - 1).toNat]? = some m ∧
          promptSelection trimU trimRightU found (some input) = Except.ok m.Text) ∧
      ((¬ ∃ k : Int, decimalValue (TrimSpace trimU trimRightU input) = some k ∧
            1 ≤ k ∧ k ≤ (found.length : Int)) →
        promptSelection trimU trimRightU found (some input) =
          Except.error (PromptError.invalidSelection (TrimSpace trimU trimRightU input))) ∧
      (∀ read : Option Str, promptDeleteSelection trimU trimRightU found read =
        promptSelection trimU trimRightU found read) := by
  have hA := Atoi_eq (TrimSpace trimU trimRightU input)
  refine ⟨fun k hk h1 h2 => ?_, fun hno => ?_, fun read => rfl⟩
  · have hat : Atoi (TrimSpace trimU trimRightU input) = some k := by
      rw [hA, hk, Option.some_bind]
      exact if_pos ⟨by omega, by omega⟩
    have hi : (k - 1).toNat < found.length := by omega
    refine ⟨found[(k - 1).toNat], List.getElem?_eq_getElem hi, ?_⟩
    unfold promptSelection
    simp only [hat]
    rw [if_neg (by omega), List.getElem?_eq_getElem hi]
  · unfold promptSelection
    cases hat : Atoi (TrimSpace trimU trimRightU input) with
    | none => simp only [hat]
    | some sel =>
      simp only [hat]
      have hd : decimalValue (TrimSpace trimU trimRightU input) = some sel := by
        rw [hat] at hA
        cases hv : decimalValue (TrimSpace trimU trimRightU input) with
        | none =>
          rw [hv] at hA
          exact absurd hA (by simp)
        | some v =>
          rw [hv, Option.some_bind] at hA
          by_cases hr : - 9223372036854775808 ≤ v ∧ v < 9223372036854775808
          · rw [if_pos hr] at hA
            exact hA.symm
          · rw [if_neg hr] at hA
            exact absurd hA (by simp)
      have hout : sel < 1 ∨ sel > (found.length : Int) := by
        by_contra hc
        exact hno ⟨sel, hd, by omega, by omega⟩
      rw [if_pos hout]

theorem promptSelection_spec_witness :
    [Match.mk (bytes "feature-auth") 88, Match.mk (bytes "feature-api") 70].length < 2 ^ 63 ∧
      ((∀ k : Int, decimalValue (TrimSpace id id (bytes " 2\n")) = some k →
          1 ≤ k →
          k ≤ (([Match.mk (bytes "feature-auth") 88,
            Match.mk (bytes "feature-api") 70].length : Nat) : Int) →
          ∃ m, [Match.mk (bytes "feature-auth") 88,
              Match.mk (bytes "feature-api") 70][(k - 1).toNat]? = some m ∧
            promptSelection id id
              [Match.mk (bytes "feature-auth") 88, Match.mk (bytes "feature-api") 70]
              (some (bytes " 2\n")) = Except.ok m.Text) ∧
        ((¬ ∃ k : Int, decimalValue (TrimSpace id id (bytes " 2\n")) = some k ∧
              1 ≤ k ∧
              k ≤ (([Match.mk (bytes "feature-auth") 88,
                Match.mk (bytes "feature-api") 70].length : Nat) : Int)) →
          promptSelection id id
              [Match.mk (bytes "feature-auth") 88, Match.mk (bytes "feature-api") 70]
              (some (bytes " 2\n")) =
            Except.error (PromptError.invalidSelection (TrimSpace id id (bytes " 2\n")))) ∧
        (∀ read : Option Str,
          promptDeleteSelection id id
              [Match.mk (bytes "feature-auth") 88, Match.mk (bytes "feature-api") 70] read =
            promptSelection id id
              [Match.mk (bytes "feature-auth") 88, Match.mk (bytes "feature-api") 70] read)) :=
  ⟨by decide,
    promptSelection_spec id id
      [Match.mk (bytes "feature-auth") 88, Match.mk (bytes "feature-api") 70]
      (bytes " 2\n") (by decide)⟩

end Fuzzy
